import Mathlib

/-!
# A verification development for `sysprog`

Two C sources are embedded here as Lean definitions:

* `src/3/userfs.c`: an in-memory file system (namespace `UserFS`);
* `src/1/corobus.c`: a message bus between coroutines (namespace `CoroBus`).

Conventions of the embedding.

* A C object that is reached through a pointer is identified by an address, a
  natural number handed out by an allocation counter; `malloc` never fails.
* A function that can dereference a null or dangling pointer, read outside a
  buffer, or spin forever, returns an `Option`; `none` stands for such a run.
* `size_t` arithmetic that can wrap is written with an explicit `% SIZE_MOD`.
  The `int` counters (`refs`, `file_descriptor_count`, `channel_count`) are
  unbounded: they count live allocations.
* Bytes of a freshly allocated block, which C leaves indeterminate, read as `0`.
-/

namespace UserFS

/-! ## Data model of `userfs.c` -/

/-- The enum constant `BLOCK_SIZE`. -/
def BLOCK_SIZE : Nat := 512

/-- The enum constant `MAX_FILE_SIZE`. -/
def MAX_FILE_SIZE : Nat := 1024 * 1024 * 100

/-- Number of values of a `size_t` (64 bits). -/
def SIZE_MOD : Nat := 2 ^ 64

/-- The error codes named in `userfs.c`. -/
inductive ufs_error_code where
  | UFS_ERR_NO_ERR
  | UFS_ERR_NO_FILE
  | UFS_ERR_NO_MEM
  | UFS_ERR_NOT_IMPLEMENTED
deriving DecidableEq, Repr

open ufs_error_code

/-- Modelled from the spec: the header `userfs.h`, which declares the open
flag `UFS_CREATE`, is not among the sources; the spec calls it `create_flag`,
a single bit of the flags word. -/
def UFS_CREATE : Nat := 1

/-- A byte of file data. -/
abbrev Byte := Fin 256

/-- The `struct block`: its memory (`BLOCK_SIZE` bytes) and the number of
occupied bytes. The `next`/`prev` links are the order of the list that holds
the block. -/
structure block where
  memory : List Byte
  occupied : Nat
deriving DecidableEq, Repr

/-- The `struct file`. `addr` is the address of the object; `block_list` is the
chain of blocks from the head (`last_block` is its last element). The
`next`/`prev` links are the order of `file_list`. -/
structure file where
  addr : Nat
  block_list : List block
  refs : Int
  name : String
  is_deleted : Bool
  size : Nat
deriving DecidableEq, Repr

/-- The `struct filedesc`; `file` is the address of the file it points to. -/
structure filedesc where
  file : Nat
  pos : Nat
  is_open : Bool
deriving DecidableEq, Repr

/-- The global variables of `userfs.c`. `file_descriptor_count` is the length
of `file_descriptors`; `next_addr` is the allocation counter for files. -/
structure State where
  ufs_error_code : ufs_error_code
  file_list : List file
  file_descriptors : List (Option filedesc)
  file_descriptor_capacity : Nat
  next_addr : Nat
deriving DecidableEq, Repr

/-- The state at program start. -/
def init : State :=
  { ufs_error_code := UFS_ERR_NO_ERR, file_list := [], file_descriptors := [],
    file_descriptor_capacity := 0, next_addr := 0 }

/-- The value of `file_descriptor_count`. -/
def State.file_descriptor_count (s : State) : Nat := s.file_descriptors.length

/-- The function `ufs_errno`. -/
def ufs_errno (s : State) : ufs_error_code := s.ufs_error_code

/-! ## Pointer plumbing -/

/-- Dereference of a `struct file *`: the live file at an address. -/
def deref : List file → Nat → Option file
  | [], _ => none
  | f :: rest, a => if f.addr = a then some f else deref rest a

/-- Store through a `struct file *`: replace the file at the address of `f`. -/
def store (fl : List file) (f : file) : List file :=
  fl.map (fun g => if g.addr = f.addr then f else g)

/-- Unlink the file at an address from the list and free it. -/
def unlink (fl : List file) (a : Nat) : List file :=
  fl.filter (fun g => g.addr ≠ a)

/-- The descriptor check that opens `ufs_write`, `ufs_read` and `ufs_close`:
the open descriptor in slot `fd`, if the number is in range and the slot is
neither `NULL` nor closed. -/
def get_desc (s : State) (fd : Int) : Option filedesc :=
  if fd < 0 ∨ fd ≥ (s.file_descriptor_count : Int) then none
  else
    match s.file_descriptors.getD fd.toNat none with
    | none => none
    | some d => if d.is_open then some d else none

/-! ## The functions of `userfs.c` -/

/-- The function `find_file`: first file with the name that is not deleted. -/
def find_file : List file → String → Option file
  | [], _ => none
  | f :: rest, filename =>
    if f.name = filename ∧ f.is_deleted = false then some f
    else find_file rest filename

/-- The function `create_file`: a new empty file at the head of the list. -/
def create_file (s : State) (filename : String) : file × State :=
  let f : file :=
    { addr := s.next_addr, block_list := [], refs := 0, name := filename,
      is_deleted := false, size := 0 }
  (f, { s with file_list := f :: s.file_list, next_addr := s.next_addr + 1 })

/-- The function `create_block`. -/
def create_block : block :=
  { memory := List.replicate BLOCK_SIZE 0, occupied := 0 }

/-- The function `append_block`, on the file and the global error code. -/
def append_block (f : file) (err : ufs_error_code) : file × ufs_error_code :=
  if f.size ≥ MAX_FILE_SIZE then (f, UFS_ERR_NO_MEM)
  else ({ f with block_list := f.block_list ++ [create_block] }, err)

/-- The tail of `ufs_open` from the allocation of the descriptor on: the file
`f` gets one more reference, the descriptor goes to the end of the array, and
its index is returned. -/
def attach (s : State) (f : file) : Int × State :=
  let fd : filedesc := { file := f.addr, pos := 0, is_open := true }
  let cap :=
    if s.file_descriptor_count = s.file_descriptor_capacity then
      (if s.file_descriptor_capacity = 0 then 1 else s.file_descriptor_capacity * 2)
    else s.file_descriptor_capacity
  ((s.file_descriptor_count : Int),
   { s with file_list := store s.file_list { f with refs := f.refs + 1 },
            file_descriptors := s.file_descriptors ++ [some fd],
            file_descriptor_capacity := cap })

/-- The function `ufs_open`. -/
def ufs_open (s : State) (filename : String) (flags : Nat) : Int × State :=
  match find_file s.file_list filename with
  | some f =>
    if f.is_deleted then (-1, { s with ufs_error_code := UFS_ERR_NO_FILE })
    else attach s f
  | none =>
    if flags &&& UFS_CREATE = 0 then
      (-1, { s with ufs_error_code := UFS_ERR_NO_FILE })
    else
      attach (create_file s filename).2 (create_file s filename).1

/-- The `memcpy` of `to_write` bytes into a block at an offset, and the update
of `occupied` that follows it. -/
def block_write (b : block) (offset to_write : Nat) (chunk : List Byte) : block :=
  { memory := b.memory.take offset ++ chunk ++ b.memory.drop (offset + to_write),
    occupied := if offset + to_write > b.occupied then offset + to_write
                else b.occupied }

/-- The body of the `while (written < size)` loop of `ufs_write`, on the file
of the descriptor, its position, the count written and the error code. The
walk along `next` finds block `block_num` or ends in `NULL`; then
`append_block` runs and the block written is `last_block`. -/
def write_iter (buf : List Byte) (size : Nat) (f : file) (pos written : Nat)
    (err : ufs_error_code) : Option (file × Nat × Nat × ufs_error_code) :=
  let block_num := pos / BLOCK_SIZE
  let offset := pos % BLOCK_SIZE
  let r := if block_num < f.block_list.length then (f, err) else append_block f err
  let idx := if block_num < f.block_list.length then block_num
             else r.1.block_list.length - 1
  match r.1.block_list[idx]? with
  | none => none
  | some b =>
    let space_in_block := BLOCK_SIZE - offset
    let to_write := if size - written < space_in_block then size - written
                    else space_in_block
    let b1 := block_write b offset to_write ((buf.drop written).take to_write)
    some ({ r.1 with block_list := r.1.block_list.set idx b1,
                     size := if pos + to_write > r.1.size then pos + to_write
                             else r.1.size },
          pos + to_write, written + to_write, r.2)

/-- The `while (written < size)` loop of `ufs_write`. The first argument bounds
the number of iterations; every iteration writes at least one byte, so `size`
iterations are enough. -/
def write_loop (buf : List Byte) (size : Nat) (fuel : Nat) (f : file) (pos written : Nat)
    (err : ufs_error_code) : Option (file × Nat × Nat × ufs_error_code) :=
  if written < size then
    match fuel with
    | 0 => none
    | fuel1 + 1 =>
      match write_iter buf size f pos written err with
      | none => none
      | some r => write_loop buf size fuel1 r.1 r.2.1 r.2.2.1 r.2.2.2
  else some (f, pos, written, err)

/-- The function `ufs_write`; the request size is the length of `buf`. `cut`
is the condition of the `if` that shortens the request and `size1` the size
after it. A size that would make `memcpy` read past the end of `buf` is a run
with no defined result, as is a descriptor whose file is gone. -/
def ufs_write (s : State) (fd : Int) (buf : List Byte) : Option (Int × State) :=
  match get_desc s fd with
  | none => some (-1, { s with ufs_error_code := UFS_ERR_NO_FILE })
  | some desc =>
    match deref s.file_list desc.file with
    | none => none
    | some f =>
      let size := buf.length
      if f.size ≥ MAX_FILE_SIZE ∧ (desc.pos + size) % SIZE_MOD > f.size then
        some (-1, { s with ufs_error_code := UFS_ERR_NO_MEM })
      else
        let cut := (desc.pos + size) % SIZE_MOD > f.size ∧
          (f.size + ((desc.pos + size) % SIZE_MOD + SIZE_MOD - f.size) % SIZE_MOD)
            % SIZE_MOD > MAX_FILE_SIZE
        let size1 := if cut then (MAX_FILE_SIZE + SIZE_MOD - desc.pos) % SIZE_MOD else size
        if cut ∧ size1 = 0 then
          some (-1, { s with ufs_error_code := UFS_ERR_NO_MEM })
        else if size1 > buf.length then none
        else
          match write_loop buf size1 size1 f desc.pos 0 s.ufs_error_code with
          | none => none
          | some r =>
            some ((r.2.2.1 : Int),
              { s with ufs_error_code := r.2.2.2,
                       file_list := store s.file_list r.1,
                       file_descriptors :=
                         s.file_descriptors.set fd.toNat (some { desc with pos := r.2.1 }) })

/-- The `while` loop of `ufs_read`, on the file of the descriptor, its position
and the bytes read so far. The first argument bounds the number of iterations.
An iteration that reads nothing leaves every variable as it was, so the C loop
never ends: that run is `none`, as is a copy from outside the block. -/
def read_loop (f : file) (size : Nat) (fuel pos : Nat) (out : List Byte) :
    Option (Nat × List Byte) :=
  if out.length < size ∧ pos < f.size then
    match fuel with
    | 0 => none
    | fuel1 + 1 =>
      let block_num := pos / BLOCK_SIZE
      let offset := pos % BLOCK_SIZE
      match f.block_list[block_num]? with
      | none => some (pos, out)
      | some b =>
        let available_in_block := (b.occupied + SIZE_MOD - offset) % SIZE_MOD
        let to_read := if size - out.length < available_in_block then size - out.length
                       else available_in_block
        if to_read = 0 then none
        else if offset + to_read > b.memory.length then none
        else read_loop f size fuel1 (pos + to_read) (out ++ (b.memory.drop offset).take to_read)
  else some (pos, out)

/-- The function `ufs_read`: the return value, the bytes copied to the start
of the caller's buffer, and the new state. -/
def ufs_read (s : State) (fd : Int) (size : Nat) : Option (Int × List Byte × State) :=
  match get_desc s fd with
  | none => some (-1, [], { s with ufs_error_code := UFS_ERR_NO_FILE })
  | some desc =>
    match deref s.file_list desc.file with
    | none => none
    | some f =>
      match read_loop f size size desc.pos [] with
      | none => none
      | some r =>
        some ((r.2.length : Int), r.2,
          { s with file_descriptors :=
                     s.file_descriptors.set fd.toNat (some { desc with pos := r.1 }) })

/-- The function `ufs_close`. -/
def ufs_close (s : State) (fd : Int) : Option (Int × State) :=
  match get_desc s fd with
  | none => some (-1, { s with ufs_error_code := UFS_ERR_NO_FILE })
  | some desc =>
    match deref s.file_list desc.file with
    | none => none
    | some f =>
      let f1 : file := { f with refs := f.refs - 1 }
      let fl := if f1.refs = 0 ∧ f1.is_deleted then unlink s.file_list f.addr
                else store s.file_list f1
      some (0, { s with file_list := fl,
                        file_descriptors := s.file_descriptors.set fd.toNat none })

/-- The function `ufs_delete`. -/
def ufs_delete (s : State) (filename : String) : Int × State :=
  match find_file s.file_list filename with
  | none => (-1, { s with ufs_error_code := UFS_ERR_NO_FILE })
  | some f =>
    let f1 : file := { f with is_deleted := true }
    let fl := if f1.refs = 0 then unlink s.file_list f.addr else store s.file_list f1
    (0, { s with file_list := fl })

/-- The function `ufs_destroy`: every file and every descriptor is freed and
the three variables of the descriptor array are reset; the error code is not
touched. -/
def ufs_destroy (s : State) : State :=
  { s with file_list := [], file_descriptors := [], file_descriptor_capacity := 0 }


/-! ## Observations and invariants -/

/-- Largest value of an `ssize_t`, the return type of `ufs_write`. -/
def SSIZE_MAX : Nat := 2 ^ 63 - 1

/-- The byte at offset `j` of the block chain of a file. -/
def byte (f : file) (j : Nat) : Byte :=
  match f.block_list[j / BLOCK_SIZE]? with
  | some b => b.memory.getD (j % BLOCK_SIZE) 0
  | none => 0

/-- The bytes of a file at offsets `p`, ..., `p + m - 1`. -/
def slice (f : file) (p m : Nat) : List Byte := (List.range' p m).map (byte f)

/-- The content of a file: its first `size` bytes. -/
def contents (f : file) : List Byte := slice f 0 f.size

/-- The block chain of a file fits its size: the size is within the maximum,
the chain has just the blocks the size needs, every block has `BLOCK_SIZE`
bytes of memory, and `occupied` is the part of the file that lies in the
block. -/
def file_ok (f : file) : Prop :=
  f.size ≤ MAX_FILE_SIZE ∧
  f.block_list.length = (f.size + (BLOCK_SIZE - 1)) / BLOCK_SIZE ∧
  ∀ i b, f.block_list[i]? = some b →
    b.memory.length = BLOCK_SIZE ∧ b.occupied = min BLOCK_SIZE (f.size - BLOCK_SIZE * i)

/-- Number of descriptors in the array that point to the file at address `a`. -/
def refcount : List (Option filedesc) → Nat → Nat
  | [], _ => 0
  | none :: rest, a => refcount rest a
  | some d :: rest, a => (if d.file = a then 1 else 0) + refcount rest a

/-- The invariant of the file system state. -/
structure WF (s : State) : Prop where
  /-- every file has a block chain that fits its size -/
  files : ∀ f ∈ s.file_list, file_ok f
  /-- live files have distinct addresses -/
  addrs : (s.file_list.map file.addr).Nodup
  /-- addresses in use are below the allocation counter -/
  fresh : ∀ f ∈ s.file_list, f.addr < s.next_addr
  /-- a descriptor in the array is open, points to a live file, and its
  position is within the file -/
  descs : ∀ d, some d ∈ s.file_descriptors →
    d.is_open = true ∧ ∃ f, deref s.file_list d.file = some f ∧ d.pos ≤ f.size
  /-- the reference count of a file is the number of its descriptors -/
  refs : ∀ f ∈ s.file_list, f.refs = (refcount s.file_descriptors f.addr : Int)
  /-- no file is both deleted and unreferenced -/
  nodead : ∀ f ∈ s.file_list, ¬ (f.is_deleted = true ∧ f.refs = 0)
  /-- names are unique among the files that are not deleted -/
  names : ∀ f ∈ s.file_list, ∀ g ∈ s.file_list, f.is_deleted = false →
    g.is_deleted = false → f.name = g.name → f.addr = g.addr

/-- The states reachable from the empty file system by calls of `ufs_open`,
`ufs_write`, `ufs_read`, `ufs_close` and `ufs_delete`. A write request has a
size that its return type can hold. -/
inductive Reachable : State → Prop where
  | init : Reachable init
  | ufs_open (s : State) (filename : String) (flags : Nat) :
      Reachable s → Reachable (ufs_open s filename flags).2
  | ufs_write (s : State) (fd : Int) (buf : List Byte) (r : Int × State) :
      Reachable s → buf.length ≤ SSIZE_MAX → ufs_write s fd buf = some r → Reachable r.2
  | ufs_read (s : State) (fd : Int) (size : Nat) (r : Int × List Byte × State) :
      Reachable s → ufs_read s fd size = some r → Reachable r.2.2
  | ufs_close (s : State) (fd : Int) (r : Int × State) :
      Reachable s → ufs_close s fd = some r → Reachable r.2
  | ufs_delete (s : State) (filename : String) :
      Reachable s → Reachable (ufs_delete s filename).2

/-! ## Example states -/

/-- The empty file system after `ufs_open("a", UFS_CREATE)`: descriptor 0. -/
def demo_open : State := (ufs_open init "a" UFS_CREATE).2

/-- Then three bytes are written through descriptor 0. -/
def demo_written : State :=
  match ufs_write demo_open 0 [1, 2, 3] with
  | some r => r.2
  | none => demo_open

/-- Then the file is opened again: descriptor 1, at position 0. -/
def demo_two : State := (ufs_open demo_written "a" 0).2

/-- The file `a` in `demo_two`. -/
def demo_file : file :=
  match deref demo_two.file_list 0 with
  | some f => f
  | none => { addr := 0, block_list := [], refs := 0, name := "a", is_deleted := false, size := 0 }

/-- The file `a` opened twice on the empty file system: descriptors 0 and 1,
both at position 0 of the empty file. -/
def demo_pair : State := (ufs_open demo_open "a" 0).2

/-- Three files opened on the empty file system: descriptors 0, 1 and 2. -/
def demo_three : State :=
  (ufs_open (ufs_open (ufs_open init "a" UFS_CREATE).2 "b" UFS_CREATE).2 "c" UFS_CREATE).2

/-! ## Observations for the later properties -/

/-- Number of open descriptors in the array that point to the file at address
`a`. -/
def open_count (s : State) (a : Nat) : Nat :=
  s.file_descriptors.countP (fun o =>
    match o with
    | some d => d.is_open && decide (d.file = a)
    | none => false)

/-- The files that the write loop hands to `append_block`, in call order: one
for each iteration whose walk along `next` ends in `NULL`. -/
def write_loop_appends (buf : List Byte) (size : Nat) (fuel : Nat) (f : file)
    (pos written : Nat) (err : ufs_error_code) : List file :=
  if written < size then
    match fuel with
    | 0 => []
    | fuel1 + 1 =>
      (if pos / BLOCK_SIZE < f.block_list.length then [] else [f]) ++
        match write_iter buf size f pos written err with
        | none => []
        | some r => write_loop_appends buf size fuel1 r.1 r.2.1 r.2.2.1 r.2.2.2
  else []

/-- The files that a call of `ufs_write` hands to `append_block`: those of its
loop, when the call gets that far. -/
def ufs_write_appends (s : State) (fd : Int) (buf : List Byte) : List file :=
  match get_desc s fd with
  | none => []
  | some desc =>
    match deref s.file_list desc.file with
    | none => []
    | some f =>
      let size := buf.length
      if f.size ≥ MAX_FILE_SIZE ∧ (desc.pos + size) % SIZE_MOD > f.size then []
      else
        let cut := (desc.pos + size) % SIZE_MOD > f.size ∧
          (f.size + ((desc.pos + size) % SIZE_MOD + SIZE_MOD - f.size) % SIZE_MOD)
            % SIZE_MOD > MAX_FILE_SIZE
        let size1 := if cut then (MAX_FILE_SIZE + SIZE_MOD - desc.pos) % SIZE_MOD else size
        if cut ∧ size1 = 0 then []
        else if size1 > buf.length then []
        else write_loop_appends buf size1 size1 f desc.pos 0 s.ufs_error_code

/-- A call of one of the five functions that work on files and descriptors. -/
inductive fs_call where
  | call_open (filename : String) (flags : Nat)
  | call_write (fd : Int) (buf : List Byte)
  | call_read (fd : Int) (size : Nat)
  | call_close (fd : Int)
  | call_delete (filename : String)
deriving DecidableEq, Repr

/-- The state after one call; `none` when the call has no defined result. -/
def run_call (s : State) : fs_call → Option State
  | fs_call.call_open filename flags => some (ufs_open s filename flags).2
  | fs_call.call_write fd buf => (ufs_write s fd buf).map (fun r => r.2)
  | fs_call.call_read fd size => (ufs_read s fd size).map (fun r => r.2.2)
  | fs_call.call_close fd => (ufs_close s fd).map (fun r => r.2)
  | fs_call.call_delete filename => some (ufs_delete s filename).2

/-- The state after a run of calls. -/
def run_calls : List fs_call → State → Option State
  | [], s => some s
  | c :: rest, s =>
    match run_call s c with
    | none => none
    | some t => run_calls rest t

/-- A write request has a size that the return type of `ufs_write` can hold. -/
def call_ok : fs_call → Prop
  | fs_call.call_write _ buf => buf.length ≤ SSIZE_MAX
  | _ => True

/-- Reading, writing and closing through the descriptor number fail with
`UFS_ERR_NO_FILE`: they return -1, hand back no bytes, and change nothing but
the error code. -/
def fails_no_file (s : State) (fd : Int) : Prop :=
  (∀ size, ufs_read s fd size
    = some (-1, [], { s with ufs_error_code := UFS_ERR_NO_FILE })) ∧
  (∀ buf, ufs_write s fd buf = some (-1, { s with ufs_error_code := UFS_ERR_NO_FILE })) ∧
  ufs_close s fd = some (-1, { s with ufs_error_code := UFS_ERR_NO_FILE })

end UserFS

namespace CoroBus

/-! ## Data model of `corobus.c` -/

/-- The error codes named in `corobus.c`. -/
inductive coro_bus_error_code where
  | CORO_BUS_ERR_NONE
  | CORO_BUS_ERR_NO_CHANNEL
  | CORO_BUS_ERR_WOULD_BLOCK
  | CORO_BUS_ERR_NOT_IMPLEMENTED
deriving DecidableEq, Repr

open coro_bus_error_code

/-- The `struct data_vector`: `data` holds the first `size` elements of the
array, the messages; `capacity` is the allocated length. -/
structure data_vector where
  data : List Nat
  capacity : Nat
deriving DecidableEq, Repr

/-- The field `size` of a `data_vector`. -/
def data_vector.size (v : data_vector) : Nat := v.data.length

/-- The `struct wakeup_queue`: the coroutines of its entries, first to last. -/
abbrev wakeup_queue := List Nat

/-- The `struct coro_bus_channel`. -/
structure coro_bus_channel where
  size_limit : Nat
  send_queue : wakeup_queue
  recv_queue : wakeup_queue
  data : data_vector
deriving DecidableEq, Repr

/-- The `struct coro_bus`: `channel_count` is the length of `channels`, and a
closed channel is a `NULL` slot. -/
structure coro_bus where
  channels : List (Option coro_bus_channel)
deriving DecidableEq, Repr

/-- The value of `channel_count`. -/
def coro_bus.channel_count (bus : coro_bus) : Nat := bus.channels.length

/-- What lives outside the bus: the variable `global_error`, and the scheduler
of `libcoro`, of which the model keeps the coroutines handed to `coro_wakeup`,
oldest first. -/
structure World where
  global_error : coro_bus_error_code
  wakeups : List Nat
deriving DecidableEq, Repr

/-- The function `coro_bus_errno`. -/
def coro_bus_errno (w : World) : coro_bus_error_code := w.global_error

/-- The function `coro_bus_errno_set`. -/
def coro_bus_errno_set (w : World) (err : coro_bus_error_code) : World :=
  { w with global_error := err }

/-! ## The functions of `corobus.c` -/

/-- The function `data_vector_append_many`; `count` is the length of `data`. -/
def data_vector_append_many (vector : data_vector) (data : List Nat) : data_vector :=
  let count := data.length
  let capacity :=
    if vector.size + count > vector.capacity then
      let c := if vector.capacity = 0 then 4 else vector.capacity * 2
      if c < vector.size + count then vector.size + count else c
    else vector.capacity
  { data := vector.data ++ data, capacity := capacity }

/-- The function `data_vector_append`. -/
def data_vector_append (vector : data_vector) (data : Nat) : data_vector :=
  data_vector_append_many vector [data]

/-- The function `data_vector_pop_first_many`: the messages popped and the
vector left; `none` when the assertion `count <= vector->size` fails. -/
def data_vector_pop_first_many (vector : data_vector) (count : Nat) :
    Option (List Nat × data_vector) :=
  if count ≤ vector.size then
    some (vector.data.take count, { vector with data := vector.data.drop count })
  else none

/-- The function `data_vector_pop_first`; its local `data` starts as 0. -/
def data_vector_pop_first (vector : data_vector) : Option (Nat × data_vector) :=
  match data_vector_pop_first_many vector 1 with
  | some r => some (r.1.headD 0, r.2)
  | none => none

/-- The function `wakeup_queue_wakeup_first`. -/
def wakeup_queue_wakeup_first (w : World) (queue : wakeup_queue) : World :=
  match queue with
  | [] => w
  | coro :: _ => { w with wakeups := w.wakeups ++ [coro] }

/-- The function `coro_bus_new`. -/
def coro_bus_new : coro_bus := { channels := [] }

/-- The check that opens every channel operation: the channel behind a handle,
if the handle is in range and the slot is not `NULL`. -/
def get_channel (bus : coro_bus) (channel : Int) : Option coro_bus_channel :=
  if channel < 0 ∨ channel ≥ (bus.channel_count : Int) then none
  else bus.channels.getD channel.toNat none

/-- The function `coro_bus_channel_open`: the handle returned, and the world
and the bus after the call. -/
def coro_bus_channel_open (w : World) (bus : Option coro_bus) (size_limit : Nat) :
    Int × World × Option coro_bus :=
  match bus with
  | none => (-1, coro_bus_errno_set w CORO_BUS_ERR_NO_CHANNEL, none)
  | some b =>
    let channel : coro_bus_channel :=
      { size_limit := size_limit, send_queue := [], recv_queue := [],
        data := { data := [], capacity := 0 } }
    ((b.channel_count : Int), coro_bus_errno_set w CORO_BUS_ERR_NONE,
      some { b with channels := b.channels ++ [some channel] })

/-- The function `coro_bus_channel_close`. -/
def coro_bus_channel_close (w : World) (bus : Option coro_bus) (channel : Int) :
    World × Option coro_bus :=
  match bus with
  | none => (coro_bus_errno_set w CORO_BUS_ERR_NO_CHANNEL, none)
  | some b =>
    match get_channel b channel with
    | none => (coro_bus_errno_set w CORO_BUS_ERR_NO_CHANNEL, some b)
    | some ch =>
      let w1 : World := { w with wakeups := w.wakeups ++ ch.send_queue ++ ch.recv_queue }
      (coro_bus_errno_set w1 CORO_BUS_ERR_NONE,
        some { b with channels := b.channels.set channel.toNat none })

/-- The function `coro_bus_try_send`. -/
def coro_bus_try_send (w : World) (bus : Option coro_bus) (channel : Int) (data : Nat) :
    Int × World × Option coro_bus :=
  match bus with
  | none => (-1, coro_bus_errno_set w CORO_BUS_ERR_NO_CHANNEL, none)
  | some b =>
    match get_channel b channel with
    | none => (-1, coro_bus_errno_set w CORO_BUS_ERR_NO_CHANNEL, some b)
    | some ch =>
      if ch.data.size ≥ ch.size_limit then
        (-1, coro_bus_errno_set w CORO_BUS_ERR_WOULD_BLOCK, some b)
      else
        let ch1 : coro_bus_channel := { ch with data := data_vector_append ch.data data }
        let w1 := wakeup_queue_wakeup_first w ch1.recv_queue
        (0, coro_bus_errno_set w1 CORO_BUS_ERR_NONE,
          some { b with channels := b.channels.set channel.toNat (some ch1) })

/-- The function `coro_bus_try_recv`: the return value, the message stored to
`*data` if one was, and the world and the bus after the call; `none` when the
assertion in the pop fails. -/
def coro_bus_try_recv (w : World) (bus : Option coro_bus) (channel : Int) :
    Option (Int × Option Nat × World × Option coro_bus) :=
  match bus with
  | none => some (-1, none, coro_bus_errno_set w CORO_BUS_ERR_NO_CHANNEL, none)
  | some b =>
    match get_channel b channel with
    | none => some (-1, none, coro_bus_errno_set w CORO_BUS_ERR_NO_CHANNEL, some b)
    | some ch =>
      if ch.data.size = 0 then
        some (-1, none, coro_bus_errno_set w CORO_BUS_ERR_WOULD_BLOCK, some b)
      else
        match data_vector_pop_first ch.data with
        | none => none
        | some r =>
          let ch1 : coro_bus_channel := { ch with data := r.2 }
          let w1 := wakeup_queue_wakeup_first w ch1.send_queue
          some (0, some r.1, coro_bus_errno_set w1 CORO_BUS_ERR_NONE,
            some { b with channels := b.channels.set channel.toNat (some ch1) })

/-- How a call of a blocking function goes on: it returns, or the coroutine is
suspended in `wakeup_queue_suspend_this`. -/
inductive blocking where
  | returned (ret : Int)
  | suspended
deriving DecidableEq, Repr

/-- The part of `wakeup_queue_suspend_this` before `coro_suspend`, on the send
queue of a channel: the entry of the coroutine `this` goes to the tail. `none`
when the bus or the channel is `NULL`. -/
def suspend_on_send (bus : Option coro_bus) (channel : Int) (this : Nat) :
    Option coro_bus :=
  match bus with
  | none => none
  | some b =>
    match get_channel b channel with
    | none => none
    | some ch =>
      some { b with channels := b.channels.set channel.toNat
                      (some { ch with send_queue := ch.send_queue ++ [this] }) }

/-- The same on the receive queue of a channel. -/
def suspend_on_recv (bus : Option coro_bus) (channel : Int) (this : Nat) :
    Option coro_bus :=
  match bus with
  | none => none
  | some b =>
    match get_channel b channel with
    | none => none
    | some ch =>
      some { b with channels := b.channels.set channel.toNat
                      (some { ch with recv_queue := ch.recv_queue ++ [this] }) }

/-- The function `coro_bus_send`, called by the coroutine `this`, up to its
return or its first suspension. -/
def coro_bus_send (w : World) (bus : Option coro_bus) (channel : Int) (data : Nat)
    (this : Nat) : Option (blocking × World × Option coro_bus) :=
  let r := coro_bus_try_send w bus channel data
  if r.1 = -1 then
    if coro_bus_errno r.2.1 = CORO_BUS_ERR_NO_CHANNEL then
      some (blocking.returned (-1), r.2.1, r.2.2)
    else
      match suspend_on_send r.2.2 channel this with
      | none => none
      | some b1 => some (blocking.suspended, r.2.1, some b1)
  else some (blocking.returned 0, r.2.1, r.2.2)

/-- The function `coro_bus_recv`, called by the coroutine `this`, up to its
return or its first suspension; with the message stored to `*data`, if any. -/
def coro_bus_recv (w : World) (bus : Option coro_bus) (channel : Int) (this : Nat) :
    Option (blocking × Option Nat × World × Option coro_bus) :=
  match coro_bus_try_recv w bus channel with
  | none => none
  | some r =>
    if r.1 = -1 then
      if coro_bus_errno r.2.2.1 = CORO_BUS_ERR_NO_CHANNEL then
        some (blocking.returned (-1), r.2.1, r.2.2.1, r.2.2.2)
      else
        match suspend_on_recv r.2.2.2 channel this with
        | none => none
        | some b1 => some (blocking.suspended, r.2.1, r.2.2.1, some b1)
    else some (blocking.returned 0, r.2.1, r.2.2.1, r.2.2.2)

/-! ## Runs of calls -/

/-- A run of `coro_bus_try_send` calls on one handle, one for each value: the
return value and the error code after each call, and the world and the bus at
the end. -/
def try_send_all (channel : Int) :
    List Nat → World → Option coro_bus →
      List (Int × coro_bus_error_code) × World × Option coro_bus
  | [], w, bus => ([], w, bus)
  | v :: rest, w, bus =>
    let r := coro_bus_try_send w bus channel v
    let t := try_send_all channel rest r.2.1 r.2.2
    ((r.1, coro_bus_errno r.2.1) :: t.1, t.2)

/-- The messages queued in the channel behind a handle, oldest first; none
when there is no channel. -/
def queued (bus : Option coro_bus) (channel : Int) : List Nat :=
  match bus with
  | none => []
  | some b =>
    match get_channel b channel with
    | none => []
    | some ch => ch.data.data

/-- A non-blocking call on one channel. -/
inductive try_op where
  | send (data : Nat)
  | recv
deriving DecidableEq, Repr

/-- What a run of non-blocking calls on one channel has seen: the values of
the sends that returned 0, the values of the receives that returned 0, each in
call order, and the world and the bus at the end. -/
structure trace where
  sent : List Nat
  received : List Nat
  world : World
  bus : Option coro_bus

/-- A run of `coro_bus_try_send` and `coro_bus_try_recv` calls on one handle;
`none` when a call has no defined result. -/
def run_try (channel : Int) : List try_op → trace → Option trace
  | [], t => some t
  | try_op.send v :: rest, t =>
    let r := coro_bus_try_send t.world t.bus channel v
    run_try channel rest
      { sent := if r.1 = 0 then t.sent ++ [v] else t.sent, received := t.received,
        world := r.2.1, bus := r.2.2 }
  | try_op.recv :: rest, t =>
    match coro_bus_try_recv t.world t.bus channel with
    | none => none
    | some r =>
      run_try channel rest
        { sent := t.sent,
          received := match r.2.1 with
            | some v => if r.1 = 0 then t.received ++ [v] else t.received
            | none => t.received,
          world := r.2.2.1, bus := r.2.2.2 }

/-- A call of one of the functions of the bus; `this` is the calling coroutine
of a blocking call. -/
inductive bus_op where
  | channel_open (size_limit : Nat)
  | channel_close (channel : Int)
  | try_send (channel : Int) (data : Nat)
  | try_recv (channel : Int)
  | send (channel : Int) (data : Nat) (this : Nat)
  | recv (channel : Int) (this : Nat)
deriving DecidableEq, Repr

/-- The world and the bus after one call, up to its return or suspension;
`none` when the call has no defined result. -/
def run_op (w : World) (bus : Option coro_bus) : bus_op → Option (World × Option coro_bus)
  | bus_op.channel_open size_limit => some (coro_bus_channel_open w bus size_limit).2
  | bus_op.channel_close channel => some (coro_bus_channel_close w bus channel)
  | bus_op.try_send channel data => some (coro_bus_try_send w bus channel data).2
  | bus_op.try_recv channel => (coro_bus_try_recv w bus channel).map (fun r => r.2.2)
  | bus_op.send channel data this =>
    (coro_bus_send w bus channel data this).map (fun r => r.2)
  | bus_op.recv channel this => (coro_bus_recv w bus channel this).map (fun r => r.2.2)

/-- The world and the bus after a run of calls. -/
def run_ops : List bus_op → World → Option coro_bus → Option (World × Option coro_bus)
  | [], w, bus => some (w, bus)
  | op :: rest, w, bus =>
    match run_op w bus op with
    | none => none
    | some r => run_ops rest r.1 r.2

/-- Every channel operation on the handle fails with `CORO_BUS_ERR_NO_CHANNEL`:
the calls that return a value return -1, the blocking calls return without
suspending, no message is stored, and the bus and the wakeups stay as they
are. -/
def fails_no_channel (w : World) (b : coro_bus) (channel : Int) : Prop :=
  (∀ data, coro_bus_try_send w (some b) channel data
    = (-1, { w with global_error := CORO_BUS_ERR_NO_CHANNEL }, some b)) ∧
  coro_bus_try_recv w (some b) channel
    = some (-1, none, { w with global_error := CORO_BUS_ERR_NO_CHANNEL }, some b) ∧
  (∀ data this, coro_bus_send w (some b) channel data this
    = some (blocking.returned (-1), { w with global_error := CORO_BUS_ERR_NO_CHANNEL },
        some b)) ∧
  (∀ this, coro_bus_recv w (some b) channel this
    = some (blocking.returned (-1), none,
        { w with global_error := CORO_BUS_ERR_NO_CHANNEL }, some b)) ∧
  coro_bus_channel_close w (some b) channel
    = ({ w with global_error := CORO_BUS_ERR_NO_CHANNEL }, some b)

/-! ## Resumed coroutines, and runs with them -/

/-- Modelled from the spec: `rlist.h` and `libcoro.h` are not among the
sources. The part of `wakeup_queue_suspend_this` after `coro_suspend` returns,
on the send queue of a channel: `rlist_del_entry` takes the entry of the
coroutine `this` out of the queue (the spec: a unit is "removed automatically
when its wait resolves"). When the channel was closed in between, the close has
taken the entry out already. -/
def leave_send (bus : Option coro_bus) (channel : Int) (this : Nat) : Option coro_bus :=
  match bus with
  | none => none
  | some b =>
    match get_channel b channel with
    | none => some b
    | some ch =>
      some { b with channels := b.channels.set channel.toNat
                      (some { ch with send_queue := ch.send_queue.erase this }) }

/-- Modelled from the spec: the same on the receive queue of a channel. -/
def leave_recv (bus : Option coro_bus) (channel : Int) (this : Nat) : Option coro_bus :=
  match bus with
  | none => none
  | some b =>
    match get_channel b channel with
    | none => some b
    | some ch =>
      some { b with channels := b.channels.set channel.toNat
                      (some { ch with recv_queue := ch.recv_queue.erase this }) }

/-- The function `coro_bus_send` from the point where the coroutine `this` is
resumed inside `wakeup_queue_suspend_this`, up to its return or its next
suspension: the entry leaves the queue and the loop tries the send again. -/
def coro_bus_send_resume (w : World) (bus : Option coro_bus) (channel : Int) (data : Nat)
    (this : Nat) : Option (blocking × World × Option coro_bus) :=
  coro_bus_send w (leave_send bus channel this) channel data this

/-- The function `coro_bus_recv` from the point where the coroutine `this` is
resumed, up to its return or its next suspension. -/
def coro_bus_recv_resume (w : World) (bus : Option coro_bus) (channel : Int) (this : Nat) :
    Option (blocking × Option Nat × World × Option coro_bus) :=
  coro_bus_recv w (leave_recv bus channel this) channel this

/-- A step of a run in which coroutines take turns: a call of a function of
the bus, up to its return or suspension, or the resumption of a coroutine that
was suspended in `coro_bus_send` or `coro_bus_recv`. -/
inductive bus_step where
  | call (op : bus_op)
  | resume_send (channel : Int) (data : Nat) (this : Nat)
  | resume_recv (channel : Int) (this : Nat)
deriving DecidableEq, Repr

/-- The world and the bus after one step; `none` when the step has no defined
result. -/
def run_step (w : World) (bus : Option coro_bus) : bus_step → Option (World × Option coro_bus)
  | bus_step.call op => run_op w bus op
  | bus_step.resume_send channel data this =>
    (coro_bus_send_resume w bus channel data this).map (fun r => r.2)
  | bus_step.resume_recv channel this =>
    (coro_bus_recv_resume w bus channel this).map (fun r => r.2.2)

/-- The world and the bus after a run of steps. -/
def run_steps : List bus_step → World → Option coro_bus → Option (World × Option coro_bus)
  | [], w, bus => some (w, bus)
  | st :: rest, w, bus =>
    match run_step w bus st with
    | none => none
    | some r => run_steps rest r.1 r.2

/-- 1 for a call of `coro_bus_channel_open`, 0 for any other step. -/
def step_opens : bus_step → Nat
  | bus_step.call (bus_op.channel_open _) => 1
  | _ => 0

/-- Number of `coro_bus_channel_open` calls in a run. -/
def count_opens : List bus_step → Nat
  | [] => 0
  | st :: rest => step_opens st + count_opens rest

/-- The channel that `coro_bus_channel_open` creates. -/
def new_channel (size_limit : Nat) : coro_bus_channel :=
  { size_limit := size_limit, send_queue := [], recv_queue := [],
    data := { data := [], capacity := 0 } }

/-- What a step keeps: the bus is still there, the number of slots grows by
one with an open and not otherwise, closed slots stay closed, and a property
of channels that sends, receives and changes of the waiter queues keep holds of
every channel again. -/
def keeps (P : Nat → coro_bus_channel → Prop) (b : coro_bus) (n : Nat)
    (r : Option (World × Option coro_bus)) : Prop :=
  ∃ w1 b1, r = some (w1, some b1) ∧ b1.channels.length = b.channels.length + n ∧
    (∀ i : Nat, b.channels[i]? = some none → b1.channels[i]? = some none) ∧
    (∀ (i : Nat) (x : coro_bus_channel), b1.channels[i]? = some (some x) → P i x)

/-- A coroutine that was suspended in `coro_bus_send` or `coro_bus_recv` on the
handle and is resumed fails with `CORO_BUS_ERR_NO_CHANNEL`: the call returns -1
without suspending again, stores no message and leaves the bus and the wakeups
as they are. -/
def resumed_fails_no_channel (w : World) (b : coro_bus) (channel : Int) : Prop :=
  (∀ data this, coro_bus_send_resume w (some b) channel data this
    = some (blocking.returned (-1), { w with global_error := CORO_BUS_ERR_NO_CHANNEL },
        some b)) ∧
  (∀ this, coro_bus_recv_resume w (some b) channel this
    = some (blocking.returned (-1), none,
        { w with global_error := CORO_BUS_ERR_NO_CHANNEL }, some b))

/-- No call on the handle passes a message: `coro_bus_try_send` and
`coro_bus_try_recv` return -1, a call of `coro_bus_send` or `coro_bus_recv`, or
its resumption, is suspended or returns -1, and no receive stores a message. -/
def never_delivers (w : World) (b : coro_bus) (channel : Int) : Prop :=
  (∀ data, (coro_bus_try_send w (some b) channel data).1 = -1) ∧
  (∃ r, coro_bus_try_recv w (some b) channel = some r ∧ r.1 = -1 ∧ r.2.1 = none) ∧
  (∀ data this, ∃ r, coro_bus_send w (some b) channel data this = some r ∧
    (r.1 = blocking.suspended ∨ r.1 = blocking.returned (-1))) ∧
  (∀ this, ∃ r, coro_bus_recv w (some b) channel this = some r ∧
    (r.1 = blocking.suspended ∨ r.1 = blocking.returned (-1)) ∧ r.2.1 = none) ∧
  (∀ data this, ∃ r, coro_bus_send_resume w (some b) channel data this = some r ∧
    (r.1 = blocking.suspended ∨ r.1 = blocking.returned (-1))) ∧
  (∀ this, ∃ r, coro_bus_recv_resume w (some b) channel this = some r ∧
    (r.1 = blocking.suspended ∨ r.1 = blocking.returned (-1)) ∧ r.2.1 = none)

/-! ## Example states -/

/-- A world with no error recorded and no wakeups. -/
def demo_world : World := { global_error := CORO_BUS_ERR_NONE, wakeups := [] }

/-- A new channel of capacity 2. -/
def demo_channel : coro_bus_channel :=
  { size_limit := 2, send_queue := [], recv_queue := [], data := { data := [], capacity := 0 } }

/-- A new bus after `coro_bus_channel_open` with capacity 2: handle 0. -/
def demo_bus : coro_bus :=
  match (coro_bus_channel_open demo_world (some coro_bus_new) 2).2.2 with
  | some b => b
  | none => coro_bus_new

/-- On `demo_bus`: coroutine 3 calls `coro_bus_recv` on the empty channel, two
messages are sent, and coroutine 4 calls `coro_bus_send` on the full channel. -/
def demo_waiting : Option (World × Option coro_bus) :=
  run_steps
    [bus_step.call (bus_op.recv 0 3), bus_step.call (bus_op.try_send 0 5),
     bus_step.call (bus_op.try_send 0 6), bus_step.call (bus_op.send 0 7 4)]
    demo_world (some demo_bus)

/-- A new bus after `coro_bus_channel_open` with capacity 0: handle 0. -/
def demo_zero : Option coro_bus :=
  (coro_bus_channel_open demo_world (some coro_bus_new) 0).2.2

/-- On `demo_zero`: coroutine 1 calls `coro_bus_send` with the message 7. -/
def demo_zero_sent : Option (blocking × World × Option coro_bus) :=
  coro_bus_send demo_world demo_zero 0 7 1

/-- After `demo_zero_sent`: coroutine 2 calls `coro_bus_recv`. -/
def demo_zero_met : Option (blocking × Option Nat × World × Option coro_bus) :=
  match demo_zero_sent with
  | some r => coro_bus_recv r.2.1 r.2.2 0 2
  | none => none

/-- The world after `demo_zero_met`. -/
def demo_zero_world : World :=
  { global_error := CORO_BUS_ERR_WOULD_BLOCK, wakeups := [] }

/-- The bus after `demo_zero_met`: both coroutines are in the queues of the
channel and the channel holds no message. -/
def demo_zero_bus : coro_bus :=
  { channels := [some { size_limit := 0, send_queue := [1], recv_queue := [2],
                        data := { data := [], capacity := 0 } }] }

/-- The channel of `demo_waiting`: two messages, coroutine 4 waits to send and
coroutine 3 waits to receive. -/
def demo_waiting_channel : coro_bus_channel :=
  { size_limit := 2, send_queue := [4], recv_queue := [3],
    data := { data := [5, 6], capacity := 4 } }

/-- The bus of `demo_waiting`. -/
def demo_waiting_bus : coro_bus := { channels := [some demo_waiting_channel] }

end CoroBus

namespace UserFS

open ufs_error_code

/-! ## Blocks -/

theorem splice_getD (l chunk : List Byte) (off k m : Nat) (hk : chunk.length = k)
    (hl : off + k ≤ l.length) :
    (l.take off ++ chunk ++ l.drop (off + k)).getD m 0 =
      if off ≤ m ∧ m < off + k then chunk.getD (m - off) 0 else l.getD m 0 := by
  simp only [List.getD_eq_getElem?_getD]
  by_cases h1 : m < off
  · have : ¬ (off ≤ m ∧ m < off + k) := by omega
    rw [if_neg this, List.append_assoc, List.getElem?_append_left (by simp; omega)]
    rw [List.getElem?_take_of_lt h1]
  · by_cases h2 : m < off + k
    · rw [if_pos ⟨by omega, h2⟩, List.append_assoc,
        List.getElem?_append_right (by simp; omega)]
      rw [List.getElem?_append_left (by simp; omega)]
      simp only [List.length_take]
      congr 2
      omega
    · have : ¬ (off ≤ m ∧ m < off + k) := by omega
      rw [if_neg this, List.getElem?_append_right (by simp; omega)]
      simp only [List.length_append, List.length_take, hk, List.getElem?_drop]
      congr 2
      omega

/-- Writing a chunk into the block of position `pos` keeps the chain fitted
to the size, which grows to `pos + k` if that is larger. -/
theorem write_block_ok (bl : List block) (sz pos k : Nat) (b : block) (chunk : List Byte)
    (hk : chunk.length = k) (hk2 : pos % 512 + k ≤ 512) (hpos : pos ≤ sz)
    (hlen : bl.length = (max sz (pos + 1) + 511) / 512)
    (hb : bl[pos / 512]? = some b)
    (hall : ∀ i c, bl[i]? = some c →
      c.memory.length = 512 ∧ c.occupied = min 512 (sz - 512 * i)) (h0 : 0 < k) :
    (bl.set (pos / 512) (block_write b (pos % 512) k chunk)).length
        = ((if pos + k > sz then pos + k else sz) + 511) / 512 ∧
    ∀ i c, (bl.set (pos / 512) (block_write b (pos % 512) k chunk))[i]? = some c →
      c.memory.length = 512 ∧
      c.occupied = min 512 ((if pos + k > sz then pos + k else sz) - 512 * i) := by
  have hbl := hall _ _ hb
  have hlt : pos / 512 < bl.length := by
    rcases Nat.lt_or_ge (pos / 512) bl.length with h | h
    · exact h
    · rw [List.getElem?_eq_none h] at hb; cases hb
  refine ⟨?_, ?_⟩
  · rw [List.length_set, hlen]
    split <;> omega
  · intro i c hc
    rw [List.getElem?_set] at hc
    by_cases hi : pos / 512 = i
    · rw [if_pos hi, if_pos hlt] at hc
      cases hc
      subst hi
      simp only [block_write, List.length_append, List.length_take, List.length_drop, hk]
      refine ⟨by omega, ?_⟩
      split <;> split <;> omega
    · rw [if_neg hi] at hc
      have h := hall i c hc
      refine ⟨h.1, ?_⟩
      have hil : i < bl.length := by
        rcases Nat.lt_or_ge i bl.length with h | h
        · exact h
        · rw [List.getElem?_eq_none h] at hc; cases hc
      rw [h.2]
      split <;> omega

/-- The bytes of the chain after a chunk is written into the block of `pos`. -/
theorem write_block_byte (f : file) (bl : List block) (sz pos k j : Nat) (b : block)
    (chunk : List Byte) (hk : chunk.length = k) (hk2 : pos % 512 + k ≤ 512)
    (hb : bl[pos / 512]? = some b) (hm : b.memory.length = 512) :
    byte { f with block_list := bl.set (pos / 512) (block_write b (pos % 512) k chunk),
                  size := sz } j
      = if pos ≤ j ∧ j < pos + k then chunk.getD (j - pos) 0
        else byte { f with block_list := bl } j := by
  have hlt : pos / 512 < bl.length := by
    rcases Nat.lt_or_ge (pos / 512) bl.length with h | h
    · exact h
    · rw [List.getElem?_eq_none h] at hb; cases hb
  simp only [byte, BLOCK_SIZE, List.getElem?_set]
  by_cases hi : pos / 512 = j / 512
  · rw [if_pos hi, if_pos hlt, ← hi, hb]
    simp only [block_write]
    rw [splice_getD _ _ _ _ _ hk (by omega)]
    by_cases hc : pos % 512 ≤ j % 512 ∧ j % 512 < pos % 512 + k
    · rw [if_pos hc, if_pos (by omega)]
      congr 1
      omega
    · rw [if_neg hc, if_neg (by omega)]
  · rw [if_neg hi, if_neg (by omega)]

/-! ## The write loop -/

theorem chunk_getD (buf : List Byte) (written k i : Nat) (hi : i < k) :
    ((buf.drop written).take k).getD i 0 = buf.getD (written + i) 0 := by
  simp only [List.getD_eq_getElem?_getD, List.getElem?_take_of_lt hi, List.getElem?_drop]

/-- One iteration of the write loop on a fitted file: it writes `k > 0` bytes
of the buffer at the position and keeps the file fitted. -/
theorem write_iter_spec (buf : List Byte) (size : Nat) (f : file) (pos written : Nat)
    (err : ufs_error_code) (hok : file_ok f) (hpos : pos ≤ f.size) (hw : written < size)
    (hsz : size ≤ buf.length) (hmax : pos + (size - written) ≤ MAX_FILE_SIZE) :
    ∃ f2 k, write_iter buf size f pos written err = some (f2, pos + k, written + k, err) ∧
      0 < k ∧ k ≤ size - written ∧ file_ok f2 ∧ f2.size = max f.size (pos + k) ∧
      f2.addr = f.addr ∧ f2.name = f.name ∧ f2.refs = f.refs ∧
      f2.is_deleted = f.is_deleted ∧
      ∀ j, byte f2 j = if pos ≤ j ∧ j < pos + k then buf.getD (written + (j - pos)) 0
                       else byte f j := by
  obtain ⟨hs, hlen, hall⟩ := hok
  simp only [BLOCK_SIZE, MAX_FILE_SIZE] at hs hlen hall hmax
  obtain ⟨k, hkdef⟩ : ∃ k, k = if size - written < 512 - pos % 512 then size - written
      else 512 - pos % 512 := ⟨_, rfl⟩
  have hk0 : 0 < k := by rw [hkdef]; split <;> omega
  have hk1 : k ≤ size - written := by rw [hkdef]; split <;> omega
  have hk2 : pos % 512 + k ≤ 512 := by rw [hkdef]; split <;> omega
  have hchunk : ((buf.drop written).take k).length = k := by
    simp only [List.length_take, List.length_drop]; omega
  have hmx : ∀ a b : Nat, (if b > a then b else a) = max a b := by
    intro a b; split <;> omega
  by_cases hlt : pos / 512 < f.block_list.length
  · obtain ⟨b, hb⟩ : ∃ b, f.block_list[pos / 512]? = some b :=
      ⟨_, List.getElem?_eq_getElem hlt⟩
    have hlen1 : f.block_list.length = (max f.size (pos + 1) + 511) / 512 := by omega
    have hw1 := write_block_ok f.block_list f.size pos k b _ hchunk hk2 hpos hlen1 hb hall hk0
    have hw2 := fun j => write_block_byte f f.block_list
      (if pos + k > f.size then pos + k else f.size) pos k j b _ hchunk hk2 hb (hall _ _ hb).1
    have heq : write_iter buf size f pos written err = some
        (file.mk f.addr (List.set f.block_list (pos / 512)
            (block_write b (pos % 512) k ((buf.drop written).take k))) f.refs f.name
          f.is_deleted (if pos + k > f.size then pos + k else f.size),
         pos + k, written + k, err) := by
      simp only [write_iter, BLOCK_SIZE, if_pos hlt, hb, ← hkdef]
    refine ⟨_, k, heq, hk0, hk1, ⟨?_, ?_, ?_⟩, hmx _ _, rfl, rfl, rfl, rfl, ?_⟩
    · simp only [MAX_FILE_SIZE]; split <;> omega
    · simp only [BLOCK_SIZE]; exact hw1.1
    · simp only [BLOCK_SIZE]; exact hw1.2
    · intro j
      rw [hw2 j]
      by_cases hc : pos ≤ j ∧ j < pos + k
      · rw [if_pos hc, if_pos hc, chunk_getD _ _ _ _ (by omega)]
      · rw [if_neg hc, if_neg hc]
  · have hpe : pos = f.size := by omega
    have hfs : ¬ f.size ≥ MAX_FILE_SIZE := by simp only [MAX_FILE_SIZE]; omega
    have hidx : (f.block_list ++ [create_block]).length - 1 = pos / 512 := by
      simp only [List.length_append, List.length_singleton]; omega
    have hb : (f.block_list ++ [create_block])[pos / 512]? = some create_block := by
      rw [List.getElem?_append_right (by omega)]
      have : pos / 512 - f.block_list.length = 0 := by omega
      rw [this]; rfl
    have hall1 : ∀ i c, (f.block_list ++ [create_block])[i]? = some c →
        c.memory.length = 512 ∧ c.occupied = min 512 (f.size - 512 * i) := by
      intro i c hc
      by_cases hi : i < f.block_list.length
      · rw [List.getElem?_append_left hi] at hc
        exact hall i c hc
      · rw [List.getElem?_append_right (by omega)] at hc
        by_cases hi0 : i - f.block_list.length = 0
        · rw [hi0] at hc
          simp only [List.getElem?_cons_zero, Option.some.injEq] at hc
          subst hc
          simp only [create_block, BLOCK_SIZE, List.length_replicate]
          refine ⟨trivial, ?_⟩
          omega
        · rw [List.getElem?_eq_none (by simp only [List.length_singleton]; omega)] at hc
          cases hc
    have hlen1 : (f.block_list ++ [create_block]).length
        = (max f.size (pos + 1) + 511) / 512 := by
      simp only [List.length_append, List.length_singleton]; omega
    have hw1 := write_block_ok _ f.size pos k create_block _ hchunk hk2 hpos hlen1 hb hall1 hk0
    have hw2 := fun j => write_block_byte f (f.block_list ++ [create_block])
      (if pos + k > f.size then pos + k else f.size) pos k j create_block _ hchunk hk2 hb
      (hall1 _ _ hb).1
    have heq : write_iter buf size f pos written err = some
        (file.mk f.addr (List.set (f.block_list ++ [create_block]) (pos / 512)
            (block_write create_block (pos % 512) k ((buf.drop written).take k))) f.refs
          f.name f.is_deleted (if pos + k > f.size then pos + k else f.size),
         pos + k, written + k, err) := by
      simp only [write_iter, BLOCK_SIZE, if_neg hlt, append_block, if_neg hfs, hidx, hb,
        ← hkdef]
    refine ⟨_, k, heq, hk0, hk1, ⟨?_, ?_, ?_⟩, hmx _ _, rfl, rfl, rfl, rfl, ?_⟩
    · simp only [MAX_FILE_SIZE]; split <;> omega
    · simp only [BLOCK_SIZE]; exact hw1.1
    · simp only [BLOCK_SIZE]; exact hw1.2
    · intro j
      rw [hw2 j]
      by_cases hc : pos ≤ j ∧ j < pos + k
      · rw [if_pos hc, if_pos hc, chunk_getD _ _ _ _ (by omega)]
      · rw [if_neg hc, if_neg hc]
        simp only [byte, BLOCK_SIZE]
        by_cases hj : j / 512 < f.block_list.length
        · rw [List.getElem?_append_left hj]
        · rw [List.getElem?_append_right (by omega), List.getElem?_eq_none (Nat.le_of_not_lt hj)]
          by_cases hi0 : j / 512 - f.block_list.length = 0
          · rw [hi0]
            simp only [List.getElem?_cons_zero, create_block, BLOCK_SIZE]
            simp only [List.getD_eq_getElem?_getD]
            rw [List.getElem?_replicate]
            split <;> rfl
          · rw [List.getElem?_eq_none (by simp only [List.length_singleton]; omega)]

/-- The write loop on a fitted file, with room for the rest of the buffer below
the maximum size: it ends, writes all of `size`, and keeps the file fitted;
the bytes written stand at their offsets and all others are as before. -/
theorem write_loop_spec (buf : List Byte) (size : Nat) :
    ∀ (fuel : Nat) (f : file) (pos written : Nat) (err : ufs_error_code),
      file_ok f → pos ≤ f.size → written ≤ size → size ≤ buf.length →
      size - written ≤ fuel → pos + (size - written) ≤ MAX_FILE_SIZE →
      ∃ f1, write_loop buf size fuel f pos written err
              = some (f1, pos + (size - written), size, err) ∧
        file_ok f1 ∧ f1.size = max f.size (pos + (size - written)) ∧
        f1.addr = f.addr ∧ f1.name = f.name ∧ f1.refs = f.refs ∧
        f1.is_deleted = f.is_deleted ∧
        ∀ j, byte f1 j = if pos ≤ j ∧ j < pos + (size - written)
                         then buf.getD (written + (j - pos)) 0 else byte f j := by
  intro fuel
  induction fuel with
  | zero =>
    intro f pos written err hok hpos hws hsz hfuel hmax
    have hw : written = size := by omega
    subst hw
    refine ⟨f, ?_, hok, ?_, rfl, rfl, rfl, rfl, ?_⟩
    · rw [write_loop]; simp
    · simp; exact hpos
    · intro j; rw [if_neg (by omega)]
  | succ fuel ih =>
    intro f pos written err hok hpos hws hsz hfuel hmax
    by_cases hw : written < size
    · obtain ⟨f2, k, heq, hk0, hk1, hok2, hsz2, ha2, hn2, hr2, hd2, hb2⟩ :=
        write_iter_spec buf size f pos written err hok hpos hw hsz hmax
      obtain ⟨f1, heq1, hok1, hsz1, ha1, hn1, hr1, hd1, hb1⟩ :=
        ih f2 (pos + k) (written + k) err hok2 (by rw [hsz2]; omega) (by omega) hsz
          (by omega) (by omega)
      have he : pos + k + (size - (written + k)) = pos + (size - written) := by omega
      rw [he] at heq1 hsz1 hb1
      refine ⟨f1, ?_, hok1, ?_, ha1.trans ha2, hn1.trans hn2, hr1.trans hr2,
        hd1.trans hd2, ?_⟩
      · rw [write_loop]; simp only [if_pos hw, heq, heq1]
      · rw [hsz1, hsz2]; omega
      · intro j
        rw [hb1 j, hb2 j]
        by_cases h1 : pos + k ≤ j ∧ j < pos + (size - written)
        · rw [if_pos h1, if_pos (by omega)]
          congr 1; omega
        · rw [if_neg h1]
          by_cases h2 : pos ≤ j ∧ j < pos + k
          · rw [if_pos h2, if_pos (by omega)]
          · rw [if_neg h2, if_neg (by omega)]
    · have hw : written = size := by omega
      subst hw
      refine ⟨f, ?_, hok, ?_, rfl, rfl, rfl, rfl, ?_⟩
      · rw [write_loop]; simp
      · simp; exact hpos
      · intro j; rw [if_neg (by omega)]

/-! ## The read loop -/

theorem slice_length (f : file) (p m : Nat) : (slice f p m).length = m := by
  simp [slice]

theorem slice_append (f : file) (p a b : Nat) :
    slice f p (a + b) = slice f p a ++ slice f (p + a) b := by
  simp only [slice, ← List.map_append, List.range'_append_1, Nat.add_comm b a]

theorem slice_getElem? (f : file) (p m n : Nat) (h : n < m) :
    (slice f p m)[n]? = some (byte f (p + n)) := by
  simp only [slice, List.getElem?_map, List.getElem?_range' p 1 h, Option.map_some',
    Nat.one_mul]

/-- The bytes one `memcpy` of the read loop takes from a block. -/
theorem block_slice (f : file) (pos t : Nat) (b : block)
    (hb : f.block_list[pos / 512]? = some b) (hm : b.memory.length = 512)
    (ht : pos % 512 + t ≤ 512) :
    (b.memory.drop (pos % 512)).take t = slice f pos t := by
  apply List.ext_getElem?
  intro n
  by_cases hn : n < t
  · rw [slice_getElem? f pos t n hn, List.getElem?_take_of_lt hn, List.getElem?_drop]
    have h1 : (pos + n) / 512 = pos / 512 := by omega
    have h2 : (pos + n) % 512 = pos % 512 + n := by omega
    simp only [byte, BLOCK_SIZE, h1, hb, h2, List.getD_eq_getElem?_getD]
    rw [List.getElem?_eq_getElem (by omega)]
    rfl
  · rw [List.getElem?_eq_none (by simp only [List.length_take, List.length_drop]; omega),
      List.getElem?_eq_none (by rw [slice_length]; omega)]

/-- The read loop on a fitted file ends and returns the bytes from the position
on, as many as were asked for or as the file has left. -/
theorem read_loop_spec (f : file) (size : Nat) (hok : file_ok f) :
    ∀ (fuel pos : Nat) (out : List Byte), pos ≤ f.size → out.length ≤ size →
      min (size - out.length) (f.size - pos) ≤ fuel →
      read_loop f size fuel pos out
        = some (pos + min (size - out.length) (f.size - pos),
                out ++ slice f pos (min (size - out.length) (f.size - pos))) := by
  obtain ⟨hs, hlen, hall⟩ := hok
  simp only [BLOCK_SIZE, MAX_FILE_SIZE] at hs hlen hall
  have hdone : ∀ (fuel pos : Nat) (out : List Byte),
      ¬ (out.length < size ∧ pos < f.size) →
      read_loop f size fuel pos out
        = some (pos + min (size - out.length) (f.size - pos),
                out ++ slice f pos (min (size - out.length) (f.size - pos))) := by
    intro fuel pos out h
    have h0 : min (size - out.length) (f.size - pos) = 0 := by omega
    rw [read_loop.eq_def, if_neg h, h0]
    simp [slice]
  intro fuel
  induction fuel with
  | zero =>
    intro pos out hpos hout hfuel
    exact hdone 0 pos out (by omega)
  | succ fuel ih =>
    intro pos out hpos hout hfuel
    by_cases hc : out.length < size ∧ pos < f.size
    · have hlt : pos / 512 < f.block_list.length := by omega
      obtain ⟨b, hb⟩ : ∃ b, f.block_list[pos / 512]? = some b :=
        ⟨_, List.getElem?_eq_getElem hlt⟩
      obtain ⟨hm, hocc⟩ := hall _ _ hb
      have hav : (b.occupied + SIZE_MOD - pos % 512) % SIZE_MOD = b.occupied - pos % 512 := by
        simp only [SIZE_MOD]; omega
      obtain ⟨t, htdef⟩ : ∃ t, t = if size - out.length < b.occupied - pos % 512
          then size - out.length else b.occupied - pos % 512 := ⟨_, rfl⟩
      have ht0 : ¬ t = 0 := by rw [htdef]; split <;> omega
      have ht1 : ¬ pos % 512 + t > b.memory.length := by rw [htdef]; split <;> omega
      have ht2 : t ≤ min (size - out.length) (f.size - pos) := by
        rw [htdef]; split <;> omega
      have hstep : read_loop f size (fuel + 1) pos out
          = read_loop f size fuel (pos + t) (out ++ (b.memory.drop (pos % 512)).take t) := by
        rw [read_loop]
        simp only [if_pos hc, BLOCK_SIZE, hb, hav, ← htdef, if_neg ht0, if_neg ht1]
      have hl : (out ++ (b.memory.drop (pos % 512)).take t).length = out.length + t := by
        simp only [List.length_append, List.length_take, List.length_drop]; omega
      rw [hstep, ih _ _ (by omega) (by omega) (by omega), hl,
        block_slice f pos t b hb hm (by omega)]
      have hmin : min (size - out.length) (f.size - pos)
          = t + min (size - (out.length + t)) (f.size - (pos + t)) := by omega
      rw [hmin, slice_append, List.append_assoc, Nat.add_assoc]
    · exact hdone _ pos out hc

/-! ## Files behind addresses -/

theorem deref_some {fl : List file} {a : Nat} {f : file} (h : deref fl a = some f) :
    f ∈ fl ∧ f.addr = a := by
  induction fl with
  | nil => simp [deref] at h
  | cons g rest ih =>
    simp only [deref] at h
    by_cases hg : g.addr = a
    · rw [if_pos hg] at h
      cases h
      exact ⟨List.mem_cons_self _ _, hg⟩
    · rw [if_neg hg] at h
      exact ⟨List.mem_cons_of_mem _ (ih h).1, (ih h).2⟩

theorem deref_of_mem {fl : List file} (hnd : (fl.map file.addr).Nodup) {f : file}
    (hf : f ∈ fl) : deref fl f.addr = some f := by
  induction fl with
  | nil => cases hf
  | cons g rest ih =>
    simp only [List.map_cons, List.nodup_cons, List.mem_map, not_exists, not_and] at hnd
    simp only [deref]
    rcases List.mem_cons.1 hf with h | h
    · subst h; rw [if_pos rfl]
    · have : g.addr ≠ f.addr := fun e => hnd.1 f h e.symm
      rw [if_neg this]
      exact ih hnd.2 h

theorem deref_none {fl : List file} {a : Nat} (h : ∀ f ∈ fl, f.addr ≠ a) :
    deref fl a = none := by
  induction fl with
  | nil => rfl
  | cons g rest ih =>
    simp only [deref]
    rw [if_neg (h g (List.mem_cons_self _ _))]
    exact ih (fun f hf => h f (List.mem_cons_of_mem _ hf))

theorem map_addr_store (fl : List file) (f : file) :
    (store fl f).map file.addr = fl.map file.addr := by
  induction fl with
  | nil => rfl
  | cons g rest ih =>
    simp only [store, List.map_cons] at ih ⊢
    rw [ih]
    by_cases hg : g.addr = f.addr
    · rw [if_pos hg, hg]
    · rw [if_neg hg]

theorem mem_store {fl : List file} {f g : file} (h : g ∈ store fl f) :
    (g = f ∧ ∃ k ∈ fl, k.addr = f.addr) ∨ (g ∈ fl ∧ g.addr ≠ f.addr) := by
  simp only [store, List.mem_map] at h
  obtain ⟨k, hk, he⟩ := h
  by_cases hka : k.addr = f.addr
  · rw [if_pos hka] at he
    exact Or.inl ⟨he.symm, k, hk, hka⟩
  · rw [if_neg hka] at he
    subst he
    exact Or.inr ⟨hk, hka⟩

theorem deref_store (fl : List file) (f : file) (a : Nat) :
    deref (store fl f) a
      = if a = f.addr then (deref fl a).map (fun _ => f) else deref fl a := by
  induction fl with
  | nil => simp [store, deref]
  | cons g rest ih =>
    simp only [store, List.map_cons, deref] at ih ⊢
    rw [ih]
    by_cases hg : g.addr = f.addr <;> by_cases ha : a = f.addr <;>
      by_cases hga : g.addr = a <;> simp_all

theorem mem_unlink {fl : List file} {a : Nat} {g : file} :
    g ∈ unlink fl a ↔ g ∈ fl ∧ g.addr ≠ a := by
  simp [unlink]

theorem nodup_unlink {fl : List file} (a : Nat) (h : (fl.map file.addr).Nodup) :
    ((unlink fl a).map file.addr).Nodup :=
  List.Nodup.sublist (List.Sublist.map _ (List.filter_sublist _)) h

theorem deref_unlink (fl : List file) (a b : Nat) :
    deref (unlink fl a) b = if b = a then none else deref fl b := by
  induction fl with
  | nil => simp [unlink, deref]
  | cons g rest ih =>
    simp only [unlink, List.filter_cons, deref] at ih ⊢
    by_cases hg : g.addr = a <;> by_cases hb : b = a <;>
      by_cases hgb : g.addr = b <;> simp_all [deref]

theorem find_file_some {fl : List file} {n : String} {f : file}
    (h : find_file fl n = some f) : f ∈ fl ∧ f.name = n ∧ f.is_deleted = false := by
  induction fl with
  | nil => simp [find_file] at h
  | cons g rest ih =>
    simp only [find_file] at h
    by_cases hg : g.name = n ∧ g.is_deleted = false
    · rw [if_pos hg] at h
      cases h
      exact ⟨List.mem_cons_self _ _, hg⟩
    · rw [if_neg hg] at h
      exact ⟨List.mem_cons_of_mem _ (ih h).1, (ih h).2⟩

theorem find_file_none {fl : List file} {n : String} :
    find_file fl n = none ↔ ∀ f ∈ fl, ¬ (f.name = n ∧ f.is_deleted = false) := by
  induction fl with
  | nil => simp [find_file]
  | cons g rest ih =>
    simp only [find_file, List.mem_cons, forall_eq_or_imp]
    by_cases hg : g.name = n ∧ g.is_deleted = false
    · rw [if_pos hg]
      simp [hg]
    · rw [if_neg hg, ih]
      simp [hg]

/-- A lookup by name after a store that keeps the name and the deleted flag. -/
theorem find_file_store (fl : List file) (f : file) (n : String)
    (h : ∀ g ∈ fl, g.addr = f.addr → g.name = f.name ∧ g.is_deleted = f.is_deleted) :
    find_file (store fl f) n
      = (find_file fl n).map (fun g => if g.addr = f.addr then f else g) := by
  induction fl with
  | nil => rfl
  | cons g rest ih =>
    have ih1 := ih (fun k hk => h k (List.mem_cons_of_mem _ hk))
    simp only [store, List.map_cons, find_file] at ih1 ⊢
    by_cases hg : g.addr = f.addr
    · obtain ⟨h1, h2⟩ := h g (List.mem_cons_self _ _) hg
      rw [if_pos hg, ← h1, ← h2]
      by_cases hc : g.name = n ∧ g.is_deleted = false
      · rw [if_pos hc, if_pos hc, Option.map_some', if_pos hg]
      · rw [if_neg hc, if_neg hc, ih1]
    · rw [if_neg hg]
      by_cases hc : g.name = n ∧ g.is_deleted = false
      · rw [if_pos hc, if_pos hc, Option.map_some', if_neg hg]
      · rw [if_neg hc, if_neg hc, ih1]

/-! ## Reference counts -/

theorem refcount_append (fds : List (Option filedesc)) (o : Option filedesc) (a : Nat) :
    refcount (fds ++ [o]) a = refcount fds a + refcount [o] a := by
  induction fds with
  | nil => simp [refcount]
  | cons x rest ih =>
    cases x with
    | none => simpa [refcount] using ih
    | some d =>
      have e : refcount (some d :: (rest ++ [o])) a
          = (if d.file = a then 1 else 0) + refcount (rest ++ [o]) a := rfl
      rw [List.cons_append, e, ih]
      simp only [refcount]; omega

theorem refcount_set (fds : List (Option filedesc)) (i : Nat) (o o1 : Option filedesc)
    (a : Nat) (h : fds[i]? = some o) :
    refcount (fds.set i o1) a + refcount [o] a = refcount fds a + refcount [o1] a := by
  induction fds generalizing i with
  | nil => simp at h
  | cons x rest ih =>
    cases i with
    | zero =>
      simp only [List.getElem?_cons_zero, Option.some.injEq] at h
      subst h
      simp only [List.set_cons_zero]
      cases x <;> cases o1 <;> simp only [refcount] <;> omega
    | succ i =>
      simp only [List.getElem?_cons_succ] at h
      have := ih i h
      simp only [List.set_cons_succ]
      cases x <;> simp only [refcount] at this ⊢ <;> omega

theorem refcount_zero {fds : List (Option filedesc)} {a : Nat} (h : refcount fds a = 0)
    (d : filedesc) (hd : some d ∈ fds) : d.file ≠ a := by
  induction fds with
  | nil => cases hd
  | cons x rest ih =>
    cases x with
    | none =>
      simp only [refcount] at h
      rcases List.mem_cons.1 hd with e | e
      · cases e
      · exact ih h e
    | some c =>
      simp only [refcount] at h
      rcases List.mem_cons.1 hd with e | e
      · cases e
        intro hda
        rw [if_pos hda] at h
        omega
      · exact ih (by omega) e

theorem refcount_zero_of {fds : List (Option filedesc)} {a : Nat}
    (h : ∀ d, some d ∈ fds → d.file ≠ a) : refcount fds a = 0 := by
  induction fds with
  | nil => rfl
  | cons x rest ih =>
    cases x with
    | none =>
      simp only [refcount]
      exact ih (fun d hd => h d (List.mem_cons_of_mem _ hd))
    | some c =>
      simp only [refcount]
      rw [if_neg (h c (List.mem_cons_self _ _)),
        ih (fun d hd => h d (List.mem_cons_of_mem _ hd))]

/-! ## Descriptors -/

theorem get_desc_some {s : State} {fd : Int} {d : filedesc} (h : get_desc s fd = some d) :
    0 ≤ fd ∧ fd.toNat < s.file_descriptors.length ∧
      s.file_descriptors[fd.toNat]? = some (some d) ∧ d.is_open = true := by
  simp only [get_desc, State.file_descriptor_count] at h
  by_cases hr : fd < 0 ∨ fd ≥ (s.file_descriptors.length : Int)
  · rw [if_pos hr] at h; cases h
  · rw [if_neg hr] at h
    have h0 : 0 ≤ fd := by omega
    have h1 : fd.toNat < s.file_descriptors.length := by omega
    refine ⟨h0, h1, ?_⟩
    rw [List.getD_eq_getElem?_getD, List.getElem?_eq_getElem h1] at h
    rw [List.getElem?_eq_getElem h1]
    simp only [Option.getD_some] at h
    cases hx : s.file_descriptors[fd.toNat] with
    | none => rw [hx] at h; cases h
    | some c =>
      rw [hx] at h
      simp only at h
      by_cases hc : c.is_open = true
      · rw [if_pos hc] at h
        cases h
        exact ⟨rfl, hc⟩
      · rw [if_neg hc] at h; cases h

theorem get_desc_of {s : State} {i : Nat} {d : filedesc}
    (h : s.file_descriptors[i]? = some (some d)) (ho : d.is_open = true) :
    get_desc s (i : Int) = some d := by
  have hi : i < s.file_descriptors.length := by
    rcases Nat.lt_or_ge i s.file_descriptors.length with h1 | h1
    · exact h1
    · rw [List.getElem?_eq_none h1] at h; cases h
  simp only [get_desc, State.file_descriptor_count]
  rw [if_neg (by omega)]
  simp only [Int.toNat_ofNat, List.getD_eq_getElem?_getD, h, Option.getD_some, ho, if_true]

theorem get_desc_mem {s : State} {fd : Int} {d : filedesc} (h : get_desc s fd = some d) :
    some d ∈ s.file_descriptors :=
  List.getElem?_mem (get_desc_some h).2.2.1

/-! ## The invariant is kept -/

theorem WF_init : WF init :=
  { files := fun f hf => by cases hf
    addrs := List.nodup_nil
    fresh := fun f hf => by cases hf
    descs := fun d hd => by cases hd
    refs := fun f hf => by cases hf
    nodead := fun f hf => by cases hf
    names := fun f hf => by cases hf }

theorem WF_err {s : State} (h : WF s) (e : ufs_error_code) :
    WF { s with ufs_error_code := e } :=
  ⟨h.files, h.addrs, h.fresh, h.descs, h.refs, h.nodead, h.names⟩

theorem WF_mem_deref {s : State} (h : WF s) {f : file} (hf : f ∈ s.file_list) :
    deref s.file_list f.addr = some f :=
  deref_of_mem h.addrs hf

/-- The invariant after the file `f` is replaced by `r` at the same address,
with a new descriptor array. -/
theorem WF_store {s s1 : State} (h : WF s) {f r : file} (hf : f ∈ s.file_list)
    (hfl : s1.file_list = store s.file_list r) (hnx : s1.next_addr = s.next_addr)
    (ha : r.addr = f.addr) (hok : file_ok r) (hn : r.name = f.name)
    (hdel : r.is_deleted = false → f.is_deleted = false) (hsz : f.size ≤ r.size)
    (hds : ∀ d, some d ∈ s1.file_descriptors → some d ∈ s.file_descriptors ∨
      (d.is_open = true ∧ d.file = f.addr ∧ d.pos ≤ r.size))
    (hrc : ∀ a, a ≠ f.addr → refcount s1.file_descriptors a = refcount s.file_descriptors a)
    (hrf : r.refs = (refcount s1.file_descriptors f.addr : Int))
    (hnd : ¬ (r.is_deleted = true ∧ r.refs = 0)) : WF s1 := by
  have hdf := WF_mem_deref h hf
  have hold : ∀ g ∈ s1.file_list, g = r ∨ (g ∈ s.file_list ∧ g.addr ≠ f.addr) := by
    intro g hg
    rw [hfl] at hg
    rcases mem_store hg with h1 | h1
    · exact Or.inl h1.1
    · exact Or.inr ⟨h1.1, by rw [← ha]; exact h1.2⟩
  refine ⟨?_, ?_, ?_, ?_, ?_, ?_, ?_⟩
  · intro g hg
    rcases hold g hg with h1 | h1
    · rw [h1]; exact hok
    · exact h.files g h1.1
  · rw [hfl, map_addr_store]; exact h.addrs
  · intro g hg
    rw [hnx]
    rcases hold g hg with h1 | h1
    · rw [h1, ha]; exact h.fresh f hf
    · exact h.fresh g h1.1
  · intro d hd
    rw [hfl, deref_store, ha]
    rcases hds d hd with h1 | h1
    · obtain ⟨ho, g, hg, hp⟩ := h.descs d h1
      refine ⟨ho, ?_⟩
      by_cases hda : d.file = f.addr
      · rw [if_pos hda, hg]
        refine ⟨r, rfl, ?_⟩
        rw [hda, hdf] at hg
        cases hg
        omega
      · rw [if_neg hda]
        exact ⟨g, hg, hp⟩
    · refine ⟨h1.1, ?_⟩
      rw [if_pos h1.2.1, h1.2.1, hdf]
      exact ⟨r, rfl, h1.2.2⟩
  · intro g hg
    rcases hold g hg with h1 | h1
    · rw [h1, ha]; exact hrf
    · rw [hrc _ h1.2]; exact h.refs g h1.1
  · intro g hg
    rcases hold g hg with h1 | h1
    · rw [h1]; exact hnd
    · exact h.nodead g h1.1
  · intro g1 hg1 g2 hg2 hd1 hd2 hnm
    rcases hold g1 hg1 with h1 | h1 <;> rcases hold g2 hg2 with h2 | h2
    · rw [h1, h2]
    · rw [h1] at hd1 hnm ⊢
      rw [ha]
      exact h.names f hf g2 h2.1 (hdel hd1) hd2 (hn ▸ hnm)
    · rw [h2] at hd2 hnm ⊢
      rw [ha]
      exact h.names g1 h1.1 f hf hd1 (hdel hd2) (hn ▸ hnm)
    · exact h.names g1 h1.1 g2 h2.1 hd1 hd2 hnm

/-- The invariant after the file at address `a` is unlinked, when no
descriptor of the new array points to it. -/
theorem WF_unlink {s s1 : State} (h : WF s) (a : Nat)
    (hfl : s1.file_list = unlink s.file_list a) (hnx : s1.next_addr = s.next_addr)
    (hds : ∀ d, some d ∈ s1.file_descriptors → some d ∈ s.file_descriptors ∧ d.file ≠ a)
    (hrc : ∀ b, b ≠ a → refcount s1.file_descriptors b = refcount s.file_descriptors b) :
    WF s1 := by
  have hold : ∀ g ∈ s1.file_list, g ∈ s.file_list ∧ g.addr ≠ a := by
    intro g hg
    rw [hfl] at hg
    exact mem_unlink.1 hg
  refine ⟨?_, ?_, ?_, ?_, ?_, ?_, ?_⟩
  · intro g hg; exact h.files g (hold g hg).1
  · rw [hfl]; exact nodup_unlink a h.addrs
  · intro g hg; rw [hnx]; exact h.fresh g (hold g hg).1
  · intro d hd
    obtain ⟨h1, h2⟩ := hds d hd
    rw [hfl, deref_unlink, if_neg h2]
    exact h.descs d h1
  · intro g hg
    rw [hrc _ (hold g hg).2]
    exact h.refs g (hold g hg).1
  · intro g hg; exact h.nodead g (hold g hg).1
  · intro g1 hg1 g2 hg2
    exact h.names g1 (hold g1 hg1).1 g2 (hold g2 hg2).1

theorem WF_create {s : State} (h : WF s) (n : String)
    (hn : find_file s.file_list n = none) : WF (create_file s n).2 := by
  have hnone := find_file_none.1 hn
  have hdesc : ∀ d, some d ∈ s.file_descriptors → d.file ≠ s.next_addr := by
    intro d hd
    obtain ⟨_, g, hg, _⟩ := h.descs d hd
    have := h.fresh g (deref_some hg).1
    rw [(deref_some hg).2] at this
    omega
  refine ⟨?_, ?_, ?_, ?_, ?_, ?_, ?_⟩
  · intro g hg
    rcases List.mem_cons.1 hg with h1 | h1
    · subst h1
      refine ⟨Nat.zero_le _, by simp [BLOCK_SIZE], ?_⟩
      intro i b hb
      simp at hb
    · exact h.files g h1
  · simp only [create_file, List.map_cons, List.nodup_cons, List.mem_map, not_exists, not_and]
    refine ⟨?_, h.addrs⟩
    intro g hg e
    have := h.fresh g hg
    omega
  · intro g hg
    simp only [create_file]
    rcases List.mem_cons.1 hg with h1 | h1
    · subst h1; exact Nat.lt_succ_self _
    · exact Nat.lt_succ_of_lt (h.fresh g h1)
  · intro d hd
    obtain ⟨ho, g, hg, hp⟩ := h.descs d hd
    refine ⟨ho, g, ?_, hp⟩
    simp only [create_file, deref]
    rw [if_neg (Ne.symm (hdesc d hd))]
    exact hg
  · intro g hg
    rcases List.mem_cons.1 hg with h1 | h1
    · subst h1
      simp only [create_file]
      rw [refcount_zero_of hdesc]
      rfl
    · exact h.refs g h1
  · intro g hg
    rcases List.mem_cons.1 hg with h1 | h1
    · subst h1; simp
    · exact h.nodead g h1
  · intro g1 hg1 g2 hg2 hd1 hd2 hnm
    rcases List.mem_cons.1 hg1 with h1 | h1 <;> rcases List.mem_cons.1 hg2 with h2 | h2
    · rw [h1, h2]
    · subst h1
      exact absurd ⟨hnm.symm, hd2⟩ (hnone g2 h2)
    · subst h2
      exact absurd ⟨hnm, hd1⟩ (hnone g1 h1)
    · exact h.names g1 h1 g2 h2 hd1 hd2 hnm

theorem WF_attach {s : State} (h : WF s) {f : file} (hf : f ∈ s.file_list) :
    WF (attach s f).2 := by
  have hrf := h.refs f hf
  refine WF_store h hf (r := { f with refs := f.refs + 1 }) rfl rfl rfl (h.files f hf) rfl
    (fun x => x) (Nat.le_refl _) ?_ ?_ ?_ ?_
  · intro d hd
    simp only [attach, List.mem_append, List.mem_singleton, Option.some.injEq] at hd
    rcases hd with h1 | h1
    · exact Or.inl h1
    · subst h1
      exact Or.inr ⟨rfl, rfl, Nat.zero_le _⟩
  · intro a ha
    simp only [attach, refcount_append, refcount]
    rw [if_neg (Ne.symm ha)]
    rfl
  · simp only [attach, refcount_append, refcount, if_true, hrf]
    push_cast; rfl
  · simp only [hrf]
    intro hc
    have := hc.2
    omega

theorem WF_ufs_open {s : State} (h : WF s) (n : String) (flags : Nat) :
    WF (ufs_open s n flags).2 := by
  simp only [ufs_open]
  cases hfind : find_file s.file_list n with
  | some f =>
    simp only
    split
    · exact WF_err h _
    · exact WF_attach h (find_file_some hfind).1
  | none =>
    simp only
    split
    · exact WF_err h _
    · exact WF_attach (WF_create h n hfind) (List.mem_cons_self _ _)

theorem WF_ufs_delete {s : State} (h : WF s) (n : String) : WF (ufs_delete s n).2 := by
  simp only [ufs_delete]
  cases hfind : find_file s.file_list n with
  | none => exact WF_err h _
  | some f =>
    obtain ⟨hf, -, hdl⟩ := find_file_some hfind
    have hrf := h.refs f hf
    simp only
    by_cases hr : f.refs = 0
    · rw [if_pos hr]
      refine WF_unlink h f.addr rfl rfl ?_ (fun _ _ => rfl)
      intro d hd
      refine ⟨hd, ?_⟩
      have h0 : refcount s.file_descriptors f.addr = 0 := by omega
      exact refcount_zero h0 d hd
    · rw [if_neg hr]
      refine WF_store h hf (r := { f with is_deleted := true }) rfl rfl rfl (h.files f hf) rfl
        ?_ (Nat.le_refl _) (fun d hd => Or.inl hd) (fun _ _ => rfl) hrf ?_
      · intro hx; cases hx
      · intro hc; exact hr hc.2

/-! ## The calls on a state that satisfies the invariant -/

/-- The function `ufs_write` on an open descriptor: the file it points to is
live; when the file is at the maximum size and the request crosses its end
the call fails, and otherwise it writes the request, cut at the maximum size. -/
theorem ufs_write_spec {s : State} (h : WF s) {fd : Int} {d : filedesc}
    (hd : get_desc s fd = some d) (buf : List Byte) (hn : buf.length ≤ SSIZE_MAX) :
    ∃ f, deref s.file_list d.file = some f ∧ d.pos ≤ f.size ∧ file_ok f ∧
      (((f.size = MAX_FILE_SIZE ∧ d.pos + buf.length > MAX_FILE_SIZE) ∧
          ufs_write s fd buf = some (-1, { s with ufs_error_code := UFS_ERR_NO_MEM })) ∨
       (¬ (f.size = MAX_FILE_SIZE ∧ d.pos + buf.length > MAX_FILE_SIZE) ∧
          ∃ f1, ufs_write s fd buf
              = some (((min buf.length (MAX_FILE_SIZE - d.pos) : Nat) : Int),
                  { s with
                    file_list := store s.file_list f1,
                    file_descriptors := s.file_descriptors.set fd.toNat
                      (some { d with
                        pos := d.pos + min buf.length (MAX_FILE_SIZE - d.pos) }) }) ∧
            file_ok f1 ∧
            f1.size = max f.size (d.pos + min buf.length (MAX_FILE_SIZE - d.pos)) ∧
            f1.addr = f.addr ∧ f1.name = f.name ∧ f1.refs = f.refs ∧
            f1.is_deleted = f.is_deleted ∧
            ∀ j, byte f1 j
              = if d.pos ≤ j ∧ j < d.pos + min buf.length (MAX_FILE_SIZE - d.pos)
                then buf.getD (j - d.pos) 0 else byte f j)) := by
  obtain ⟨_, f, hf, hp⟩ := h.descs d (get_desc_mem hd)
  have hok := h.files f (deref_some hf).1
  refine ⟨f, hf, hp, hok, ?_⟩
  have hfs : f.size ≤ MAX_FILE_SIZE := hok.1
  have hm1 : (d.pos + buf.length) % SIZE_MOD = d.pos + buf.length := by
    simp only [SIZE_MOD, MAX_FILE_SIZE, SSIZE_MAX] at *; omega
  have hm2 : (f.size + (d.pos + buf.length + SIZE_MOD - f.size) % SIZE_MOD) % SIZE_MOD
      = d.pos + buf.length := by
    simp only [SIZE_MOD, MAX_FILE_SIZE, SSIZE_MAX] at *; omega
  have hm3 : (MAX_FILE_SIZE + SIZE_MOD - d.pos) % SIZE_MOD = MAX_FILE_SIZE - d.pos := by
    simp only [SIZE_MOD, MAX_FILE_SIZE, SSIZE_MAX] at *; omega
  by_cases hfull : f.size = MAX_FILE_SIZE ∧ d.pos + buf.length > MAX_FILE_SIZE
  · refine Or.inl ⟨hfull, ?_⟩
    have hg : f.size ≥ MAX_FILE_SIZE ∧ d.pos + buf.length > f.size := by omega
    simp only [ufs_write, hd, hf, hm1, if_pos hg]
  · refine Or.inr ⟨hfull, ?_⟩
    have hg : ¬ (f.size ≥ MAX_FILE_SIZE ∧ d.pos + buf.length > f.size) := by omega
    obtain ⟨m, hm⟩ : ∃ m, m = min buf.length (MAX_FILE_SIZE - d.pos) := ⟨_, rfl⟩
    have hsz1 : (if d.pos + buf.length > f.size ∧ d.pos + buf.length > MAX_FILE_SIZE
        then MAX_FILE_SIZE - d.pos else buf.length) = m := by
      split <;> omega
    have hg2 : ¬ ((d.pos + buf.length > f.size ∧ d.pos + buf.length > MAX_FILE_SIZE)
        ∧ m = 0) := by omega
    have hg3 : ¬ m > buf.length := by omega
    obtain ⟨f1, heq, hok1, hs1, ha1, hn1, hr1, hd1, hb1⟩ :=
      write_loop_spec buf m m f d.pos 0 s.ufs_error_code hok hp (Nat.zero_le _) (by omega)
        (by omega) (by omega)
    simp only [Nat.sub_zero, Nat.zero_add] at heq hs1 hb1
    refine ⟨f1, ?_, hok1, by rw [← hm]; exact hs1, ha1, hn1, hr1, hd1, ?_⟩
    · simp only [ufs_write, hd, hf, hm1, hm2, hm3, if_neg hg, hsz1, if_neg hg2, if_neg hg3,
        heq, ← hm]
    · rw [← hm]; exact hb1

/-- The function `ufs_read` on an open descriptor: it returns the bytes of the
file from the position on, as many as were asked for or as the file has left,
and moves the position of the descriptor by that count. -/
theorem ufs_read_spec {s : State} (h : WF s) {fd : Int} {d : filedesc}
    (hd : get_desc s fd = some d) (n : Nat) :
    ∃ f, deref s.file_list d.file = some f ∧ d.pos ≤ f.size ∧
      ufs_read s fd n
        = some (((min n (f.size - d.pos) : Nat) : Int),
            slice f d.pos (min n (f.size - d.pos)),
            { s with
              file_descriptors := s.file_descriptors.set fd.toNat
                (some { d with pos := d.pos + min n (f.size - d.pos) }) }) := by
  obtain ⟨_, f, hf, hp⟩ := h.descs d (get_desc_mem hd)
  have hok := h.files f (deref_some hf).1
  refine ⟨f, hf, hp, ?_⟩
  have hl := read_loop_spec f n hok n d.pos [] hp (Nat.zero_le _)
    (by simp only [List.length_nil, Nat.sub_zero]; omega)
  simp only [List.length_nil, Nat.sub_zero, List.nil_append] at hl
  simp only [ufs_read, hd, hf, hl, slice_length]

/-- The function `ufs_close` on an open descriptor. -/
theorem ufs_close_spec {s : State} (h : WF s) {fd : Int} {d : filedesc}
    (hd : get_desc s fd = some d) :
    ∃ f, deref s.file_list d.file = some f ∧
      ufs_close s fd
        = some (0,
            { s with
              file_list :=
                if f.refs - 1 = 0 ∧ f.is_deleted = true then unlink s.file_list f.addr
                else store s.file_list { f with refs := f.refs - 1 },
              file_descriptors := s.file_descriptors.set fd.toNat none }) := by
  obtain ⟨_, f, hf, _⟩ := h.descs d (get_desc_mem hd)
  refine ⟨f, hf, ?_⟩
  simp only [ufs_close, hd, hf]

theorem store_self {fl : List file} (hnd : (fl.map file.addr).Nodup) {f : file}
    (hf : f ∈ fl) : store fl f = fl := by
  have : ∀ g ∈ fl, (if g.addr = f.addr then f else g) = g := by
    intro g hg
    by_cases e : g.addr = f.addr
    · rw [if_pos e]
      have h1 := deref_of_mem hnd hg
      have h2 := deref_of_mem hnd hf
      rw [e, h2] at h1
      cases h1; rfl
    · rw [if_neg e]
  simp only [store]
  conv_rhs => rw [← List.map_id fl]
  exact List.map_congr_left this

theorem WF_ufs_write {s : State} (h : WF s) (fd : Int) (buf : List Byte)
    (hn : buf.length ≤ SSIZE_MAX) (r : Int × State) (hr : ufs_write s fd buf = some r) :
    WF r.2 := by
  cases hd : get_desc s fd with
  | none =>
    simp only [ufs_write, hd, Option.some.injEq] at hr
    rw [← hr]
    exact WF_err h _
  | some d =>
    obtain ⟨hge, hlt, hget, hopen⟩ := get_desc_some hd
    obtain ⟨f, hf, hp, hok, hc⟩ := ufs_write_spec h hd buf hn
    rcases hc with ⟨_, he⟩ | ⟨_, f1, he, hok1, hs1, ha1, hn1, hr1, hd1, _⟩
    · rw [he] at hr
      cases hr
      exact WF_err h _
    · rw [he] at hr
      cases hr
      have hfm := (deref_some hf).1
      have hfa := (deref_some hf).2
      refine WF_store h hfm rfl rfl ha1 hok1 hn1 (fun x => by rw [← hd1]; exact x)
        (by rw [hs1]; omega) ?_ ?_ ?_ ?_
      · intro c hc
        rcases List.mem_or_eq_of_mem_set hc with h1 | h1
        · exact Or.inl h1
        · cases h1
          exact Or.inr ⟨hopen, hfa.symm, by rw [hs1]; exact Nat.le_max_right _ _⟩
      · intro a _
        have := refcount_set s.file_descriptors fd.toNat (some d)
          (some { d with pos := d.pos + min buf.length (MAX_FILE_SIZE - d.pos) }) a hget
        simp only [refcount] at this ⊢
        omega
      · have := refcount_set s.file_descriptors fd.toNat (some d)
          (some { d with pos := d.pos + min buf.length (MAX_FILE_SIZE - d.pos) }) f.addr hget
        simp only [refcount] at this
        rw [hr1, h.refs f hfm]
        simp only [Nat.cast_inj]
        omega
      · rw [hd1, hr1]
        exact h.nodead f hfm

theorem WF_ufs_read {s : State} (h : WF s) (fd : Int) (n : Nat)
    (r : Int × List Byte × State) (hr : ufs_read s fd n = some r) : WF r.2.2 := by
  cases hd : get_desc s fd with
  | none =>
    simp only [ufs_read, hd, Option.some.injEq] at hr
    rw [← hr]
    exact WF_err h _
  | some d =>
    obtain ⟨hge, hlt, hget, hopen⟩ := get_desc_some hd
    obtain ⟨f, hf, hp, he⟩ := ufs_read_spec h hd n
    rw [he] at hr
    cases hr
    have hfm := (deref_some hf).1
    have hfa := (deref_some hf).2
    refine WF_store h hfm (r := f) (store_self h.addrs hfm).symm rfl rfl (h.files f hfm) rfl
      (fun x => x) (Nat.le_refl _) ?_ ?_ ?_ (h.nodead f hfm)
    · intro c hc
      rcases List.mem_or_eq_of_mem_set hc with h1 | h1
      · exact Or.inl h1
      · cases h1
        exact Or.inr ⟨hopen, hfa.symm, by simp only; omega⟩
    · intro a _
      have := refcount_set s.file_descriptors fd.toNat (some d)
        (some { d with pos := d.pos + min n (f.size - d.pos) }) a hget
      simp only [refcount] at this ⊢
      omega
    · have := refcount_set s.file_descriptors fd.toNat (some d)
        (some { d with pos := d.pos + min n (f.size - d.pos) }) f.addr hget
      simp only [refcount] at this
      rw [h.refs f hfm]
      simp only [Nat.cast_inj]
      omega

theorem WF_ufs_close {s : State} (h : WF s) (fd : Int) (r : Int × State)
    (hr : ufs_close s fd = some r) : WF r.2 := by
  cases hd : get_desc s fd with
  | none =>
    simp only [ufs_close, hd, Option.some.injEq] at hr
    rw [← hr]
    exact WF_err h _
  | some d =>
    obtain ⟨hge, hlt, hget, hopen⟩ := get_desc_some hd
    obtain ⟨f, hf, he⟩ := ufs_close_spec h hd
    rw [he] at hr
    cases hr
    have hfm := (deref_some hf).1
    have hfa := (deref_some hf).2
    have hrf := h.refs f hfm
    have hset : ∀ a, refcount (s.file_descriptors.set fd.toNat none) a
        + (if d.file = a then 1 else 0) = refcount s.file_descriptors a := by
      intro a
      have := refcount_set s.file_descriptors fd.toNat (some d) none a hget
      simp only [refcount] at this
      omega
    have hmem : ∀ c, some c ∈ s.file_descriptors.set fd.toNat none →
        some c ∈ s.file_descriptors := by
      intro c hc
      rcases List.mem_or_eq_of_mem_set hc with h1 | h1
      · exact h1
      · cases h1
    have hfset := hset f.addr
    rw [if_pos hfa.symm] at hfset
    by_cases hc : f.refs - 1 = 0 ∧ f.is_deleted = true
    · simp only [if_pos hc]
      refine WF_unlink h f.addr rfl rfl ?_ ?_
      · intro c hcm
        refine ⟨hmem c hcm, ?_⟩
        have h0 : refcount (s.file_descriptors.set fd.toNat none) f.addr = 0 := by omega
        exact refcount_zero h0 c hcm
      · intro b hb
        have := hset b
        rw [if_neg (by rw [← hfa]; exact Ne.symm hb)] at this
        exact this
    · simp only [if_neg hc]
      refine WF_store h hfm (r := { f with refs := f.refs - 1 }) rfl rfl rfl (h.files f hfm)
        rfl (fun x => x) (Nat.le_refl _) (fun c hcm => Or.inl (hmem c hcm)) ?_ ?_
        (fun x => hc ⟨x.2, x.1⟩)
      · intro a ha
        have := hset a
        rw [if_neg (by rw [← hfa]; exact Ne.symm ha)] at this
        exact this
      · show f.refs - 1 = (refcount (s.file_descriptors.set fd.toNat none) f.addr : Int)
        rw [hrf]
        omega

/-- Every reachable state satisfies the invariant. -/
theorem Reachable.wf {s : State} (h : Reachable s) : WF s := by
  induction h with
  | init => exact WF_init
  | ufs_open s n flags _ ih => exact WF_ufs_open ih n flags
  | ufs_write s fd buf r _ hn hr ih => exact WF_ufs_write ih fd buf hn r hr
  | ufs_read s fd n r _ hr ih => exact WF_ufs_read ih fd n r hr
  | ufs_close s fd r _ hr ih => exact WF_ufs_close ih fd r hr
  | ufs_delete s n _ ih => exact WF_ufs_delete ih n

/-! ## Opening a file -/

theorem ufs_open_found {s : State} {n : String} {f : file}
    (hf : find_file s.file_list n = some f) (flags : Nat) :
    ufs_open s n flags = attach s f := by
  have hd := (find_file_some hf).2.2
  simp only [ufs_open, hf, hd, Bool.false_eq_true, if_false]

theorem ufs_open_create {s : State} {n : String} {flags : Nat}
    (hf : find_file s.file_list n = none) (hc : flags &&& UFS_CREATE ≠ 0) :
    ufs_open s n flags = attach (create_file s n).2 (create_file s n).1 := by
  simp only [ufs_open, hf, if_neg hc]

theorem ufs_open_fail {s : State} {n : String} {flags : Nat}
    (hf : find_file s.file_list n = none) (hc : flags &&& UFS_CREATE = 0) :
    ufs_open s n flags = (-1, { s with ufs_error_code := UFS_ERR_NO_FILE }) := by
  simp only [ufs_open, hf, if_pos hc]

theorem get_desc_attach (s : State) (f : file) :
    get_desc (attach s f).2 (attach s f).1
      = some { file := f.addr, pos := 0, is_open := true } := by
  refine get_desc_of (i := s.file_descriptors.length) ?_ rfl
  simp only [attach]
  rw [List.getElem?_append_right (Nat.le_refl _), Nat.sub_self]
  rfl

theorem deref_attach {s : State} {f : file} (hf : deref s.file_list f.addr = some f)
    (a : Nat) :
    deref (attach s f).2.file_list a
      = if a = f.addr then some { f with refs := f.refs + 1 } else deref s.file_list a := by
  simp only [attach, deref_store]
  by_cases ha : a = f.addr
  · rw [if_pos ha, if_pos ha, ha, hf]; rfl
  · rw [if_neg ha, if_neg ha]

/-- In a state that satisfies the invariant a live file that is not deleted is
the one its name finds. -/
theorem find_file_of_mem {s : State} (h : WF s) {f : file} (hf : f ∈ s.file_list)
    (hd : f.is_deleted = false) : find_file s.file_list f.name = some f := by
  cases hfind : find_file s.file_list f.name with
  | none => exact absurd ⟨rfl, hd⟩ (find_file_none.1 hfind f hf)
  | some g =>
    obtain ⟨hg, hgn, hgd⟩ := find_file_some hfind
    have ha := h.names g hg f hf hgd hd hgn
    have h1 := WF_mem_deref h hg
    have h2 := WF_mem_deref h hf
    rw [ha, h2] at h1
    cases h1; rfl

theorem byte_congr {f g : file} (h : f.block_list = g.block_list) (j : Nat) :
    byte f j = byte g j := by
  simp only [byte, h]

theorem slice_congr {f g : file} (h : f.block_list = g.block_list) (p m : Nat) :
    slice f p m = slice g p m := by
  simp only [slice]
  exact List.map_congr_left (fun j _ => byte_congr h j)

theorem slice_eq (f : file) (p : Nat) (l : List Byte)
    (h : ∀ j, j < l.length → byte f (p + j) = l.getD j 0) : slice f p l.length = l := by
  apply List.ext_getElem?
  intro j
  by_cases hj : j < l.length
  · rw [slice_getElem? f p _ j hj, h j hj, List.getD_eq_getElem?_getD,
      List.getElem?_eq_getElem hj]
    rfl
  · rw [List.getElem?_eq_none (by rw [slice_length]; omega),
      List.getElem?_eq_none (by omega)]

/-! ## Properties of the file system calls -/

/-- C1: in a reachable state, for a name that no file has and a byte string of
at most `MAX_FILE_SIZE` bytes, `ufs_write` through the descriptor that
`ufs_open` with `UFS_CREATE` returns for the new file returns the length of the
string; then `ufs_read` of that many bytes through a second descriptor opened
on the name returns the length and exactly the bytes written, in order. -/
theorem write_then_read_roundtrip (s : State) (hs : Reachable s) (name : String)
    (flags1 flags2 : Nat) (buf : List Byte)
    (hnew : find_file s.file_list name = none) (hcreate : flags1 &&& UFS_CREATE ≠ 0)
    (hlen : buf.length ≤ MAX_FILE_SIZE) :
    ∃ s2 s4,
      ufs_write (ufs_open s name flags1).2 (ufs_open s name flags1).1 buf
        = some ((buf.length : Int), s2) ∧
      (ufs_open s2 name flags2).1 ≠ (ufs_open s name flags1).1 ∧
      ufs_read (ufs_open s2 name flags2).2 (ufs_open s2 name flags2).1 buf.length
        = some ((buf.length : Int), buf, s4) := by
  have hwf := hs.wf
  have hwf1 := WF_ufs_open hwf name flags1
  rw [ufs_open_create hnew hcreate] at hwf1 ⊢
  obtain ⟨s0, hs0⟩ : ∃ s0, s0 = (create_file s name).2 := ⟨_, rfl⟩
  obtain ⟨f0, hf0⟩ : ∃ f0, f0 = (create_file s name).1 := ⟨_, rfl⟩
  rw [← hs0, ← hf0] at hwf1 ⊢
  have hf0d : deref s0.file_list f0.addr = some f0 := by
    rw [hs0, hf0]; simp only [create_file, deref, if_true]
  have hd1 := get_desc_attach s0 f0
  have hn : buf.length ≤ SSIZE_MAX := by
    simp only [SSIZE_MAX, MAX_FILE_SIZE] at *; omega
  obtain ⟨f, hf, hp, hok, hc⟩ := ufs_write_spec hwf1 hd1 buf hn
  rw [deref_attach hf0d, if_pos rfl] at hf
  cases hf
  have hsz0 : f0.size = 0 := by rw [hf0]; rfl
  have hnm0 : f0.name = name := by rw [hf0]; rfl
  have hdl0 : f0.is_deleted = false := by rw [hf0]; rfl
  have hmin : min buf.length (MAX_FILE_SIZE - 0) = buf.length := by omega
  rcases hc with ⟨hfull, _⟩ | ⟨_, f1, he, hok1, hs1, ha1, hn1, hr1, hdl1, hb1⟩
  · simp only [hsz0, MAX_FILE_SIZE] at hfull
    omega
  · simp only [hmin, Nat.zero_add, hsz0, Nat.zero_le, true_and] at he hs1 hb1
    obtain ⟨s2, hs2⟩ : ∃ s2 : State, s2 =
        { (attach s0 f0).2 with
          file_list := store (attach s0 f0).2.file_list f1,
          file_descriptors := (attach s0 f0).2.file_descriptors.set (attach s0 f0).1.toNat
            (some { file := f0.addr, pos := buf.length, is_open := true }) } := ⟨_, rfl⟩
    rw [← hs2] at he
    have hwf2 : WF s2 := WF_ufs_write hwf1 _ buf hn _ he
    have hf1d : deref s2.file_list f1.addr = some f1 := by
      rw [hs2]
      simp only
      rw [deref_store, if_pos rfl, ha1, deref_attach hf0d, if_pos rfl]
      rfl
    have hfind : find_file s2.file_list name = some f1 := by
      have := find_file_of_mem hwf2 (deref_some hf1d).1 (by rw [hdl1]; exact hdl0)
      rw [hn1] at this
      exact hnm0 ▸ this
    have hwf3 := WF_ufs_open hwf2 name flags2
    have hop := ufs_open_found hfind flags2
    rw [hop] at hwf3
    have hd3 := get_desc_attach s2 f1
    obtain ⟨f3, hf3, hp3, he3⟩ := ufs_read_spec hwf3 hd3 buf.length
    rw [deref_attach hf1d, if_pos rfl] at hf3
    cases hf3
    simp only [hs1, Nat.sub_zero, Nat.zero_max, min_self] at he3
    have hslice : ∀ g : file, g.block_list = f1.block_list →
        slice g 0 buf.length = buf := by
      intro g hg
      rw [slice_congr hg]
      apply slice_eq
      intro j hj
      rw [hb1, if_pos (by omega), Nat.zero_add, Nat.sub_zero]
    rw [hslice _ (by rfl)] at he3
    refine ⟨s2, _, he, ?_, hop ▸ he3⟩
    rw [hop]
    have e1 : (attach s2 f1).1 = (s2.file_descriptors.length : Int) := rfl
    have e2 : (attach s0 f0).1 = (s0.file_descriptors.length : Int) := rfl
    have e3 : s2.file_descriptors.length = s0.file_descriptors.length + 1 := by
      rw [hs2]
      simp only [attach, List.length_set, List.length_append, List.length_singleton]
    rw [e1, e2, e3]
    omega

/-- Witness for C1 on the empty file system: 1000 bytes, which span two blocks,
written to the new file `a` and read back through a second descriptor. -/
theorem write_then_read_roundtrip_witness :
    find_file init.file_list "a" = none ∧ UFS_CREATE &&& UFS_CREATE ≠ 0 ∧
      (List.replicate 1000 (7 : Byte)).length ≤ MAX_FILE_SIZE ∧
      ∃ s2 s4,
        ufs_write (ufs_open init "a" UFS_CREATE).2 (ufs_open init "a" UFS_CREATE).1
            (List.replicate 1000 7)
          = some (((List.replicate 1000 (7 : Byte)).length : Int), s2) ∧
        (ufs_open s2 "a" 0).1 ≠ (ufs_open init "a" UFS_CREATE).1 ∧
        ufs_read (ufs_open s2 "a" 0).2 (ufs_open s2 "a" 0).1
            (List.replicate 1000 (7 : Byte)).length
          = some (((List.replicate 1000 (7 : Byte)).length : Int),
              List.replicate 1000 7, s4) :=
  ⟨rfl, by decide, by rw [List.length_replicate]; decide,
    write_then_read_roundtrip init Reachable.init "a" UFS_CREATE 0 (List.replicate 1000 7)
      rfl (by decide) (by rw [List.length_replicate]; decide)⟩

theorem set_same {α : Type} (l : List α) (i : Nat) (x : α) (h : l[i]? = some x) :
    l.set i x = l := by
  induction l generalizing i with
  | nil => rfl
  | cons y rest ih =>
    cases i with
    | zero =>
      simp only [List.getElem?_cons_zero, Option.some.injEq] at h
      rw [h]; rfl
    | succ i =>
      simp only [List.getElem?_cons_succ] at h
      simp only [List.set_cons_succ, ih i h]

theorem demo_open_reachable : Reachable demo_open :=
  Reachable.ufs_open init "a" UFS_CREATE Reachable.init

theorem demo_written_reachable : Reachable demo_written :=
  Reachable.ufs_write demo_open 0 [1, 2, 3] (3, demo_written) demo_open_reachable
    (by decide) (by decide!)

theorem demo_two_reachable : Reachable demo_two :=
  Reachable.ufs_open demo_written "a" 0 demo_written_reachable

/-- C9: in a reachable state, `ufs_read` of `n` bytes through an open
descriptor at position `p` on a file of size `s` returns `min n (s - p)`, hands
back the file bytes `p`, ..., `p + min n (s - p) - 1`, moves the position of
the descriptor by that count and changes nothing else in the state; at the end
of the file it returns 0 and the state, error code included, is as before. -/
theorem ufs_read_min (s : State) (hs : Reachable s) (fd : Int) (d : filedesc) (f : file)
    (n : Nat) (hd : get_desc s fd = some d) (hf : deref s.file_list d.file = some f) :
    ufs_read s fd n
        = some (((min n (f.size - d.pos) : Nat) : Int),
            slice f d.pos (min n (f.size - d.pos)),
            { s with
              file_descriptors := s.file_descriptors.set fd.toNat
                (some { d with pos := d.pos + min n (f.size - d.pos) }) }) ∧
      (∀ k, k < min n (f.size - d.pos) →
        (slice f d.pos (min n (f.size - d.pos)))[k]? = some (byte f (d.pos + k))) ∧
      (d.pos = f.size → ufs_read s fd n = some (0, [], s)) := by
  obtain ⟨g, hg, hp, he⟩ := ufs_read_spec hs.wf hd n
  rw [hf] at hg
  cases hg
  refine ⟨he, fun k hk => slice_getElem? f d.pos _ k hk, ?_⟩
  intro hpe
  have h0 : min n (f.size - d.pos) = 0 := by omega
  have hset : s.file_descriptors.set fd.toNat
      (some { file := d.file, pos := d.pos + 0, is_open := d.is_open })
      = s.file_descriptors := set_same _ _ _ (get_desc_some hd).2.2.1
  rw [he, h0, hset]
  rfl

/-- Witness for C9: descriptor 1 of `demo_two` is at position 0 of a file of
three bytes; a read of two bytes returns the first two. -/
theorem ufs_read_min_witness :
    get_desc demo_two 1 = some { file := 0, pos := 0, is_open := true } ∧
      deref demo_two.file_list 0 = some demo_file ∧
      demo_file.size = 3 ∧
      (ufs_read demo_two 1 2).map (fun r => (r.1, r.2.1)) = some (2, [1, 2]) ∧
      ufs_read demo_two 1 2
        = some (((min 2 (demo_file.size - 0) : Nat) : Int),
            slice demo_file 0 (min 2 (demo_file.size - 0)),
            { demo_two with
              file_descriptors := demo_two.file_descriptors.set (1 : Int).toNat
                (some { file := 0, pos := 0 + min 2 (demo_file.size - 0), is_open := true }) }) :=
  ⟨by decide!, by decide!, by decide!, by decide!,
    (ufs_read_min demo_two demo_two_reachable 1 { file := 0, pos := 0, is_open := true }
      demo_file 2 (by decide!) (by decide!)).1⟩

theorem demo_pair_reachable : Reachable demo_pair :=
  Reachable.ufs_open demo_open "a" 0 demo_open_reachable

/-- C5, as the code has it: in a reachable state, for an open descriptor at
position `p` and a request of `n` bytes with `p + n > MAX_FILE_SIZE` (so that
`n > 0`): when
the size of the file is below the maximum, `p` is below the maximum and
`ufs_write` writes the first `MAX_FILE_SIZE - p` bytes of the request and
returns that count, and the error code stays as it was; when the size of the
file has reached the maximum, `ufs_write` returns -1 with `UFS_ERR_NO_MEM` and
changes nothing else, wherever `p` is. -/
theorem ufs_write_beyond_max (s : State) (hs : Reachable s) (fd : Int) (d : filedesc)
    (f : file) (buf : List Byte) (hd : get_desc s fd = some d)
    (hf : deref s.file_list d.file = some f) (hn : buf.length ≤ SSIZE_MAX) (hover : d.pos + buf.length > MAX_FILE_SIZE) :
    (f.size < MAX_FILE_SIZE →
      d.pos < MAX_FILE_SIZE ∧
      ∃ f1, ufs_write s fd buf
          = some (((MAX_FILE_SIZE - d.pos : Nat) : Int),
              { s with
                file_list := store s.file_list f1,
                file_descriptors := s.file_descriptors.set fd.toNat
                  (some { d with pos := MAX_FILE_SIZE }) }) ∧
        f1.size = MAX_FILE_SIZE ∧ f1.addr = f.addr ∧
        ∀ j, byte f1 j = if d.pos ≤ j ∧ j < MAX_FILE_SIZE then buf.getD (j - d.pos) 0
                         else byte f j) ∧
    (f.size = MAX_FILE_SIZE →
      ufs_write s fd buf = some (-1, { s with ufs_error_code := UFS_ERR_NO_MEM })) ∧
    f.size ≤ MAX_FILE_SIZE := by
  obtain ⟨g, hg, hp, hok, hc⟩ := ufs_write_spec hs.wf hd buf hn
  rw [hf] at hg
  cases hg
  refine ⟨?_, ?_, hok.1⟩
  · intro hlt
    have hmin : min buf.length (MAX_FILE_SIZE - d.pos) = MAX_FILE_SIZE - d.pos := by omega
    have hsum : d.pos + (MAX_FILE_SIZE - d.pos) = MAX_FILE_SIZE := by omega
    refine ⟨by omega, ?_⟩
    rcases hc with ⟨hfull, _⟩ | ⟨_, f1, he, _, hs1, ha1, _, _, _, hb1⟩
    · omega
    · rw [hmin, hsum] at he hs1 hb1
      exact ⟨f1, he, by rw [hs1]; omega, ha1, hb1⟩
  · intro heq
    rcases hc with ⟨_, he⟩ | ⟨hnot, _⟩
    · exact he
    · exact absurd ⟨heq, hover⟩ hnot

/-- Witness for C5 (amended): descriptor 1 of `demo_two` is at position 0 of a
file of three bytes; a request of `MAX_FILE_SIZE + 1` bytes is cut to
`MAX_FILE_SIZE` bytes. -/
theorem ufs_write_beyond_max_witness :
    get_desc demo_two 1 = some { file := 0, pos := 0, is_open := true } ∧
      deref demo_two.file_list 0 = some demo_file ∧ demo_file.size < MAX_FILE_SIZE ∧
      ∃ f1, ufs_write demo_two 1 (List.replicate (MAX_FILE_SIZE + 1) 0)
          = some (((MAX_FILE_SIZE - 0 : Nat) : Int),
              { demo_two with
                file_list := store demo_two.file_list f1,
                file_descriptors := demo_two.file_descriptors.set (1 : Int).toNat
                  (some { file := 0, pos := MAX_FILE_SIZE, is_open := true }) }) ∧
        f1.size = MAX_FILE_SIZE :=
  have h := ufs_write_beyond_max demo_two demo_two_reachable 1
    { file := 0, pos := 0, is_open := true } demo_file (List.replicate (MAX_FILE_SIZE + 1) 0)
    (by decide!) (by decide!) (by rw [List.length_replicate]; decide)
    (by rw [List.length_replicate]; decide)
  have hlt : demo_file.size < MAX_FILE_SIZE := by decide!
  ⟨by decide!, by decide!, hlt,
    (h.1 hlt).2.imp (fun _ hx => ⟨hx.1, hx.2.1⟩)⟩

/-- Counterexample to C5 as stated: the file `a` is filled to `MAX_FILE_SIZE`
through descriptor 0 while descriptor 1 stays at position 0, inside the file.
A request of `MAX_FILE_SIZE + 1` bytes through descriptor 1 then returns -1
with `UFS_ERR_NO_MEM`, not the cut count `MAX_FILE_SIZE - 0`. -/
theorem ufs_write_full_file_inside_fails :
    ∃ s1 : State,
      ufs_write demo_pair 0 (List.replicate MAX_FILE_SIZE 0)
        = some ((MAX_FILE_SIZE : Int), s1) ∧
      get_desc s1 1 = some { file := 0, pos := 0, is_open := true } ∧
      (deref s1.file_list 0).map file.size = some MAX_FILE_SIZE ∧
      ufs_write s1 1 (List.replicate (MAX_FILE_SIZE + 1) 0)
        = some (-1, { s1 with ufs_error_code := UFS_ERR_NO_MEM }) ∧
      (-1 : Int) ≠ ((MAX_FILE_SIZE - 0 : Nat) : Int) := by
  have hwf := demo_pair_reachable.wf
  have hd0 : get_desc demo_pair 0 = some { file := 0, pos := 0, is_open := true } := by
    decide!
  have hfds : demo_pair.file_descriptors
      = [some { file := 0, pos := 0, is_open := true },
         some { file := 0, pos := 0, is_open := true }] := by decide!
  have hf0 : deref demo_pair.file_list 0
      = some { addr := 0, block_list := [], refs := 2, name := "a", is_deleted := false,
               size := 0 } := by decide!
  have hl1 : (List.replicate MAX_FILE_SIZE (0 : Byte)).length = MAX_FILE_SIZE :=
    List.length_replicate _ _
  have hl2 : (List.replicate (MAX_FILE_SIZE + 1) (0 : Byte)).length = MAX_FILE_SIZE + 1 :=
    List.length_replicate _ _
  have hn1 : (List.replicate MAX_FILE_SIZE (0 : Byte)).length ≤ SSIZE_MAX := by
    rw [hl1]; decide
  have hn2 : (List.replicate (MAX_FILE_SIZE + 1) (0 : Byte)).length ≤ SSIZE_MAX := by
    rw [hl2]; decide
  obtain ⟨f, hf, _, _, hc⟩ := ufs_write_spec hwf hd0 _ hn1
  rw [hf0] at hf
  cases hf
  rw [hl1] at hc
  have hmin : min MAX_FILE_SIZE (MAX_FILE_SIZE - 0) = MAX_FILE_SIZE := by
    simp only [Nat.sub_zero, min_self]
  rcases hc with ⟨hfull, _⟩ | ⟨_, f1, he, _, hs1, ha1, _, _, _, _⟩
  · exact absurd hfull.1 (by decide)
  · simp only [hmin, Nat.zero_add, Nat.zero_max] at he hs1
    have hwf1 := WF_ufs_write hwf 0 _ hn1 _ he
    have hd1 : get_desc
        { demo_pair with
          file_list := store demo_pair.file_list f1,
          file_descriptors := demo_pair.file_descriptors.set (0 : Int).toNat
            (some { file := 0, pos := MAX_FILE_SIZE, is_open := true }) } 1
        = some { file := 0, pos := 0, is_open := true } := by
      refine get_desc_of (i := 1) ?_ rfl
      simp only [hfds]
      rfl
    have hf1 : deref (store demo_pair.file_list f1) 0 = some f1 := by
      have ha : f1.addr = 0 := ha1
      rw [deref_store, ha, if_pos rfl, hf0]
      rfl
    refine ⟨_, he, hd1, ?_, ?_, by decide⟩
    · simp only [hf1, Option.map_some', hs1]
    · obtain ⟨g, hg, _, _, hc2⟩ := ufs_write_spec hwf1 hd1 _ hn2
      rw [hf1] at hg
      cases hg
      rw [hl2] at hc2
      rcases hc2 with ⟨_, he2⟩ | ⟨hnot, _⟩
      · exact he2
      · exact absurd ⟨hs1, by simp only [Nat.zero_add]; omega⟩ hnot

/-- C6, the code at the failing input: descriptors 0, 1 and 2 are opened and
descriptor 1 is closed, which leaves slot 1 of the array free; the next
`ufs_open` returns 3, a new index at the end, not the free slot 1. -/
theorem ufs_open_skips_free_slot :
    (ufs_open init "a" UFS_CREATE).1 = 0 ∧
      (ufs_open (ufs_open init "a" UFS_CREATE).2 "b" UFS_CREATE).1 = 1 ∧
      (ufs_open (ufs_open (ufs_open init "a" UFS_CREATE).2 "b" UFS_CREATE).2 "c"
        UFS_CREATE).1 = 2 ∧
      ∃ s4 : State, ufs_close demo_three 1 = some (0, s4) ∧
        s4.file_descriptors[1]? = some none ∧
        (ufs_open s4 "d" UFS_CREATE).1 = 3 := by
  refine ⟨by decide!, by decide!, by decide!, ?_⟩
  refine ⟨((ufs_close demo_three 1).getD (0, init)).2, by decide!, by decide!, by decide!⟩

/-- A successful `ufs_open` always returns the old `file_descriptor_count`,
whatever slots of the array are free. -/
theorem ufs_open_returns_count (s : State) (n : String) (flags : Nat) :
    (ufs_open s n flags).1 = -1 ∨
      (ufs_open s n flags).1 = (s.file_descriptors.length : Int) := by
  simp only [ufs_open]
  cases find_file s.file_list n with
  | some f =>
    simp only
    split
    · exact Or.inl rfl
    · exact Or.inr rfl
  | none =>
    simp only
    split
    · exact Or.inl rfl
    · exact Or.inr rfl

theorem ufs_write_total {s : State} (h : WF s) (fd : Int) (buf : List Byte)
    (hn : buf.length ≤ SSIZE_MAX) :
    ∃ r, ufs_write s fd buf = some r ∧
      (r.1 ≠ -1 → r.2.ufs_error_code = s.ufs_error_code) ∧
      (r.1 = -1 → r.2.ufs_error_code ≠ UFS_ERR_NO_ERR) := by
  cases hd : get_desc s fd with
  | none =>
    refine ⟨(-1, { s with ufs_error_code := UFS_ERR_NO_FILE }), ?_, ?_, ?_⟩
    · simp only [ufs_write, hd]
    · intro hx; exact absurd rfl hx
    · intro _ hx; cases hx
  | some d =>
    obtain ⟨f, _, _, _, hc⟩ := ufs_write_spec h hd buf hn
    rcases hc with ⟨_, he⟩ | ⟨_, f1, he, _⟩
    · refine ⟨_, he, ?_, ?_⟩
      · intro hx; exact absurd rfl hx
      · intro _ hx; cases hx
    · refine ⟨_, he, fun _ => rfl, ?_⟩
      intro hx
      simp only at hx
      omega

theorem ufs_read_total {s : State} (h : WF s) (fd : Int) (n : Nat) :
    ∃ r, ufs_read s fd n = some r ∧
      (r.1 ≠ -1 → r.2.2.ufs_error_code = s.ufs_error_code) ∧
      (r.1 = -1 → r.2.2.ufs_error_code ≠ UFS_ERR_NO_ERR) := by
  cases hd : get_desc s fd with
  | none =>
    refine ⟨(-1, [], { s with ufs_error_code := UFS_ERR_NO_FILE }), ?_, ?_, ?_⟩
    · simp only [ufs_read, hd]
    · intro hx; exact absurd rfl hx
    · intro _ hx; cases hx
  | some d =>
    obtain ⟨f, _, _, he⟩ := ufs_read_spec h hd n
    refine ⟨_, he, fun _ => rfl, ?_⟩
    intro hx
    simp only at hx
    omega

theorem ufs_close_total {s : State} (h : WF s) (fd : Int) :
    ∃ r, ufs_close s fd = some r ∧
      (r.1 ≠ -1 → r.2.ufs_error_code = s.ufs_error_code) ∧
      (r.1 = -1 → r.2.ufs_error_code ≠ UFS_ERR_NO_ERR) := by
  cases hd : get_desc s fd with
  | none =>
    refine ⟨(-1, { s with ufs_error_code := UFS_ERR_NO_FILE }), ?_, ?_, ?_⟩
    · simp only [ufs_close, hd]
    · intro hx; exact absurd rfl hx
    · intro _ hx; cases hx
  | some d =>
    obtain ⟨f, _, he⟩ := ufs_close_spec h hd
    refine ⟨_, he, fun _ => rfl, ?_⟩
    intro hx
    simp only at hx
    omega

/-- C7, as the code has it: the calls set the error code on failure only. In a
reachable state each of `ufs_open`, `ufs_write`, `ufs_read`, `ufs_close` and
`ufs_delete` returns; when it succeeds `ufs_errno` returns afterwards what it
returned before the call, and when it fails (returns -1) `ufs_errno` returns an
error code afterwards. -/
theorem success_keeps_ufs_errno (s : State) (hs : Reachable s) :
    (∀ n flags,
      ((ufs_open s n flags).1 ≠ -1 → ufs_errno (ufs_open s n flags).2 = ufs_errno s) ∧
      ((ufs_open s n flags).1 = -1 →
        ufs_errno (ufs_open s n flags).2 ≠ UFS_ERR_NO_ERR)) ∧
    (∀ fd buf, buf.length ≤ SSIZE_MAX → ∃ r, ufs_write s fd buf = some r ∧
      (r.1 ≠ -1 → ufs_errno r.2 = ufs_errno s) ∧
      (r.1 = -1 → ufs_errno r.2 ≠ UFS_ERR_NO_ERR)) ∧
    (∀ fd n, ∃ r, ufs_read s fd n = some r ∧
      (r.1 ≠ -1 → ufs_errno r.2.2 = ufs_errno s) ∧
      (r.1 = -1 → ufs_errno r.2.2 ≠ UFS_ERR_NO_ERR)) ∧
    (∀ fd, ∃ r, ufs_close s fd = some r ∧
      (r.1 ≠ -1 → ufs_errno r.2 = ufs_errno s) ∧
      (r.1 = -1 → ufs_errno r.2 ≠ UFS_ERR_NO_ERR)) ∧
    (∀ n,
      ((ufs_delete s n).1 ≠ -1 → ufs_errno (ufs_delete s n).2 = ufs_errno s) ∧
      ((ufs_delete s n).1 = -1 → ufs_errno (ufs_delete s n).2 ≠ UFS_ERR_NO_ERR)) := by
  have hwf := hs.wf
  refine ⟨?_, fun fd buf hn => ufs_write_total hwf fd buf hn,
    fun fd n => ufs_read_total hwf fd n, fun fd => ufs_close_total hwf fd, ?_⟩
  · intro n flags
    simp only [ufs_open, ufs_errno]
    cases find_file s.file_list n with
    | some f =>
      simp only
      split
      · exact ⟨fun hx => absurd rfl hx, fun _ hx => by cases hx⟩
      · refine ⟨fun _ => rfl, fun hx => ?_⟩
        simp only [attach] at hx
        omega
    | none =>
      simp only
      split
      · exact ⟨fun hx => absurd rfl hx, fun _ hx => by cases hx⟩
      · refine ⟨fun _ => rfl, fun hx => ?_⟩
        simp only [attach, create_file] at hx
        omega
  · intro n
    simp only [ufs_delete, ufs_errno]
    cases find_file s.file_list n with
    | none => exact ⟨fun hx => absurd rfl hx, fun _ hx => by cases hx⟩
    | some f =>
      refine ⟨fun _ => rfl, fun hx => ?_⟩
      simp only at hx
      omega

/-- Witness for C7 (amended), on the state after a failed `ufs_open`. -/
theorem success_keeps_ufs_errno_witness :
    ufs_errno (ufs_open init "a" 0).2 = UFS_ERR_NO_FILE ∧
      ((ufs_open (ufs_open init "a" 0).2 "a" UFS_CREATE).1 ≠ -1 →
        ufs_errno (ufs_open (ufs_open init "a" 0).2 "a" UFS_CREATE).2
          = ufs_errno (ufs_open init "a" 0).2) :=
  ⟨by decide!,
    ((success_keeps_ufs_errno (ufs_open init "a" 0).2
      (Reachable.ufs_open init "a" 0 Reachable.init)).1 "a" UFS_CREATE).1⟩

/-- Counterexample to C7 as stated: on the empty file system `ufs_open("a", 0)`
fails and records `UFS_ERR_NO_FILE`; the `ufs_open("a", UFS_CREATE)` that
follows succeeds, and `ufs_errno` still returns `UFS_ERR_NO_FILE`. -/
theorem ufs_open_success_leaves_old_error :
    (ufs_open init "a" 0).1 = -1 ∧
      (ufs_open (ufs_open init "a" 0).2 "a" UFS_CREATE).1 = 0 ∧
      ufs_errno (ufs_open (ufs_open init "a" 0).2 "a" UFS_CREATE).2 = UFS_ERR_NO_FILE ∧
      UFS_ERR_NO_FILE ≠ UFS_ERR_NO_ERR := by
  decide!

theorem store_fresh {fl : List file} {f : file} (h : ∀ g ∈ fl, g.addr ≠ f.addr) :
    store fl f = fl := by
  simp only [store]
  conv_rhs => rw [← List.map_id fl]
  exact List.map_congr_left (fun g hg => by rw [if_neg (h g hg)]; rfl)

/-- After a successful `ufs_open` the file of the new descriptor is the only
file with the name that is not deleted. -/
theorem unique_named {s : State} (h : WF s) {f1 : file} (hf1 : f1 ∈ s.file_list)
    (hd1 : f1.is_deleted = false) (g : file) (hg : g ∈ s.file_list)
    (hn : g.name = f1.name) (hd : g.is_deleted = false) : g = f1 := by
  have ha := h.names g hg f1 hf1 hd hd1 hn
  have h1 := WF_mem_deref h hg
  have h2 := WF_mem_deref h hf1
  rw [ha, h2] at h1
  cases h1; rfl

/-- C10: in a reachable state `ufs_open` fails exactly when no file that is not
deleted has the name and `UFS_CREATE` is not set. A failure returns -1, sets
`UFS_ERR_NO_FILE` and changes nothing else. A success returns a new descriptor
at position 0 on the one file with the name that is not deleted: the file that
was there with one more reference, or else a new file of size 0 with one
reference; the files at other addresses and the descriptors in the array are
as before. -/
theorem ufs_open_contract (s : State) (hs : Reachable s) (n : String) (flags : Nat) :
    ((ufs_open s n flags).1 = -1 ↔
      ((∀ f ∈ s.file_list, ¬ (f.name = n ∧ f.is_deleted = false)) ∧
        flags &&& UFS_CREATE = 0)) ∧
    ((ufs_open s n flags).1 = -1 →
      (ufs_open s n flags).2 = { s with ufs_error_code := UFS_ERR_NO_FILE }) ∧
    ((ufs_open s n flags).1 ≠ -1 →
      ∃ f1 : file,
        (ufs_open s n flags).1 = (s.file_descriptors.length : Int) ∧
        (ufs_open s n flags).2.file_descriptors
          = s.file_descriptors ++ [some { file := f1.addr, pos := 0, is_open := true }] ∧
        get_desc (ufs_open s n flags).2 (ufs_open s n flags).1
          = some { file := f1.addr, pos := 0, is_open := true } ∧
        deref (ufs_open s n flags).2.file_list f1.addr = some f1 ∧
        f1.name = n ∧ f1.is_deleted = false ∧
        (∀ g ∈ (ufs_open s n flags).2.file_list,
          g.name = n → g.is_deleted = false → g = f1) ∧
        ((∃ f, find_file s.file_list n = some f ∧ deref s.file_list f1.addr = some f ∧
            f1 = { f with refs := f.refs + 1 } ∧
            (ufs_open s n flags).2.file_list = store s.file_list f1) ∨
         (find_file s.file_list n = none ∧ deref s.file_list f1.addr = none ∧
            f1 = { addr := s.next_addr, block_list := [], refs := 1, name := n,
                   is_deleted := false, size := 0 } ∧
            (ufs_open s n flags).2.file_list = f1 :: s.file_list)) ∧
        (∀ a, a ≠ f1.addr →
          deref (ufs_open s n flags).2.file_list a = deref s.file_list a) ∧
        ufs_errno (ufs_open s n flags).2 = ufs_errno s) := by
  have hwf := hs.wf
  have hwf1 := WF_ufs_open hwf n flags
  have hsucc : ∀ (s0 : State) (f : file), ufs_open s n flags = attach s0 f →
      s0.file_descriptors = s.file_descriptors →
      deref s0.file_list f.addr = some f → f.name = n → f.is_deleted = false →
      (ufs_open s n flags).1 ≠ -1 ∧
      (ufs_open s n flags).1 = (s.file_descriptors.length : Int) ∧
      (ufs_open s n flags).2.file_descriptors
        = s.file_descriptors ++ [some { file := f.addr, pos := 0, is_open := true }] ∧
      get_desc (ufs_open s n flags).2 (ufs_open s n flags).1
        = some { file := f.addr, pos := 0, is_open := true } ∧
      deref (ufs_open s n flags).2.file_list f.addr = some { f with refs := f.refs + 1 } ∧
      (∀ g ∈ (ufs_open s n flags).2.file_list,
        g.name = n → g.is_deleted = false → g = { f with refs := f.refs + 1 }) ∧
      (∀ a, a ≠ f.addr →
        deref (ufs_open s n flags).2.file_list a = deref s0.file_list a) := by
    intro s0 f he hfd hdf hnm hdl
    have hd1 : deref (attach s0 f).2.file_list f.addr = some { f with refs := f.refs + 1 } := by
      rw [deref_attach hdf, if_pos rfl]
    rw [he] at hwf1 ⊢
    refine ⟨?_, ?_, ?_, get_desc_attach s0 f, hd1, ?_, ?_⟩
    · simp only [attach]; omega
    · simp only [attach, State.file_descriptor_count, hfd]
    · simp only [attach, hfd]
    · intro g hg hgn hgd
      exact unique_named hwf1 (deref_some hd1).1 hdl g hg (hgn.trans hnm.symm) hgd
    · intro a ha
      rw [deref_attach hdf, if_neg ha]
  cases hfind : find_file s.file_list n with
  | some f =>
    obtain ⟨hfm, hfn, hfd⟩ := find_file_some hfind
    have hdf := WF_mem_deref hwf hfm
    obtain ⟨h1, h2, h3, h4, h5, h6, h7⟩ :=
      hsucc s f (ufs_open_found hfind flags) rfl hdf hfn hfd
    refine ⟨⟨fun hx => absurd hx h1, fun hx => absurd ⟨hfn, hfd⟩ (hx.1 f hfm)⟩,
      fun hx => absurd hx h1, fun _ => ?_⟩
    refine ⟨{ f with refs := f.refs + 1 }, h2, h3, h4, h5, hfn, hfd, h6,
      Or.inl ⟨f, rfl, hdf, rfl, ?_⟩, h7, ?_⟩
    · rw [ufs_open_found hfind]; rfl
    · rw [ufs_open_found hfind]; rfl
  | none =>
    have hnone := find_file_none.1 hfind
    by_cases hc : flags &&& UFS_CREATE = 0
    · have he := ufs_open_fail hfind hc
      refine ⟨⟨fun _ => ⟨hnone, hc⟩, fun _ => by rw [he]⟩, fun _ => by rw [he], fun hx => ?_⟩
      rw [he] at hx
      exact absurd rfl hx
    · have he := ufs_open_create hfind hc
      have hfresh : ∀ g ∈ s.file_list, g.addr ≠ s.next_addr := by
        intro g hg
        have := hwf.fresh g hg
        omega
      have hdn : deref s.file_list s.next_addr = none := deref_none hfresh
      obtain ⟨h1, h2, h3, h4, h5, h6, h7⟩ :=
        hsucc (create_file s n).2 (create_file s n).1 he rfl
          (by simp only [create_file, deref, if_true]) rfl rfl
      refine ⟨⟨fun hx => absurd hx h1, fun hx => absurd hx.2 hc⟩,
        fun hx => absurd hx h1, fun _ => ?_⟩
      refine ⟨{ (create_file s n).1 with refs := (create_file s n).1.refs + 1 }, h2, h3, h4,
        h5, rfl, rfl, h6, Or.inr ⟨rfl, hdn, rfl, ?_⟩, ?_, ?_⟩
      · rw [he]
        have hst := store_fresh (f := file.mk s.next_addr [] (0 + 1) n false 0) hfresh
        simp only [store] at hst
        simp only [attach, create_file, store, List.map_cons, if_true]
        rw [hst]
      · intro a ha
        rw [h7 a ha]
        simp only [create_file, deref]
        have ha1 : ¬ s.next_addr = a := fun e => ha e.symm
        rw [if_neg ha1]
      · rw [he]; rfl

/-- Witness for C10: on `demo_written` the name `a` is found and `b` is not. -/
theorem ufs_open_contract_witness :
    (ufs_open demo_written "b" 0).1 = -1 ∧ (ufs_open demo_written "a" 0).1 = 1 ∧
      (ufs_open demo_written "b" UFS_CREATE).1 = 1 ∧
      ((ufs_open demo_written "b" 0).1 = -1 →
        (ufs_open demo_written "b" 0).2
          = { demo_written with ufs_error_code := UFS_ERR_NO_FILE }) :=
  ⟨by decide!, by decide!, by decide!,
    (ufs_open_contract demo_written demo_written_reachable "b" 0).2.1⟩

/-! ## Deleting a file that is open -/

theorem get_desc_of_nonneg {s : State} {fd : Int} {d : filedesc} (h0 : 0 ≤ fd)
    (h : s.file_descriptors[fd.toNat]? = some (some d)) (ho : d.is_open = true) :
    get_desc s fd = some d := by
  have := get_desc_of (s := s) (i := fd.toNat) h ho
  rwa [Int.toNat_of_nonneg h0] at this

/-- A descriptor stays what it is when the array grows at the end. -/
theorem get_desc_append {s s1 : State} {fd : Int} {d : filedesc} (x : Option filedesc)
    (h : get_desc s fd = some d) (hs : s1.file_descriptors = s.file_descriptors ++ [x]) :
    get_desc s1 fd = some d := by
  obtain ⟨h0, hlt, hget, ho⟩ := get_desc_some h
  refine get_desc_of_nonneg h0 ?_ ho
  rw [hs, List.getElem?_append_left hlt]
  exact hget

/-- A descriptor stays what it is when another slot of the array is set. -/
theorem get_desc_set {s t : State} {fd : Int} {d : filedesc} (i : Nat)
    (x : Option filedesc) (h : get_desc s fd = some d)
    (hs : t.file_descriptors = s.file_descriptors.set i x) (hi : i ≠ fd.toNat) :
    get_desc t fd = some d := by
  obtain ⟨h0, hlt, hget, ho⟩ := get_desc_some h
  refine get_desc_of_nonneg h0 ?_ ho
  rw [hs, List.getElem?_set_ne hi]
  exact hget

theorem refcount_pos {fds : List (Option filedesc)} {d : filedesc} (h : some d ∈ fds) :
    0 < refcount fds d.file := by
  rcases Nat.eq_zero_or_pos (refcount fds d.file) with h0 | h0
  · exact absurd rfl (refcount_zero h0 d h)
  · exact h0

/-- A read through a descriptor whose file has the blocks and the size of `f`
returns the bytes of `f`. -/
theorem read_through {s : State} (h : WF s) {fd : Int} {d : filedesc} {g f : file}
    (hd : get_desc s fd = some d) (hg : deref s.file_list d.file = some g)
    (hsz : g.size = f.size) (hbl : g.block_list = f.block_list) (n : Nat) :
    ∃ s3, ufs_read s fd n
      = some (((min n (f.size - d.pos) : Nat) : Int),
          slice f d.pos (min n (f.size - d.pos)), s3) := by
  obtain ⟨g1, hg1, _, he⟩ := ufs_read_spec h hd n
  rw [hg] at hg1
  cases hg1
  rw [hsz, slice_congr hbl] at he
  exact ⟨_, he⟩

/-- A write through a descriptor that stays below the maximum size succeeds. -/
theorem write_through {s : State} (h : WF s) {fd : Int} {d : filedesc}
    (hd : get_desc s fd = some d) (buf : List Byte)
    (hb : d.pos + buf.length ≤ MAX_FILE_SIZE) :
    ∃ f f1, deref s.file_list d.file = some f ∧
      ufs_write s fd buf
        = some ((buf.length : Int),
            { s with
              file_list := store s.file_list f1,
              file_descriptors := s.file_descriptors.set fd.toNat
                (some { d with pos := d.pos + buf.length }) }) ∧
      f1.addr = f.addr ∧ f1.size = max f.size (d.pos + buf.length) ∧
      ∀ j, byte f1 j = if d.pos ≤ j ∧ j < d.pos + buf.length then buf.getD (j - d.pos) 0
                       else byte f j := by
  have hn : buf.length ≤ SSIZE_MAX := by
    simp only [SSIZE_MAX, MAX_FILE_SIZE] at *; omega
  obtain ⟨f, hf, _, _, hc⟩ := ufs_write_spec h hd buf hn
  have hmin : min buf.length (MAX_FILE_SIZE - d.pos) = buf.length := by omega
  rcases hc with ⟨hfull, _⟩ | ⟨_, f1, he, _, hs1, ha1, _, _, _, hb1⟩
  · omega
  · rw [hmin] at he hs1 hb1
    exact ⟨f, f1, hf, he, ha1, hs1, hb1⟩

/-- C4: in a reachable state let `fd` be an open descriptor on the file that the
name finds. Then `ufs_delete` of the name returns 0 and leaves the descriptor
open; after it `ufs_open` of the name without `UFS_CREATE` fails with
`UFS_ERR_NO_FILE`; `ufs_open` with `UFS_CREATE` returns another descriptor, on
a new file of size 0 at another address, through which a read returns 0 bytes;
reads through `fd`, before and after that, return the bytes of the old file,
also after a write to the new file; and a write through `fd` that fits below
the maximum size succeeds and goes to the old file. -/
theorem delete_while_open (s : State) (hs : Reachable s) (name : String) (fd : Int)
    (d : filedesc) (f : file) (hd : get_desc s fd = some d)
    (hf : deref s.file_list d.file = some f)
    (hfind : find_file s.file_list name = some f) :
    (ufs_delete s name).1 = 0 ∧
    get_desc (ufs_delete s name).2 fd = some d ∧
    (∀ n, ∃ s3, ufs_read (ufs_delete s name).2 fd n
      = some (((min n (f.size - d.pos) : Nat) : Int),
          slice f d.pos (min n (f.size - d.pos)), s3)) ∧
    (∀ flags, flags &&& UFS_CREATE = 0 →
      ufs_open (ufs_delete s name).2 name flags
        = (-1, { (ufs_delete s name).2 with ufs_error_code := UFS_ERR_NO_FILE })) ∧
    (∀ flags, flags &&& UFS_CREATE ≠ 0 →
      ∃ (fd2 : Int) (s2 : State) (a2 : Nat),
        ufs_open (ufs_delete s name).2 name flags = (fd2, s2) ∧
        fd2 ≠ -1 ∧ fd2 ≠ fd ∧ a2 ≠ f.addr ∧
        get_desc s2 fd2 = some { file := a2, pos := 0, is_open := true } ∧
        deref s2.file_list a2
          = some { addr := a2, block_list := [], refs := 1, name := name,
                   is_deleted := false, size := 0 } ∧
        (∀ n, ∃ s3, ufs_read s2 fd2 n = some (0, [], s3)) ∧
        (∀ n, ∃ s3, ufs_read s2 fd n
          = some (((min n (f.size - d.pos) : Nat) : Int),
              slice f d.pos (min n (f.size - d.pos)), s3)) ∧
        (∀ buf : List Byte, d.pos + buf.length ≤ MAX_FILE_SIZE →
          ∃ s3 g, ufs_write s2 fd buf = some ((buf.length : Int), s3) ∧
            deref s3.file_list f.addr = some g ∧
            (∀ j, byte g j = if d.pos ≤ j ∧ j < d.pos + buf.length
              then buf.getD (j - d.pos) 0 else byte f j) ∧
            deref s3.file_list a2 = deref s2.file_list a2) ∧
        (∀ buf2 : List Byte, buf2.length ≤ MAX_FILE_SIZE →
          ∃ s3, ufs_write s2 fd2 buf2 = some ((buf2.length : Int), s3) ∧
            ∀ n, ∃ s4, ufs_read s3 fd n
              = some (((min n (f.size - d.pos) : Nat) : Int),
                  slice f d.pos (min n (f.size - d.pos)), s4))) := by
  have hwf := hs.wf
  obtain ⟨hfm, hfn, hfd⟩ := find_file_some hfind
  have hda : d.file = f.addr := (deref_some hf).2.symm
  have hrefs : f.refs ≠ 0 := by
    have h1 := hwf.refs f hfm
    have h2 := refcount_pos (get_desc_mem hd)
    rw [hda] at h2
    omega
  obtain ⟨fdel, hfdel⟩ : ∃ fdel : file, fdel = { f with is_deleted := true } := ⟨_, rfl⟩
  have hdel : ufs_delete s name = (0, { s with file_list := store s.file_list fdel }) := by
    simp only [ufs_delete, hfind, if_neg hrefs, hfdel]
  have hwf1 := WF_ufs_delete hwf name
  rw [hdel] at hwf1 ⊢
  obtain ⟨s1, hs1⟩ : ∃ s1 : State, s1 = { s with file_list := store s.file_list fdel } :=
    ⟨_, rfl⟩
  rw [← hs1] at hwf1 ⊢
  have hfds1 : s1.file_descriptors = s.file_descriptors := by rw [hs1]
  have hd1 : get_desc s1 fd = some d := by
    obtain ⟨h0, _, hget, ho⟩ := get_desc_some hd
    exact get_desc_of_nonneg h0 (by rw [hfds1]; exact hget) ho
  have hdf1 : deref s1.file_list d.file = some fdel := by
    rw [hs1]
    simp only
    have hf1 : deref s.file_list f.addr = some f := by rw [← hda]; exact hf
    rw [deref_store, hda, if_pos (by rw [hfdel]), hf1]
    rfl
  have hfind1 : find_file s1.file_list name = none := by
    rw [find_file_none]
    intro g hg hc
    rw [hs1] at hg
    rcases mem_store hg with h1 | h1
    · rw [h1.1, hfdel] at hc
      cases hc.2
    · have := hwf.names g h1.1 f hfm hc.2 hfd (hc.1.trans hfn.symm)
      exact h1.2 (by rw [hfdel]; exact this)
  have hsz : fdel.size = f.size := by rw [hfdel]
  have hbl : fdel.block_list = f.block_list := by rw [hfdel]
  refine ⟨rfl, hd1, read_through hwf1 hd1 hdf1 hsz hbl, ?_, ?_⟩
  · intro flags hc
    exact ufs_open_fail hfind1 hc
  · intro flags hc
    have hop := ufs_open_create hfind1 hc
    have hwf2 := WF_ufs_open hwf1 name flags
    rw [hop] at hwf2
    obtain ⟨s0, hs0⟩ : ∃ s0, s0 = (create_file s1 name).2 := ⟨_, rfl⟩
    obtain ⟨f0, hf0⟩ : ∃ f0, f0 = (create_file s1 name).1 := ⟨_, rfl⟩
    rw [← hs0, ← hf0] at hwf2 hop
    have hf0a : f0.addr = s.next_addr := by rw [hf0, hs1]; rfl
    have hne : s.next_addr ≠ f.addr := by
      have := hwf.fresh f hfm
      omega
    have hf0d : deref s0.file_list f0.addr = some f0 := by
      rw [hs0, hf0]; simp only [create_file, deref, if_true]
    have hfds2 : (attach s0 f0).2.file_descriptors
        = s.file_descriptors ++ [some { file := f0.addr, pos := 0, is_open := true }] := by
      rw [hs0]
      simp only [attach, create_file, hfds1]
    have hd2 : get_desc (attach s0 f0).2 fd = some d := get_desc_append _ hd hfds2
    have hdn := get_desc_attach s0 f0
    have hdf2 : deref (attach s0 f0).2.file_list d.file = some fdel := by
      rw [deref_attach hf0d, if_neg (by rw [hda, hf0a]; exact Ne.symm hne), hs0]
      simp only [create_file, deref]
      have hnx : s1.next_addr = s.next_addr := by rw [hs1]
      rw [if_neg (by rw [hda, hnx]; exact hne)]
      exact hdf1
    have hdf0 : deref (attach s0 f0).2.file_list f0.addr
        = some { f0 with refs := f0.refs + 1 } := by
      rw [deref_attach hf0d, if_pos rfl]
    have hfdlt := (get_desc_some hd).2.1
    have hfdge := (get_desc_some hd).1
    have hcount : (attach s0 f0).1 = (s.file_descriptors.length : Int) := by
      rw [hs0]
      simp only [attach, State.file_descriptor_count, create_file, hfds1]
    refine ⟨(attach s0 f0).1, (attach s0 f0).2, f0.addr, hop, ?_, ?_, ?_, hdn, ?_, ?_,
      read_through hwf2 hd2 hdf2 hsz hbl, ?_, ?_⟩
    · rw [hcount]; omega
    · rw [hcount]; omega
    · rw [hf0a]; exact hne
    · rw [hdf0, hf0]; rfl
    · intro n
      obtain ⟨s3, he⟩ := read_through (f := { f0 with refs := f0.refs + 1 }) hwf2 hdn hdf0
        rfl rfl n
      have hz : min n (f0.size - 0) = 0 := by
        have : f0.size = 0 := by rw [hf0]; rfl
        omega
      simp only at he
      rw [hz] at he
      exact ⟨s3, he⟩
    · intro buf hb
      obtain ⟨g, g1, hg, he, ha1, _, hb1⟩ := write_through hwf2 hd2 buf hb
      rw [hdf2] at hg
      cases hg
      refine ⟨_, g1, he, ?_, ?_, ?_⟩
      · simp only
        rw [deref_store, if_pos (by rw [ha1, hfdel]), ← hda, hdf2]
        rfl
      · intro j
        rw [hb1 j, byte_congr hbl]
      · simp only
        rw [deref_store, if_neg (by rw [ha1, hfdel, hf0a]; exact hne)]
    · intro buf2 hb2
      obtain ⟨g, g1, hg, he, ha1, _, _⟩ := write_through hwf2 hdn buf2
        (by simp only [Nat.zero_add]; exact hb2)
      rw [hdf0] at hg
      cases hg
      have hn2 : buf2.length ≤ SSIZE_MAX := by
        simp only [SSIZE_MAX, MAX_FILE_SIZE] at *; omega
      have hwf3 := WF_ufs_write hwf2 _ buf2 hn2 _ he
      refine ⟨_, he, ?_⟩
      have hd3 := get_desc_set (s := (attach s0 f0).2) (attach s0 f0).1.toNat
        (some { file := f0.addr, pos := 0 + buf2.length, is_open := true }) hd2
        (t := { (attach s0 f0).2 with
          file_list := store (attach s0 f0).2.file_list g1,
          file_descriptors := (attach s0 f0).2.file_descriptors.set (attach s0 f0).1.toNat
            (some { file := f0.addr, pos := 0 + buf2.length, is_open := true }) }) rfl
        (by rw [hcount]; omega)
      refine read_through hwf3 hd3 ?_ hsz hbl
      simp only
      rw [deref_store, if_neg (by rw [ha1, hda, hf0a]; exact Ne.symm hne)]
      exact hdf2

/-- Witness for C4: in `demo_two` descriptor 1 is open at position 0 on the
file `a`, which holds the bytes 1, 2, 3; after the delete a read of three bytes
through descriptor 1 still returns them. -/
theorem delete_while_open_witness :
    get_desc demo_two 1 = some { file := 0, pos := 0, is_open := true } ∧
      deref demo_two.file_list 0 = some demo_file ∧
      find_file demo_two.file_list "a" = some demo_file ∧
      slice demo_file 0 3 = [1, 2, 3] ∧
      (ufs_delete demo_two "a").1 = 0 ∧
      ∃ s3, ufs_read (ufs_delete demo_two "a").2 1 3
        = some (((min 3 (demo_file.size - 0) : Nat) : Int),
            slice demo_file 0 (min 3 (demo_file.size - 0)), s3) :=
  have h := delete_while_open demo_two demo_two_reachable "a" 1
    { file := 0, pos := 0, is_open := true } demo_file (by decide!) (by decide!) (by decide!)
  ⟨by decide!, by decide!, by decide!, by decide!, h.1, h.2.2.1 3⟩

/-! ## The life of a file -/

/-- C11: in a reachable state, `ufs_delete` of a name that finds a file unlinks
the file at once when its reference count is 0 and otherwise only marks it
deleted; `ufs_close` of an open descriptor unlinks the file exactly when the
close takes the count from 1 to 0 and the file is marked deleted, and
otherwise keeps it with one reference less, so a file that is not deleted is
never removed; both leave the files at other addresses as they were; and no
file of the list is both marked deleted and without references. -/
theorem destroyed_when_deleted_and_unreferenced (s : State) (hs : Reachable s) :
    (∀ n f, find_file s.file_list n = some f →
      (ufs_delete s n).1 = 0 ∧
      (f.refs = 0 →
        (ufs_delete s n).2.file_list = unlink s.file_list f.addr ∧
        deref (ufs_delete s n).2.file_list f.addr = none) ∧
      (f.refs ≠ 0 →
        deref (ufs_delete s n).2.file_list f.addr = some { f with is_deleted := true }) ∧
      (∀ a, a ≠ f.addr → deref (ufs_delete s n).2.file_list a = deref s.file_list a)) ∧
    (∀ fd d f, get_desc s fd = some d → deref s.file_list d.file = some f →
      ∃ s1, ufs_close s fd = some (0, s1) ∧
        (f.refs = 1 ∧ f.is_deleted = true → deref s1.file_list f.addr = none) ∧
        (¬ (f.refs = 1 ∧ f.is_deleted = true) →
          deref s1.file_list f.addr = some { f with refs := f.refs - 1 }) ∧
        (∀ a, a ≠ f.addr → deref s1.file_list a = deref s.file_list a)) ∧
    (∀ f ∈ s.file_list, ¬ (f.is_deleted = true ∧ f.refs = 0)) := by
  have hwf := hs.wf
  refine ⟨?_, ?_, hwf.nodead⟩
  · intro n f hfind
    obtain ⟨hfm, _, _⟩ := find_file_some hfind
    have hdf := WF_mem_deref hwf hfm
    refine ⟨by simp only [ufs_delete, hfind], ?_, ?_, ?_⟩
    · intro hr
      have he : (ufs_delete s n).2.file_list = unlink s.file_list f.addr := by
        simp only [ufs_delete, hfind, if_pos hr]
      refine ⟨he, ?_⟩
      rw [he, deref_unlink, if_pos rfl]
    · intro hr
      have he : (ufs_delete s n).2.file_list
          = store s.file_list { f with is_deleted := true } := by
        simp only [ufs_delete, hfind, if_neg hr]
      rw [he, deref_store, if_pos rfl, hdf]
      rfl
    · intro a ha
      by_cases hr : f.refs = 0
      · have he : (ufs_delete s n).2.file_list = unlink s.file_list f.addr := by
          simp only [ufs_delete, hfind, if_pos hr]
        rw [he, deref_unlink, if_neg ha]
      · have he : (ufs_delete s n).2.file_list
            = store s.file_list { f with is_deleted := true } := by
          simp only [ufs_delete, hfind, if_neg hr]
        rw [he, deref_store, if_neg ha]
  · intro fd d f hd hf
    obtain ⟨g, hg, he⟩ := ufs_close_spec hwf hd
    rw [hf] at hg
    cases hg
    have hda : d.file = f.addr := (deref_some hf).2.symm
    have hdf : deref s.file_list f.addr = some f := by rw [← hda]; exact hf
    have hiff : (f.refs - 1 = 0 ∧ f.is_deleted = true) ↔ (f.refs = 1 ∧ f.is_deleted = true) := by
      constructor
      · intro h; exact ⟨by omega, h.2⟩
      · intro h; exact ⟨by omega, h.2⟩
    refine ⟨_, he, ?_, ?_, ?_⟩
    · intro hc
      simp only [if_pos (hiff.2 hc)]
      rw [deref_unlink, if_pos rfl]
    · intro hc
      simp only [if_neg (fun x => hc (hiff.1 x))]
      rw [deref_store, if_pos rfl, hdf]
      rfl
    · intro a ha
      by_cases hc : f.refs - 1 = 0 ∧ f.is_deleted = true
      · simp only [if_pos hc]
        rw [deref_unlink, if_neg ha]
      · simp only [if_neg hc]
        rw [deref_store, if_neg ha]

/-- Witness for C11: `demo_two` is reachable, and a close of its descriptor 1,
on a file that is not deleted, keeps the file. -/
theorem destroyed_when_deleted_and_unreferenced_witness :
    (ufs_close demo_two 1).map (fun r => (r.1, r.2.file_list.map file.refs)) = some (0, [1]) ∧
      ∀ f ∈ demo_two.file_list, ¬ (f.is_deleted = true ∧ f.refs = 0) :=
  ⟨by decide!, (destroyed_when_deleted_and_unreferenced demo_two demo_two_reachable).2.2⟩

theorem ufs_delete_fail {s : State} {n : String} (h : find_file s.file_list n = none) :
    ufs_delete s n = (-1, { s with ufs_error_code := UFS_ERR_NO_FILE }) := by
  simp only [ufs_delete, h]

/-- C18: in a reachable state `ufs_delete` returns -1 exactly when no file that
is not deleted has the name, and then it sets `UFS_ERR_NO_FILE` and changes
nothing else; otherwise it returns 0 and afterwards no file of the list that
is not deleted has the name, so that `ufs_open` of the name without
`UFS_CREATE` and a second `ufs_delete` of it fail with `UFS_ERR_NO_FILE`.
Names are unique among the files that are not deleted. -/
theorem ufs_delete_contract (s : State) (hs : Reachable s) (n : String) :
    ((ufs_delete s n).1 = -1 ↔
      ∀ f ∈ s.file_list, ¬ (f.name = n ∧ f.is_deleted = false)) ∧
    ((ufs_delete s n).1 = -1 →
      (ufs_delete s n).2 = { s with ufs_error_code := UFS_ERR_NO_FILE }) ∧
    ((ufs_delete s n).1 ≠ -1 →
      (ufs_delete s n).1 = 0 ∧
      (∀ f ∈ (ufs_delete s n).2.file_list, ¬ (f.name = n ∧ f.is_deleted = false)) ∧
      (∀ flags, flags &&& UFS_CREATE = 0 →
        ufs_open (ufs_delete s n).2 n flags
          = (-1, { (ufs_delete s n).2 with ufs_error_code := UFS_ERR_NO_FILE })) ∧
      ufs_delete (ufs_delete s n).2 n
        = (-1, { (ufs_delete s n).2 with ufs_error_code := UFS_ERR_NO_FILE })) ∧
    (∀ f ∈ s.file_list, ∀ g ∈ s.file_list,
      f.is_deleted = false → g.is_deleted = false → f.name = g.name → f = g) := by
  have hwf := hs.wf
  refine ⟨?_, ?_, ?_, ?_⟩
  · cases hfind : find_file s.file_list n with
    | none =>
      simp only [ufs_delete, hfind, true_iff]
      exact find_file_none.1 hfind
    | some f =>
      obtain ⟨hfm, hfn, hfd⟩ := find_file_some hfind
      simp only [ufs_delete, hfind]
      constructor
      · intro hx; omega
      · intro hx; exact absurd ⟨hfn, hfd⟩ (hx f hfm)
  · cases hfind : find_file s.file_list n with
    | none => intro _; simp only [ufs_delete, hfind]
    | some f =>
      intro hx
      simp only [ufs_delete, hfind] at hx
      omega
  · cases hfind : find_file s.file_list n with
    | none =>
      intro hx
      simp only [ufs_delete, hfind] at hx
      exact absurd rfl hx
    | some f =>
      intro _
      obtain ⟨hfm, hfn, hfd⟩ := find_file_some hfind
      have hnone : ∀ g ∈ (ufs_delete s n).2.file_list,
          ¬ (g.name = n ∧ g.is_deleted = false) := by
        intro g hg hc
        simp only [ufs_delete, hfind] at hg
        by_cases hr : f.refs = 0
        · rw [if_pos hr] at hg
          obtain ⟨h1, h2⟩ := mem_unlink.1 hg
          exact h2 (hwf.names g h1 f hfm hc.2 hfd (hc.1.trans hfn.symm))
        · rw [if_neg hr] at hg
          rcases mem_store hg with h1 | h1
          · rw [h1.1] at hc
            cases hc.2
          · exact h1.2 (hwf.names g h1.1 f hfm hc.2 hfd (hc.1.trans hfn.symm))
      have hf2 := find_file_none.2 hnone
      refine ⟨by simp only [ufs_delete, hfind], hnone, ?_, ?_⟩
      · intro flags hc
        exact ufs_open_fail hf2 hc
      · exact ufs_delete_fail hf2
  · intro f hf g hg hfd hgd hnm
    exact unique_named hwf hg hgd f hf hnm hfd

/-- Witness for C18: in `demo_two` the name `a` finds a file and `b` does not. -/
theorem ufs_delete_contract_witness :
    (ufs_delete demo_two "b").1 = -1 ∧ (ufs_delete demo_two "a").1 = 0 ∧
      ((ufs_delete demo_two "a").1 ≠ -1 →
        (ufs_delete demo_two "a").1 = 0 ∧
        (∀ f ∈ (ufs_delete demo_two "a").2.file_list,
          ¬ (f.name = "a" ∧ f.is_deleted = false)) ∧
        (∀ flags, flags &&& UFS_CREATE = 0 →
          ufs_open (ufs_delete demo_two "a").2 "a" flags
            = (-1, { (ufs_delete demo_two "a").2 with
                     ufs_error_code := UFS_ERR_NO_FILE })) ∧
        ufs_delete (ufs_delete demo_two "a").2 "a"
          = (-1, { (ufs_delete demo_two "a").2 with ufs_error_code := UFS_ERR_NO_FILE })) :=
  ⟨by decide!, by decide!, (ufs_delete_contract demo_two demo_two_reachable "a").2.2.1⟩

theorem refcount_eq_countP (fds : List (Option filedesc)) (a : Nat)
    (h : ∀ d, some d ∈ fds → d.is_open = true) :
    refcount fds a = fds.countP (fun o =>
      match o with
      | some d => d.is_open && decide (d.file = a)
      | none => false) := by
  induction fds with
  | nil => rfl
  | cons x rest ih =>
    have ih1 := ih (fun d hd => h d (List.mem_cons_of_mem _ hd))
    cases x with
    | none =>
      simp only [refcount, List.countP_cons, ih1]
      simp
    | some c =>
      have ho := h c (List.mem_cons_self _ _)
      simp only [refcount, List.countP_cons, ih1, ho, Bool.true_and]
      by_cases hc : c.file = a
      · simp [hc]; omega
      · simp [hc]

/-- C20: in a reachable state the reference count of every file is the number
of open descriptors in the array that point to it, every open descriptor
points to a file that is in the list, and its position is at most the size of
that file. -/
theorem refs_count_open_descriptors (s : State) (hs : Reachable s) :
    (∀ f ∈ s.file_list, f.refs = (open_count s f.addr : Int)) ∧
    (∀ fd d, get_desc s fd = some d →
      ∃ f, f ∈ s.file_list ∧ deref s.file_list d.file = some f ∧ f.addr = d.file ∧
        d.pos ≤ f.size) ∧
    (∀ d, some d ∈ s.file_descriptors → d.is_open = true) := by
  have hwf := hs.wf
  refine ⟨?_, ?_, fun d hd => (hwf.descs d hd).1⟩
  · intro f hf
    rw [hwf.refs f hf, open_count,
      refcount_eq_countP _ _ (fun d hd => (hwf.descs d hd).1)]
  · intro fd d hd
    obtain ⟨_, f, hf, hp⟩ := hwf.descs d (get_desc_mem hd)
    exact ⟨f, (deref_some hf).1, hf, (deref_some hf).2, hp⟩

/-- Witness for C20: in `demo_two` the file `a` has two references and two
open descriptors. -/
theorem refs_count_open_descriptors_witness :
    demo_file ∈ demo_two.file_list ∧ demo_file.refs = 2 ∧ open_count demo_two 0 = 2 ∧
      ∀ f ∈ demo_two.file_list, f.refs = (open_count demo_two f.addr : Int) :=
  ⟨by decide!, by decide!, by decide!,
    (refs_count_open_descriptors demo_two demo_two_reachable).1⟩

/-! ## Descriptors without a file, and the teardown -/

theorem fails_of_no_desc {s : State} {fd : Int} (h : get_desc s fd = none) :
    fails_no_file s fd := by
  refine ⟨fun size => ?_, fun buf => ?_, ?_⟩
  · simp only [ufs_read, h]
  · simp only [ufs_write, h]
  · simp only [ufs_close, h]

/-- A descriptor number that is negative, not below the count, or of a
`NULL` slot, passes no descriptor check. -/
theorem get_desc_invalid {s : State} {fd : Int}
    (h : fd < 0 ∨ fd ≥ (s.file_descriptors.length : Int) ∨
      s.file_descriptors[fd.toNat]? = some none) : get_desc s fd = none := by
  cases hd : get_desc s fd with
  | none => rfl
  | some d =>
    obtain ⟨h0, hlt, hget, _⟩ := get_desc_some hd
    rcases h with e | e | e
    · omega
    · omega
    · rw [hget] at e
      cases e

/-- A read at or past the end of the file returns 0 bytes, in any state. -/
theorem ufs_read_at_end {s : State} {fd : Int} {d : filedesc} {f : file}
    (hd : get_desc s fd = some d) (hf : deref s.file_list d.file = some f)
    (hp : f.size ≤ d.pos) (size : Nat) :
    ufs_read s fd size
      = some (0, [],
          { s with
            file_descriptors := s.file_descriptors.set fd.toNat (some d) }) := by
  have hc : ¬ (([] : List Byte).length < size ∧ d.pos < f.size) := by omega
  have hl : read_loop f size size d.pos [] = some (d.pos, []) := by
    rw [read_loop.eq_def, if_neg hc]
  simp only [ufs_read, hd, hf, hl]
  rfl

/-- C16: after `ufs_destroy`, from any state, the file list and the descriptor
array are those of the initial state. Then `ufs_open` of a name with
`UFS_CREATE` returns descriptor 0, on a new empty file through which a read
returns 0 bytes; `ufs_open` of any name without `UFS_CREATE` fails with
`UFS_ERR_NO_FILE`; and through every descriptor number reads, writes and
closes fail with `UFS_ERR_NO_FILE`. -/
theorem ufs_destroy_resets (s : State) (n : String) :
    ufs_destroy s
      = { init with ufs_error_code := s.ufs_error_code, next_addr := s.next_addr } ∧
    (ufs_destroy s).file_list = init.file_list ∧
    (ufs_destroy s).file_descriptors = init.file_descriptors ∧
    (∀ flags, flags &&& UFS_CREATE ≠ 0 →
      (ufs_open (ufs_destroy s) n flags).1 = 0 ∧
      get_desc (ufs_open (ufs_destroy s) n flags).2 0
        = some { file := s.next_addr, pos := 0, is_open := true } ∧
      (ufs_open (ufs_destroy s) n flags).2.file_list
        = [{ addr := s.next_addr, block_list := [], refs := 1, name := n,
             is_deleted := false, size := 0 }] ∧
      ∀ size, ∃ t, ufs_read (ufs_open (ufs_destroy s) n flags).2 0 size = some (0, [], t)) ∧
    (∀ flags, flags &&& UFS_CREATE = 0 →
      ufs_open (ufs_destroy s) n flags
        = (-1, { ufs_destroy s with ufs_error_code := UFS_ERR_NO_FILE })) ∧
    (∀ fd, get_desc (ufs_destroy s) fd = none ∧ fails_no_file (ufs_destroy s) fd) := by
  have hfind : find_file (ufs_destroy s).file_list n = none := rfl
  have hnd : ∀ fd, get_desc (ufs_destroy s) fd = none := by
    intro fd
    apply get_desc_invalid
    simp only [ufs_destroy, List.length_nil]
    omega
  refine ⟨rfl, rfl, rfl, ?_, fun flags hc => ufs_open_fail hfind hc,
    fun fd => ⟨hnd fd, fails_of_no_desc (hnd fd)⟩⟩
  intro flags hc
  have hop := ufs_open_create hfind hc
  have hst : (ufs_open (ufs_destroy s) n flags).2
      = { ufs_error_code := s.ufs_error_code,
          file_list := [{ addr := s.next_addr, block_list := [], refs := 1, name := n,
                          is_deleted := false, size := 0 }],
          file_descriptors := [some { file := s.next_addr, pos := 0, is_open := true }],
          file_descriptor_capacity := 1,
          next_addr := s.next_addr + 1 } := by
    rw [hop]
    simp [attach, create_file, ufs_destroy, store, State.file_descriptor_count]
  have hd : get_desc (ufs_open (ufs_destroy s) n flags).2 0
      = some { file := s.next_addr, pos := 0, is_open := true } := by
    rw [hst]
    exact get_desc_of (i := 0) rfl rfl
  refine ⟨by rw [hop]; rfl, hd, by rw [hst], ?_⟩
  intro size
  have hf : deref (ufs_open (ufs_destroy s) n flags).2.file_list s.next_addr
      = some { addr := s.next_addr, block_list := [], refs := 1, name := n,
               is_deleted := false, size := 0 } := by
    rw [hst]
    simp only [deref, if_true]
  exact ⟨_, ufs_read_at_end hd hf (Nat.le_refl _) size⟩

theorem ufs_delete_descriptors (s : State) (n : String) :
    (ufs_delete s n).2.file_descriptors = s.file_descriptors := by
  simp only [ufs_delete]
  cases find_file s.file_list n <;> rfl

theorem getElem?_lt_of_some {α : Type} {l : List α} {i : Nat} {x : α}
    (h : l[i]? = some x) : i < l.length := by
  rcases Nat.lt_or_ge i l.length with e | e
  · exact e
  · rw [List.getElem?_eq_none e] at h; cases h

/-- One call on a state that satisfies the invariant returns, keeps the
invariant, and keeps every `NULL` slot of the descriptor array. -/
theorem run_call_keeps_closed {s : State} (h : WF s) (c : fs_call) (hc : call_ok c) :
    ∃ t, run_call s c = some t ∧ WF t ∧
      ∀ i : Nat, s.file_descriptors[i]? = some none → t.file_descriptors[i]? = some none := by
  have hset : ∀ (fd : Int) (d : filedesc) (o : Option filedesc), get_desc s fd = some d →
      ∀ i : Nat, s.file_descriptors[i]? = some none →
        (s.file_descriptors.set fd.toNat o)[i]? = some none := by
    intro fd d o hd i hi
    have hne : fd.toNat ≠ i := by
      intro e
      rw [← e, (get_desc_some hd).2.2.1] at hi
      cases hi
    rw [List.getElem?_set_ne hne]
    exact hi
  cases c with
  | call_open n flags =>
    refine ⟨_, rfl, WF_ufs_open h n flags, ?_⟩
    intro i hi
    have hlt := getElem?_lt_of_some hi
    cases hfind : find_file s.file_list n with
    | some f =>
      rw [ufs_open_found hfind]
      simp only [attach]
      rw [List.getElem?_append_left hlt]
      exact hi
    | none =>
      by_cases hcr : flags &&& UFS_CREATE = 0
      · rw [ufs_open_fail hfind hcr]
        exact hi
      · rw [ufs_open_create hfind hcr]
        simp only [attach, create_file]
        rw [List.getElem?_append_left hlt]
        exact hi
  | call_write fd buf =>
    have hn : buf.length ≤ SSIZE_MAX := hc
    cases hd : get_desc s fd with
    | none =>
      refine ⟨{ s with ufs_error_code := UFS_ERR_NO_FILE }, ?_, WF_err h _, fun i hi => hi⟩
      simp only [run_call, ufs_write, hd, Option.map_some']
    | some d =>
      obtain ⟨f, _, _, _, hcase⟩ := ufs_write_spec h hd buf hn
      rcases hcase with ⟨_, he⟩ | ⟨_, f1, he, _⟩
      · refine ⟨{ s with ufs_error_code := UFS_ERR_NO_MEM }, ?_, WF_err h _, fun i hi => hi⟩
        simp only [run_call, he, Option.map_some']
      · refine ⟨_, by simp only [run_call, he, Option.map_some'],
          WF_ufs_write h fd buf hn _ he, hset fd d _ hd⟩
  | call_read fd size =>
    cases hd : get_desc s fd with
    | none =>
      refine ⟨{ s with ufs_error_code := UFS_ERR_NO_FILE }, ?_, WF_err h _, fun i hi => hi⟩
      simp only [run_call, ufs_read, hd, Option.map_some']
    | some d =>
      obtain ⟨f, _, _, he⟩ := ufs_read_spec h hd size
      refine ⟨_, by simp only [run_call, he, Option.map_some'],
        WF_ufs_read h fd size _ he, hset fd d _ hd⟩
  | call_close fd =>
    cases hd : get_desc s fd with
    | none =>
      refine ⟨{ s with ufs_error_code := UFS_ERR_NO_FILE }, ?_, WF_err h _, fun i hi => hi⟩
      simp only [run_call, ufs_close, hd, Option.map_some']
    | some d =>
      obtain ⟨f, _, he⟩ := ufs_close_spec h hd
      refine ⟨_, by simp only [run_call, he, Option.map_some'],
        WF_ufs_close h fd _ he, hset fd d _ hd⟩
  | call_delete n =>
    refine ⟨_, rfl, WF_ufs_delete h n, ?_⟩
    intro i hi
    rw [ufs_delete_descriptors]
    exact hi

theorem run_calls_keeps_closed :
    ∀ (cs : List fs_call) (s : State), WF s → (∀ c ∈ cs, call_ok c) →
      ∃ t, run_calls cs s = some t ∧ WF t ∧
        ∀ i : Nat, s.file_descriptors[i]? = some none →
          t.file_descriptors[i]? = some none := by
  intro cs
  induction cs with
  | nil => intro s h _; exact ⟨s, rfl, h, fun i hi => hi⟩
  | cons c rest ih =>
    intro s h hok
    obtain ⟨t, he, hwf, hk⟩ :=
      run_call_keeps_closed h c (hok c (List.mem_cons_self _ _))
    obtain ⟨u, he2, hwf2, hk2⟩ := ih t hwf (fun x hx => hok x (List.mem_cons_of_mem _ hx))
    refine ⟨u, ?_, hwf2, fun i hi => hk2 i (hk i hi)⟩
    simp only [run_calls, he, he2]

/-- C19: in any state, for a descriptor number that is negative, not below the
number of slots, or of a `NULL` slot, `ufs_read`, `ufs_write` and `ufs_close`
return -1, set `UFS_ERR_NO_FILE` and change neither files nor descriptors. In
a reachable state a close of an open descriptor returns 0 and leaves its slot
`NULL`, so a second close, a read and a write through the number fail in this
way, and they still do after any run of further calls of `ufs_open`,
`ufs_write`, `ufs_read`, `ufs_close` and `ufs_delete`. -/
theorem invalid_descriptor_no_file (s : State) (fd : Int) :
    ((fd < 0 ∨ fd ≥ (s.file_descriptors.length : Int) ∨
        s.file_descriptors[fd.toNat]? = some none) → fails_no_file s fd) ∧
    (Reachable s → ∀ d, get_desc s fd = some d →
      ∃ s1, ufs_close s fd = some (0, s1) ∧
        s1.file_descriptors[fd.toNat]? = some none ∧ fails_no_file s1 fd ∧
        ∀ cs : List fs_call, (∀ c ∈ cs, call_ok c) →
          ∃ t, run_calls cs s1 = some t ∧
            t.file_descriptors[fd.toNat]? = some none ∧ fails_no_file t fd) := by
  refine ⟨fun hinv => fails_of_no_desc (get_desc_invalid hinv), ?_⟩
  intro hs d hd
  have hwf := hs.wf
  obtain ⟨f, _, he⟩ := ufs_close_spec hwf hd
  have hwf1 := WF_ufs_close hwf fd _ he
  have hslot : (s.file_descriptors.set fd.toNat none)[fd.toNat]? = some none :=
    List.getElem?_set_self (get_desc_some hd).2.1
  refine ⟨_, he, hslot, fails_of_no_desc (get_desc_invalid (Or.inr (Or.inr hslot))), ?_⟩
  intro cs hok
  obtain ⟨t, hrun, _, hk⟩ := run_calls_keeps_closed cs _ hwf1 hok
  have ht := hk fd.toNat hslot
  exact ⟨t, hrun, ht, fails_of_no_desc (get_desc_invalid (Or.inr (Or.inr ht)))⟩

/-- Witness for C19: descriptor 7 of `demo_two` is out of range, and its
descriptor 1 is open; after its close the number stays without a file. -/
theorem invalid_descriptor_no_file_witness :
    (7 : Int) ≥ (demo_two.file_descriptors.length : Int) ∧ fails_no_file demo_two 7 ∧
      get_desc demo_two 1 = some { file := 0, pos := 0, is_open := true } ∧
      ∃ s1, ufs_close demo_two 1 = some (0, s1) ∧
        s1.file_descriptors[(1 : Int).toNat]? = some none ∧ fails_no_file s1 1 ∧
        ∀ cs : List fs_call, (∀ c ∈ cs, call_ok c) →
          ∃ t, run_calls cs s1 = some t ∧
            t.file_descriptors[(1 : Int).toNat]? = some none ∧ fails_no_file t 1 :=
  ⟨by decide!,
    (invalid_descriptor_no_file demo_two 7).1 (Or.inr (Or.inl (by decide!))),
    by decide!,
    (invalid_descriptor_no_file demo_two 1).2 demo_two_reachable
      { file := 0, pos := 0, is_open := true } (by decide!)⟩

/-! ## The size limit -/

/-- On a fitted file, with room for the rest of the request below the maximum
size, every file that the write loop hands to `append_block` is below the
maximum size. -/
theorem write_loop_appends_below (buf : List Byte) (size : Nat) :
    ∀ (fuel : Nat) (f : file) (pos written : Nat) (err : ufs_error_code),
      file_ok f → pos ≤ f.size → written ≤ size → size ≤ buf.length →
      pos + (size - written) ≤ MAX_FILE_SIZE →
      ∀ g ∈ write_loop_appends buf size fuel f pos written err,
        g.size < MAX_FILE_SIZE := by
  intro fuel
  induction fuel with
  | zero =>
    intro f pos written err _ _ _ _ _ g hg
    rw [write_loop_appends] at hg
    split at hg <;> cases hg
  | succ fuel ih =>
    intro f pos written err hok hpos hws hsz hmax g hg
    rw [write_loop_appends] at hg
    by_cases hw : written < size
    · rw [if_pos hw] at hg
      obtain ⟨f2, k, heq, hk0, hk1, hok2, hsz2, _⟩ :=
        write_iter_spec buf size f pos written err hok hpos hw hsz hmax
      simp only [heq, List.mem_append] at hg
      rcases hg with h1 | h1
      · by_cases hlt : pos / BLOCK_SIZE < f.block_list.length
        · rw [if_pos hlt] at h1; cases h1
        · rw [if_neg hlt] at h1
          simp only [List.mem_singleton] at h1
          subst h1
          obtain ⟨_, hlen, _⟩ := hok
          simp only [BLOCK_SIZE, MAX_FILE_SIZE] at *
          omega
      · exact ih f2 (pos + k) (written + k) err hok2 (by rw [hsz2]; omega) (by omega) hsz
          (by omega) g h1
    · rw [if_neg hw] at hg
      cases hg

/-- C12: in a reachable state every file has a size of at most
`MAX_FILE_SIZE`; and every call of `ufs_write` hands to `append_block` only
files whose size is below the maximum, so that `append_block` never refuses,
every iteration of the write loop has a block to write into and the call
returns, in a state where again every file has a size of at most
`MAX_FILE_SIZE`. -/
theorem size_bounded_and_append_has_room (s : State) (hs : Reachable s) :
    (∀ f ∈ s.file_list, f.size ≤ MAX_FILE_SIZE) ∧
    (∀ fd buf, buf.length ≤ SSIZE_MAX →
      (∀ g ∈ ufs_write_appends s fd buf, g.size < MAX_FILE_SIZE) ∧
      ∃ r, ufs_write s fd buf = some r ∧ ∀ f ∈ r.2.file_list, f.size ≤ MAX_FILE_SIZE) := by
  have hwf := hs.wf
  refine ⟨fun f hf => (hwf.files f hf).1, ?_⟩
  intro fd buf hn
  constructor
  · intro g hg
    cases hd : get_desc s fd with
    | none =>
      simp only [ufs_write_appends, hd] at hg
      cases hg
    | some d =>
      obtain ⟨_, f, hf, hp⟩ := hwf.descs d (get_desc_mem hd)
      have hok := hwf.files f (deref_some hf).1
      have hfs : f.size ≤ MAX_FILE_SIZE := hok.1
      have hm1 : (d.pos + buf.length) % SIZE_MOD = d.pos + buf.length := by
        simp only [SIZE_MOD, MAX_FILE_SIZE, SSIZE_MAX] at *; omega
      have hm2 : (f.size + (d.pos + buf.length + SIZE_MOD - f.size) % SIZE_MOD) % SIZE_MOD
          = d.pos + buf.length := by
        simp only [SIZE_MOD, MAX_FILE_SIZE, SSIZE_MAX] at *; omega
      have hm3 : (MAX_FILE_SIZE + SIZE_MOD - d.pos) % SIZE_MOD = MAX_FILE_SIZE - d.pos := by
        simp only [SIZE_MOD, MAX_FILE_SIZE, SSIZE_MAX] at *; omega
      by_cases hfull : f.size ≥ MAX_FILE_SIZE ∧ d.pos + buf.length > f.size
      · simp only [ufs_write_appends, hd, hf, hm1, if_pos hfull] at hg
        cases hg
      · obtain ⟨m, hm⟩ : ∃ m, m = min buf.length (MAX_FILE_SIZE - d.pos) := ⟨_, rfl⟩
        have hsz1 : (if d.pos + buf.length > f.size ∧ d.pos + buf.length > MAX_FILE_SIZE
            then MAX_FILE_SIZE - d.pos else buf.length) = m := by
          split <;> omega
        have hg2 : ¬ ((d.pos + buf.length > f.size ∧ d.pos + buf.length > MAX_FILE_SIZE)
            ∧ m = 0) := by omega
        have hg3 : ¬ m > buf.length := by omega
        simp only [ufs_write_appends, hd, hf, hm1, hm2, hm3, if_neg hfull, hsz1, if_neg hg2,
          if_neg hg3] at hg
        exact write_loop_appends_below buf m m f d.pos 0 s.ufs_error_code hok hp
          (Nat.zero_le _) (by omega) (by omega) g hg
  · obtain ⟨r, hr, _⟩ := ufs_write_total hwf fd buf hn
    have hwf1 := WF_ufs_write hwf fd buf hn r hr
    exact ⟨r, hr, fun f hf => (hwf1.files f hf).1⟩

/-- Witness for C12: in `demo_open` a write of three bytes to the empty file
hands the file to `append_block` once, at size 0. -/
theorem size_bounded_and_append_has_room_witness :
    (ufs_write_appends demo_open 0 [1, 2, 3]).map file.size = [0] ∧
      (∀ f ∈ demo_open.file_list, f.size ≤ MAX_FILE_SIZE) ∧
      (∀ g ∈ ufs_write_appends demo_open 0 [1, 2, 3], g.size < MAX_FILE_SIZE) :=
  ⟨by decide!, (size_bounded_and_append_has_room demo_open demo_open_reachable).1,
    ((size_bounded_and_append_has_room demo_open demo_open_reachable).2 0 [1, 2, 3]
      (by decide)).1⟩
end UserFS

namespace CoroBus

open coro_bus_error_code

/-! ## Handles -/

theorem get_channel_some {b : coro_bus} {h : Int} {ch : coro_bus_channel}
    (hg : get_channel b h = some ch) :
    0 ≤ h ∧ h.toNat < b.channels.length ∧ b.channels[h.toNat]? = some (some ch) := by
  simp only [get_channel, coro_bus.channel_count] at hg
  by_cases hr : h < 0 ∨ h ≥ (b.channels.length : Int)
  · rw [if_pos hr] at hg; cases hg
  · rw [if_neg hr] at hg
    have h1 : h.toNat < b.channels.length := by omega
    refine ⟨by omega, h1, ?_⟩
    rw [List.getD_eq_getElem?_getD, List.getElem?_eq_getElem h1] at hg
    rw [List.getElem?_eq_getElem h1]
    simp only [Option.getD_some] at hg
    rw [hg]

theorem get_channel_of {b : coro_bus} {h : Int} {o : Option coro_bus_channel}
    (h0 : 0 ≤ h) (hg : b.channels[h.toNat]? = some o) : get_channel b h = o := by
  have h1 : h.toNat < b.channels.length := by
    rcases Nat.lt_or_ge h.toNat b.channels.length with e | e
    · exact e
    · rw [List.getElem?_eq_none e] at hg; cases hg
  simp only [get_channel, coro_bus.channel_count]
  rw [if_neg (by omega), List.getD_eq_getElem?_getD, hg]
  rfl

/-- A handle that is negative, not below the channel count, or of a closed
slot, has no channel behind it. -/
theorem get_channel_invalid {b : coro_bus} {h : Int}
    (hinv : h < 0 ∨ h ≥ (b.channels.length : Int) ∨ b.channels[h.toNat]? = some none) :
    get_channel b h = none := by
  by_cases hr : h < 0 ∨ h ≥ (b.channels.length : Int)
  · simp only [get_channel, coro_bus.channel_count, if_pos hr]
  · rcases hinv with e | e | e
    · exact absurd (Or.inl e) hr
    · exact absurd (Or.inr e) hr
    · exact get_channel_of (by omega) e

theorem get_channel_set_self {b : coro_bus} {h : Int} {ch : coro_bus_channel}
    (hg : get_channel b h = some ch) (o : Option coro_bus_channel) :
    get_channel { b with channels := b.channels.set h.toNat o } h = o := by
  obtain ⟨h0, h1, _⟩ := get_channel_some hg
  refine get_channel_of h0 ?_
  simp only
  rw [List.getElem?_set_self h1]

/-! ## Sends up to the capacity -/

/-- On a channel that is full `coro_bus_try_send` fails with
`CORO_BUS_ERR_WOULD_BLOCK` and changes neither the bus nor the wakeups. -/
theorem try_send_full {w : World} {b : coro_bus} {h : Int} {ch : coro_bus_channel}
    (hg : get_channel b h = some ch) (hfull : ch.data.size ≥ ch.size_limit) (v : Nat) :
    coro_bus_try_send w (some b) h v
      = (-1, coro_bus_errno_set w CORO_BUS_ERR_WOULD_BLOCK, some b) := by
  simp only [coro_bus_try_send, hg, if_pos hfull]

/-- On a channel with room `coro_bus_try_send` appends the message, wakes the
first receiver in the queue and succeeds. -/
theorem try_send_room {w : World} {b : coro_bus} {h : Int} {ch : coro_bus_channel}
    (hg : get_channel b h = some ch) (hroom : ch.data.size < ch.size_limit) (v : Nat) :
    coro_bus_try_send w (some b) h v
      = (0, coro_bus_errno_set (wakeup_queue_wakeup_first w ch.recv_queue) CORO_BUS_ERR_NONE,
          some { b with
            channels := b.channels.set h.toNat
              (some { ch with data := data_vector_append ch.data v }) }) := by
  have : ¬ ch.data.size ≥ ch.size_limit := by omega
  simp only [coro_bus_try_send, hg, if_neg this]

theorem try_send_all_room (h : Int) :
    ∀ (vs : List Nat) (w : World) (b : coro_bus) (ch : coro_bus_channel),
      get_channel b h = some ch → ch.data.size + vs.length ≤ ch.size_limit →
      ∃ w1 b1 ch1,
        try_send_all h vs w (some b)
          = (List.replicate vs.length (0, CORO_BUS_ERR_NONE), w1, some b1) ∧
        get_channel b1 h = some ch1 ∧ ch1.size_limit = ch.size_limit ∧
        ch1.data.data = ch.data.data ++ vs ∧ ch1.send_queue = ch.send_queue ∧
        ch1.recv_queue = ch.recv_queue ∧ b1.channels.length = b.channels.length := by
  intro vs
  induction vs with
  | nil =>
    intro w b ch hg _
    exact ⟨w, b, ch, rfl, hg, rfl, by simp, rfl, rfl, rfl⟩
  | cons v rest ih =>
    intro w b ch hg hroom
    simp only [List.length_cons] at hroom
    have hs := try_send_room (w := w) hg (by omega) v
    have hg1 := get_channel_set_self hg
      (some { ch with data := data_vector_append ch.data v })
    have hsz : (data_vector_append ch.data v).size = ch.data.size + 1 := by
      simp [data_vector_append, data_vector_append_many, data_vector.size]
    obtain ⟨w1, b1, ch1, he, hg2, hl, hd, hsq, hrq, hlen⟩ :=
      ih (coro_bus_errno_set (wakeup_queue_wakeup_first w ch.recv_queue) CORO_BUS_ERR_NONE)
        _ _ hg1 (by simp only [hsz]; omega)
    refine ⟨w1, b1, ch1, ?_, hg2, hl, ?_, hsq, hrq, ?_⟩
    · simp only [try_send_all, hs, he, List.length_cons, List.replicate_succ]
      rfl
    · rw [hd]
      simp [data_vector_append, data_vector_append_many]
    · rw [hlen]
      simp only [List.length_set]

/-- C2: on any bus, for every sequence of values `vs`, the calls of
`coro_bus_try_send` with these values on a channel just opened with capacity
`vs.length` all return 0 with `CORO_BUS_ERR_NONE`, and the channel then holds
`vs`; the next call returns -1 with `CORO_BUS_ERR_WOULD_BLOCK` and leaves the
bus, with the message queue, the capacity and the waiter queues of the channel,
and the wakeups as they were. -/
theorem try_send_up_to_capacity (w : World) (b : coro_bus) (vs : List Nat) (v : Nat) :
    ∃ w1 b1 ch1,
      try_send_all (coro_bus_channel_open w (some b) vs.length).1 vs
          (coro_bus_channel_open w (some b) vs.length).2.1
          (coro_bus_channel_open w (some b) vs.length).2.2
        = (List.replicate vs.length (0, CORO_BUS_ERR_NONE), w1, some b1) ∧
      get_channel b1 (coro_bus_channel_open w (some b) vs.length).1 = some ch1 ∧
      ch1.size_limit = vs.length ∧ ch1.data.data = vs ∧
      ch1.send_queue = [] ∧ ch1.recv_queue = [] ∧
      coro_bus_try_send w1 (some b1) (coro_bus_channel_open w (some b) vs.length).1 v
        = (-1, { w1 with global_error := CORO_BUS_ERR_WOULD_BLOCK }, some b1) := by
  have hopen : get_channel { b with channels := b.channels ++ [some
      { size_limit := vs.length, send_queue := [], recv_queue := [],
        data := { data := [], capacity := 0 } }] } (b.channels.length : Int)
      = some { size_limit := vs.length, send_queue := [], recv_queue := [],
               data := { data := [], capacity := 0 } } := by
    refine get_channel_of (Int.ofNat_nonneg _) ?_
    simp only [Int.toNat_ofNat]
    rw [List.getElem?_append_right (Nat.le_refl _), Nat.sub_self]
    rfl
  obtain ⟨w1, b1, ch1, he, hg, hl, hd, hsq, hrq, _⟩ :=
    try_send_all_room (b.channels.length : Int) vs
      (coro_bus_errno_set w CORO_BUS_ERR_NONE) _ _ hopen
      (by simp [data_vector.size])
  refine ⟨w1, b1, ch1, he, hg, hl, by simpa using hd, hsq, hrq, ?_⟩
  exact try_send_full hg (by simp only [data_vector.size, hd, hl]; simp) v

/-! ## First in, first out -/

/-- On an empty channel `coro_bus_try_recv` fails with
`CORO_BUS_ERR_WOULD_BLOCK` and changes neither the bus nor the wakeups. -/
theorem try_recv_empty {w : World} {b : coro_bus} {h : Int} {ch : coro_bus_channel}
    (hg : get_channel b h = some ch) (hempty : ch.data.data = []) :
    coro_bus_try_recv w (some b) h
      = some (-1, none, coro_bus_errno_set w CORO_BUS_ERR_WOULD_BLOCK, some b) := by
  have : ch.data.size = 0 := by simp [data_vector.size, hempty]
  simp only [coro_bus_try_recv, hg, if_pos this]

theorem try_recv_head {w : World} {b : coro_bus} {h : Int} {ch : coro_bus_channel}
    (hg : get_channel b h = some ch) (x : Nat) (rest : List Nat)
    (hdata : ch.data.data = x :: rest) :
    coro_bus_try_recv w (some b) h
      = some (0, some x,
          coro_bus_errno_set (wakeup_queue_wakeup_first w ch.send_queue) CORO_BUS_ERR_NONE,
          some { b with
            channels := b.channels.set h.toNat
              (some { ch with data := { ch.data with data := rest } }) }) := by
  have h0 : ¬ ch.data.size = 0 := by simp [data_vector.size, hdata]
  have h1 : 1 ≤ ch.data.size := by simp [data_vector.size, hdata]
  simp only [coro_bus_try_recv, hg, if_neg h0, data_vector_pop_first,
    data_vector_pop_first_many, if_pos h1, hdata]
  rfl

theorem queued_some {b : coro_bus} {h : Int} {ch : coro_bus_channel}
    (hg : get_channel b h = some ch) : queued (some b) h = ch.data.data := by
  simp only [queued, hg]

/-- A run of non-blocking calls on an open channel ends, the channel stays
open, and the messages received followed by the messages still queued are the
messages queued at the start followed by the messages sent. -/
theorem run_try_fifo (h : Int) (init : List Nat) :
    ∀ (ops : List try_op) (t : trace),
      (∃ b ch, t.bus = some b ∧ get_channel b h = some ch) →
      t.received ++ queued t.bus h = init ++ t.sent →
      ∃ t1, run_try h ops t = some t1 ∧
        (∃ b ch, t1.bus = some b ∧ get_channel b h = some ch) ∧
        t1.received ++ queued t1.bus h = init ++ t1.sent := by
  intro ops
  induction ops with
  | nil =>
    intro t hopen hinv
    exact ⟨t, rfl, hopen, hinv⟩
  | cons op rest ih =>
    intro t hopen hinv
    obtain ⟨sent, received, world, bus⟩ := t
    obtain ⟨b, ch, hb, hg⟩ := hopen
    simp only at hb
    subst hb
    have hq := queued_some hg
    simp only [hq] at hinv
    cases op with
    | send v =>
      by_cases hroom : ch.data.size < ch.size_limit
      · have hs := try_send_room (w := world) hg hroom v
        have hg1 := get_channel_set_self hg
          (some { ch with data := data_vector_append ch.data v })
        simp only [run_try, hs, if_true]
        refine ih _ ⟨_, _, rfl, hg1⟩ ?_
        simp only [queued_some hg1]
        simp only [data_vector_append, data_vector_append_many]
        rw [← List.append_assoc, hinv, List.append_assoc]
      · have hs := try_send_full (w := world) hg (by omega) v
        simp only [run_try, hs]
        refine ih _ ⟨_, _, rfl, hg⟩ ?_
        simp only [hq]
        rw [if_neg (by decide)]
        exact hinv
    | recv =>
      cases hdata : ch.data.data with
      | nil =>
        have hr := try_recv_empty (w := world) hg hdata
        simp only [run_try, hr]
        refine ih _ ⟨_, _, rfl, hg⟩ ?_
        simp only [hq]
        exact hinv
      | cons x xs =>
        have hr := try_recv_head (w := world) hg x xs hdata
        have hg1 := get_channel_set_self hg
          (some { ch with data := { ch.data with data := xs } })
        simp only [run_try, hr, if_true]
        refine ih _ ⟨_, _, rfl, hg1⟩ ?_
        simp only [queued_some hg1]
        rw [List.append_assoc, List.singleton_append, ← hdata]
        exact hinv

/-- C3: for every run of `coro_bus_try_send` and `coro_bus_try_recv` calls on
one open channel the run ends, and the values received followed by the values
still queued are the values queued at the start followed by the values sent;
so on a channel that starts empty the values received are a beginning of the
values sent, the `k`-th received being the `k`-th sent. On an empty channel
`coro_bus_try_recv` returns -1 with `CORO_BUS_ERR_WOULD_BLOCK`, stores no
message and leaves the bus and the wakeups as they were. -/
theorem try_recv_fifo (w : World) (b : coro_bus) (h : Int) (ch : coro_bus_channel)
    (ops : List try_op) (hg : get_channel b h = some ch) :
    (∃ t, run_try h ops { sent := [], received := [], world := w, bus := some b } = some t ∧
      t.received ++ queued t.bus h = ch.data.data ++ t.sent ∧
      (ch.data.data = [] →
        t.received <+: t.sent ∧
        ∀ k, k < t.received.length → t.received[k]? = t.sent[k]?)) ∧
    (ch.data.data = [] →
      coro_bus_try_recv w (some b) h
        = some (-1, none, { w with global_error := CORO_BUS_ERR_WOULD_BLOCK }, some b)) := by
  refine ⟨?_, fun he => try_recv_empty hg he⟩
  obtain ⟨t, hrun, _, hinv⟩ := run_try_fifo h ch.data.data ops
    { sent := [], received := [], world := w, bus := some b } ⟨b, ch, rfl, hg⟩
    (by simp [queued, hg])
  refine ⟨t, hrun, hinv, ?_⟩
  intro he
  rw [he, List.nil_append] at hinv
  have hp : t.received <+: t.sent := ⟨_, hinv⟩
  refine ⟨hp, ?_⟩
  intro k hk
  rw [← hinv, List.getElem?_append_left hk]

/-- Witness for C3: on a new channel of capacity 2 the sends of 5, 6 and 7
followed by three receives send 5 and 6 and receive 5 and 6. -/
theorem try_recv_fifo_witness :
    get_channel demo_bus 0 = some demo_channel ∧
      (run_try 0 [try_op.send 5, try_op.send 6, try_op.send 7, try_op.recv, try_op.recv,
          try_op.recv]
        { sent := [], received := [], world := demo_world, bus := some demo_bus }).map
          (fun t => (t.sent, t.received)) = some ([5, 6], [5, 6]) ∧
      ∃ t, run_try 0 [try_op.send 5, try_op.send 6, try_op.send 7, try_op.recv, try_op.recv,
          try_op.recv]
          { sent := [], received := [], world := demo_world, bus := some demo_bus } = some t ∧
        t.received ++ queued t.bus 0 = demo_channel.data.data ++ t.sent ∧
        (demo_channel.data.data = [] →
          t.received <+: t.sent ∧
          ∀ k, k < t.received.length → t.received[k]? = t.sent[k]?) :=
  ⟨by decide!, by decide!,
    (try_recv_fifo demo_world demo_bus 0 demo_channel
      [try_op.send 5, try_op.send 6, try_op.send 7, try_op.recv, try_op.recv, try_op.recv]
      (by decide!)).1⟩

/-! ## Handles without a channel -/

theorem try_send_invalid {w : World} {b : coro_bus} {h : Int}
    (hg : get_channel b h = none) (v : Nat) :
    coro_bus_try_send w (some b) h v
      = (-1, coro_bus_errno_set w CORO_BUS_ERR_NO_CHANNEL, some b) := by
  simp only [coro_bus_try_send, hg]

theorem try_recv_invalid {w : World} {b : coro_bus} {h : Int}
    (hg : get_channel b h = none) :
    coro_bus_try_recv w (some b) h
      = some (-1, none, coro_bus_errno_set w CORO_BUS_ERR_NO_CHANNEL, some b) := by
  simp only [coro_bus_try_recv, hg]

/-- One call on a bus returns or suspends with the bus still there, and every
slot that was closed is still closed. -/
theorem run_op_keeps_closed (w : World) (b : coro_bus) (op : bus_op) :
    ∃ w1 b1, run_op w (some b) op = some (w1, some b1) ∧
      ∀ i : Nat, b.channels[i]? = some none → b1.channels[i]? = some none := by
  have hset : ∀ (h : Int) (ch ch1 : coro_bus_channel), get_channel b h = some ch →
      ∀ i : Nat, b.channels[i]? = some none →
        (b.channels.set h.toNat (some ch1))[i]? = some none := by
    intro h ch ch1 hg i hi
    have hne : h.toNat ≠ i := by
      intro e
      rw [← e, (get_channel_some hg).2.2] at hi
      cases hi
    rw [List.getElem?_set_ne hne]
    exact hi
  cases op with
  | channel_open size_limit =>
    refine ⟨_, _, rfl, ?_⟩
    intro i hi
    have hlt : i < b.channels.length := by
      rcases Nat.lt_or_ge i b.channels.length with e | e
      · exact e
      · rw [List.getElem?_eq_none e] at hi; cases hi
    simp only
    rw [List.getElem?_append_left hlt]
    exact hi
  | channel_close h =>
    cases hg : get_channel b h with
    | none =>
      simp only [run_op, coro_bus_channel_close, hg]
      exact ⟨_, _, rfl, fun i hi => hi⟩
    | some ch =>
      simp only [run_op, coro_bus_channel_close, hg]
      refine ⟨_, _, rfl, ?_⟩
      intro i hi
      simp only [List.getElem?_set]
      split
      · split
        · rfl
        · rename_i e1 e2
          rw [← e1] at hi
          rw [List.getElem?_eq_none (Nat.le_of_not_lt e2)] at hi
          cases hi
      · exact hi
  | try_send h v =>
    cases hg : get_channel b h with
    | none =>
      simp only [run_op, try_send_invalid hg]
      exact ⟨_, _, rfl, fun i hi => hi⟩
    | some ch =>
      by_cases hroom : ch.data.size < ch.size_limit
      · simp only [run_op, try_send_room hg hroom]
        exact ⟨_, _, rfl, hset h ch _ hg⟩
      · simp only [run_op, try_send_full hg (Nat.le_of_not_lt hroom)]
        exact ⟨_, _, rfl, fun i hi => hi⟩
  | try_recv h =>
    cases hg : get_channel b h with
    | none =>
      simp only [run_op, try_recv_invalid hg, Option.map_some']
      exact ⟨_, _, rfl, fun i hi => hi⟩
    | some ch =>
      cases hdata : ch.data.data with
      | nil =>
        simp only [run_op, try_recv_empty hg hdata, Option.map_some']
        exact ⟨_, _, rfl, fun i hi => hi⟩
      | cons x xs =>
        simp only [run_op, try_recv_head hg x xs hdata, Option.map_some']
        exact ⟨_, _, rfl, hset h ch _ hg⟩
  | send h v this =>
    cases hg : get_channel b h with
    | none =>
      simp only [run_op, coro_bus_send, try_send_invalid hg, coro_bus_errno,
        coro_bus_errno_set, if_true, Option.map_some']
      exact ⟨_, _, rfl, fun i hi => hi⟩
    | some ch =>
      by_cases hroom : ch.data.size < ch.size_limit
      · simp only [run_op, coro_bus_send, try_send_room hg hroom]
        exact ⟨_, _, rfl, hset h ch _ hg⟩
      · simp only [run_op, coro_bus_send, try_send_full hg (Nat.le_of_not_lt hroom),
          coro_bus_errno, coro_bus_errno_set, suspend_on_send, hg]
        exact ⟨_, _, rfl, hset h ch _ hg⟩
  | recv h this =>
    cases hg : get_channel b h with
    | none =>
      simp only [run_op, coro_bus_recv, try_recv_invalid hg, coro_bus_errno,
        coro_bus_errno_set, if_true, Option.map_some']
      exact ⟨_, _, rfl, fun i hi => hi⟩
    | some ch =>
      cases hdata : ch.data.data with
      | nil =>
        simp only [run_op, coro_bus_recv, try_recv_empty hg hdata, coro_bus_errno,
          coro_bus_errno_set, suspend_on_recv, hg]
        exact ⟨_, _, rfl, hset h ch _ hg⟩
      | cons x xs =>
        simp only [run_op, coro_bus_recv, try_recv_head hg x xs hdata]
        exact ⟨_, _, rfl, hset h ch _ hg⟩

theorem run_ops_keeps_closed :
    ∀ (ops : List bus_op) (w : World) (b : coro_bus),
      ∃ w1 b1, run_ops ops w (some b) = some (w1, some b1) ∧
        ∀ i : Nat, b.channels[i]? = some none → b1.channels[i]? = some none := by
  intro ops
  induction ops with
  | nil => intro w b; exact ⟨w, b, rfl, fun i hi => hi⟩
  | cons op rest ih =>
    intro w b
    obtain ⟨w1, b1, he, h1⟩ := run_op_keeps_closed w b op
    obtain ⟨w2, b2, he2, h2⟩ := ih w1 b1
    refine ⟨w2, b2, ?_, fun i hi => h2 i (h1 i hi)⟩
    simp only [run_ops, he, he2]

theorem fails_of_no_channel {w : World} {b : coro_bus} {h : Int}
    (hg : get_channel b h = none) : fails_no_channel w b h := by
  refine ⟨fun v => try_send_invalid hg v, try_recv_invalid hg, ?_, ?_, ?_⟩
  · intro v this
    simp only [coro_bus_send, try_send_invalid hg, coro_bus_errno, coro_bus_errno_set,
      if_true]
  · intro this
    simp only [coro_bus_recv, try_recv_invalid hg, coro_bus_errno, coro_bus_errno_set,
      if_true]
  · simp only [coro_bus_channel_close, hg, coro_bus_errno_set]

/-- C8: on every bus, for a handle that is negative, not below the number of
channels opened, or of a closed slot, `coro_bus_try_send`, `coro_bus_try_recv`,
`coro_bus_send`, `coro_bus_recv` and `coro_bus_channel_close` fail with
`CORO_BUS_ERR_NO_CHANNEL`, return -1 where they return a value, do not suspend,
and leave the bus unchanged. A close of an open handle succeeds and empties
the slot, and after any run of calls that follows the slot is still empty, so
that every operation on the handle then fails in this way. -/
theorem invalid_handle_no_channel (w : World) (b : coro_bus) (h : Int) :
    ((h < 0 ∨ h ≥ (b.channels.length : Int) ∨ b.channels[h.toNat]? = some none) →
      fails_no_channel w b h) ∧
    (∀ ch, get_channel b h = some ch →
      ∃ w1 b1, coro_bus_channel_close w (some b) h = (w1, some b1) ∧
        coro_bus_errno w1 = CORO_BUS_ERR_NONE ∧ b1.channels[h.toNat]? = some none ∧
        ∀ ops : List bus_op, ∃ w2 b2, run_ops ops w1 (some b1) = some (w2, some b2) ∧
          b2.channels[h.toNat]? = some none ∧ fails_no_channel w2 b2 h) := by
  refine ⟨fun hinv => fails_of_no_channel (get_channel_invalid hinv), ?_⟩
  intro ch hg
  obtain ⟨h0, hlt, _⟩ := get_channel_some hg
  have hslot : (b.channels.set h.toNat none)[h.toNat]? = some none :=
    List.getElem?_set_self hlt
  refine ⟨coro_bus_errno_set
      { w with wakeups := w.wakeups ++ ch.send_queue ++ ch.recv_queue } CORO_BUS_ERR_NONE,
    { b with channels := b.channels.set h.toNat none }, ?_, rfl, hslot, ?_⟩
  · simp only [coro_bus_channel_close, hg]
  · intro ops
    obtain ⟨w2, b2, he, hk⟩ := run_ops_keeps_closed ops
      (coro_bus_errno_set { w with wakeups := w.wakeups ++ ch.send_queue ++ ch.recv_queue }
        CORO_BUS_ERR_NONE)
      { b with channels := b.channels.set h.toNat none }
    have h2 := hk h.toNat hslot
    exact ⟨w2, b2, he, h2,
      fails_of_no_channel (get_channel_invalid (Or.inr (Or.inr h2)))⟩

/-- Witness for C8: on `demo_bus` handle 5 is out of range, and handle 0 is
open; after it is closed a send on it fails, also after a new channel is
opened. -/
theorem invalid_handle_no_channel_witness :
    (5 : Int) ≥ (demo_bus.channels.length : Int) ∧ fails_no_channel demo_world demo_bus 5 ∧
      get_channel demo_bus 0 = some demo_channel ∧
      ∃ w1 b1, coro_bus_channel_close demo_world (some demo_bus) 0 = (w1, some b1) ∧
        coro_bus_errno w1 = CORO_BUS_ERR_NONE ∧ b1.channels[(0 : Int).toNat]? = some none ∧
        ∀ ops : List bus_op, ∃ w2 b2, run_ops ops w1 (some b1) = some (w2, some b2) ∧
          b2.channels[(0 : Int).toNat]? = some none ∧ fails_no_channel w2 b2 0 :=
  ⟨by decide!,
    (invalid_handle_no_channel demo_world demo_bus 5).1 (Or.inr (Or.inl (by decide!))),
    by decide!,
    (invalid_handle_no_channel demo_world demo_bus 0).2 demo_channel (by decide!)⟩

end CoroBus

namespace CoroBus

open coro_bus_error_code

/-! ## Steps keep what holds of every channel -/

theorem slot_lt {b : coro_bus} {i : Nat} {o : Option coro_bus_channel}
    (h : b.channels[i]? = some o) : i < b.channels.length := by
  rcases Nat.lt_or_ge i b.channels.length with e | e
  · exact e
  · rw [List.getElem?_eq_none e] at h; cases h

/-- After the channel behind a handle is replaced, every channel of the bus
has the property that the old ones and the new one have. -/
theorem set_keeps (P : Nat → coro_bus_channel → Prop) {b : coro_bus} {h : Int}
    {ch c : coro_bus_channel} (hg : get_channel b h = some ch) (hc : P h.toNat c)
    (hinv : ∀ (i : Nat) (x : coro_bus_channel), b.channels[i]? = some (some x) → P i x) :
    ∀ (i : Nat) (x : coro_bus_channel),
      (b.channels.set h.toNat (some c))[i]? = some (some x) → P i x := by
  intro i x hx
  by_cases e : h.toNat = i
  · rw [← e, List.getElem?_set_self (get_channel_some hg).2.1] at hx
    cases hx
    rw [← e]; exact hc
  · rw [List.getElem?_set_ne e] at hx
    exact hinv i x hx

theorem set_keeps_closed {b : coro_bus} {h : Int} {ch : coro_bus_channel}
    (hg : get_channel b h = some ch) (c : coro_bus_channel) :
    ∀ i : Nat, b.channels[i]? = some none →
      (b.channels.set h.toNat (some c))[i]? = some none := by
  intro i hi
  have hne : h.toNat ≠ i := by
    intro e
    rw [← e, (get_channel_some hg).2.2] at hi
    cases hi
  rw [List.getElem?_set_ne hne]
  exact hi

theorem keeps_same (P : Nat → coro_bus_channel → Prop) (w : World) {b : coro_bus}
    (hinv : ∀ (i : Nat) (x : coro_bus_channel), b.channels[i]? = some (some x) → P i x) :
    keeps P b 0 (some (w, some b)) :=
  ⟨w, b, rfl, rfl, fun _ hi => hi, hinv⟩

theorem keeps_set (P : Nat → coro_bus_channel → Prop) (w : World) {b : coro_bus} {h : Int}
    {ch : coro_bus_channel} (c : coro_bus_channel) (hg : get_channel b h = some ch)
    (hc : P h.toNat c)
    (hinv : ∀ (i : Nat) (x : coro_bus_channel), b.channels[i]? = some (some x) → P i x) :
    keeps P b 0
      (some (w, some { b with channels := b.channels.set h.toNat (some c) })) :=
  ⟨w, _, rfl, by simp only [List.length_set, Nat.add_zero], set_keeps_closed hg c,
    set_keeps P hg hc hinv⟩

/-- A call of a function of the bus keeps what sends, receives and changes of
the waiter queues keep. -/
theorem run_op_keeps (P : Nat → coro_bus_channel → Prop)
    (hsend : ∀ (i : Nat) (ch : coro_bus_channel) (v : Nat), P i ch →
      ch.data.size < ch.size_limit → P i { ch with data := data_vector_append ch.data v })
    (hrecv : ∀ (i : Nat) (ch : coro_bus_channel) (x : Nat) (xs : List Nat), P i ch →
      ch.data.data = x :: xs → P i { ch with data := { ch.data with data := xs } })
    (hq : ∀ (i : Nat) (ch : coro_bus_channel) (sq rq : wakeup_queue), P i ch →
      P i { ch with send_queue := sq, recv_queue := rq })
    (w : World) (b : coro_bus) (op : bus_op)
    (hopen : ∀ sl, P b.channels.length (new_channel sl))
    (hinv : ∀ (i : Nat) (x : coro_bus_channel), b.channels[i]? = some (some x) → P i x) :
    keeps P b (step_opens (bus_step.call op)) (run_op w (some b) op) := by
  cases op with
  | channel_open sl =>
    refine ⟨_, _, rfl, by simp only [List.length_append, List.length_singleton, step_opens],
      ?_, ?_⟩
    · intro i hi
      simp only
      rw [List.getElem?_append_left (slot_lt hi)]
      exact hi
    · intro i x hx
      simp only at hx
      by_cases hlt : i < b.channels.length
      · rw [List.getElem?_append_left hlt] at hx
        exact hinv i x hx
      · rw [List.getElem?_append_right (Nat.le_of_not_lt hlt)] at hx
        have hi0 : i - b.channels.length = 0 := by
          rcases Nat.eq_zero_or_pos (i - b.channels.length) with e | e
          · exact e
          · rw [List.getElem?_eq_none (by simp only [List.length_singleton]; omega)] at hx
            cases hx
        rw [hi0] at hx
        simp only [List.getElem?_cons_zero, Option.some.injEq] at hx
        have hil : i = b.channels.length := by omega
        rw [hil, ← hx]
        exact hopen sl
  | channel_close h =>
    cases hg : get_channel b h with
    | none =>
      simp only [run_op, coro_bus_channel_close, hg, step_opens]
      exact keeps_same P _ hinv
    | some ch =>
      simp only [run_op, coro_bus_channel_close, hg, step_opens]
      refine ⟨_, _, rfl, by simp only [List.length_set, Nat.add_zero], ?_, ?_⟩
      · intro i hi
        by_cases e : h.toNat = i
        · rw [← e]
          exact List.getElem?_set_self (get_channel_some hg).2.1
        · simp only
          rw [List.getElem?_set_ne e]
          exact hi
      · intro i x hx
        simp only at hx
        by_cases e : h.toNat = i
        · rw [← e, List.getElem?_set_self (get_channel_some hg).2.1] at hx
          cases hx
        · rw [List.getElem?_set_ne e] at hx
          exact hinv i x hx
  | try_send h v =>
    cases hg : get_channel b h with
    | none =>
      simp only [run_op, try_send_invalid hg, step_opens]
      exact keeps_same P _ hinv
    | some ch =>
      have hp := hinv _ _ (get_channel_some hg).2.2
      by_cases hroom : ch.data.size < ch.size_limit
      · simp only [run_op, try_send_room hg hroom, step_opens]
        exact keeps_set P _ _ hg (hsend _ ch v hp hroom) hinv
      · simp only [run_op, try_send_full hg (Nat.le_of_not_lt hroom), step_opens]
        exact keeps_same P _ hinv
  | try_recv h =>
    cases hg : get_channel b h with
    | none =>
      simp only [run_op, try_recv_invalid hg, Option.map_some', step_opens]
      exact keeps_same P _ hinv
    | some ch =>
      have hp := hinv _ _ (get_channel_some hg).2.2
      cases hdata : ch.data.data with
      | nil =>
        simp only [run_op, try_recv_empty hg hdata, Option.map_some', step_opens]
        exact keeps_same P _ hinv
      | cons x xs =>
        simp only [run_op, try_recv_head hg x xs hdata, Option.map_some', step_opens]
        exact keeps_set P _ _ hg (hrecv _ ch x xs hp hdata) hinv
  | send h v this =>
    cases hg : get_channel b h with
    | none =>
      simp only [run_op, coro_bus_send, try_send_invalid hg, coro_bus_errno,
        coro_bus_errno_set, if_true, Option.map_some', step_opens]
      exact keeps_same P _ hinv
    | some ch =>
      have hp := hinv _ _ (get_channel_some hg).2.2
      by_cases hroom : ch.data.size < ch.size_limit
      · simp only [run_op, coro_bus_send, try_send_room hg hroom, step_opens]
        exact keeps_set P _ _ hg (hsend _ ch v hp hroom) hinv
      · simp only [run_op, coro_bus_send, try_send_full hg (Nat.le_of_not_lt hroom),
          coro_bus_errno, coro_bus_errno_set, suspend_on_send, hg, step_opens]
        exact keeps_set P _ _ hg (hq _ ch (ch.send_queue ++ [this]) ch.recv_queue hp) hinv
  | recv h this =>
    cases hg : get_channel b h with
    | none =>
      simp only [run_op, coro_bus_recv, try_recv_invalid hg, coro_bus_errno,
        coro_bus_errno_set, if_true, Option.map_some', step_opens]
      exact keeps_same P _ hinv
    | some ch =>
      have hp := hinv _ _ (get_channel_some hg).2.2
      cases hdata : ch.data.data with
      | nil =>
        simp only [run_op, coro_bus_recv, try_recv_empty hg hdata, coro_bus_errno,
          coro_bus_errno_set, suspend_on_recv, hg, step_opens]
        exact keeps_set P _ _ hg (hq _ ch ch.send_queue (ch.recv_queue ++ [this]) hp) hinv
      | cons x xs =>
        simp only [run_op, coro_bus_recv, try_recv_head hg x xs hdata, step_opens]
        exact keeps_set P _ _ hg (hrecv _ ch x xs hp hdata) hinv

theorem keeps_trans (P : Nat → coro_bus_channel → Prop) {b b1 : coro_bus} {n m : Nat}
    {r : Option (World × Option coro_bus)}
    (hlen : b1.channels.length = b.channels.length + n)
    (hclosed : ∀ i : Nat, b.channels[i]? = some none → b1.channels[i]? = some none)
    (hk : keeps P b1 m r) : keeps P b (n + m) r := by
  obtain ⟨w2, b2, he, hl, hc, hi⟩ := hk
  exact ⟨w2, b2, he, by omega, fun i h => hc i (hclosed i h), hi⟩

/-- Leaving the send queue keeps the slots and what holds of every channel. -/
theorem leave_send_keeps (P : Nat → coro_bus_channel → Prop)
    (hq : ∀ (i : Nat) (ch : coro_bus_channel) (sq rq : wakeup_queue), P i ch →
      P i { ch with send_queue := sq, recv_queue := rq })
    (b : coro_bus) (h : Int) (this : Nat)
    (hinv : ∀ (i : Nat) (x : coro_bus_channel), b.channels[i]? = some (some x) → P i x) :
    ∃ b1, leave_send (some b) h this = some b1 ∧
      b1.channels.length = b.channels.length ∧
      (∀ i : Nat, b.channels[i]? = some none → b1.channels[i]? = some none) ∧
      (∀ (i : Nat) (x : coro_bus_channel), b1.channels[i]? = some (some x) → P i x) := by
  cases hg : get_channel b h with
  | none => exact ⟨b, by simp only [leave_send, hg], rfl, fun _ hi => hi, hinv⟩
  | some ch =>
    exact ⟨⟨b.channels.set h.toNat (some { ch with send_queue := ch.send_queue.erase this })⟩,
      by simp only [leave_send, hg], by simp only [List.length_set],
      set_keeps_closed hg _,
      set_keeps P hg (hq _ ch (ch.send_queue.erase this) ch.recv_queue
        (hinv _ _ (get_channel_some hg).2.2)) hinv⟩

/-- Leaving the receive queue keeps the slots and what holds of every channel. -/
theorem leave_recv_keeps (P : Nat → coro_bus_channel → Prop)
    (hq : ∀ (i : Nat) (ch : coro_bus_channel) (sq rq : wakeup_queue), P i ch →
      P i { ch with send_queue := sq, recv_queue := rq })
    (b : coro_bus) (h : Int) (this : Nat)
    (hinv : ∀ (i : Nat) (x : coro_bus_channel), b.channels[i]? = some (some x) → P i x) :
    ∃ b1, leave_recv (some b) h this = some b1 ∧
      b1.channels.length = b.channels.length ∧
      (∀ i : Nat, b.channels[i]? = some none → b1.channels[i]? = some none) ∧
      (∀ (i : Nat) (x : coro_bus_channel), b1.channels[i]? = some (some x) → P i x) := by
  cases hg : get_channel b h with
  | none => exact ⟨b, by simp only [leave_recv, hg], rfl, fun _ hi => hi, hinv⟩
  | some ch =>
    exact ⟨⟨b.channels.set h.toNat (some { ch with recv_queue := ch.recv_queue.erase this })⟩,
      by simp only [leave_recv, hg], by simp only [List.length_set],
      set_keeps_closed hg _,
      set_keeps P hg (hq _ ch ch.send_queue (ch.recv_queue.erase this)
        (hinv _ _ (get_channel_some hg).2.2)) hinv⟩

/-- A step of a run, a call or a resumption, keeps what sends, receives and
changes of the waiter queues keep. -/
theorem run_step_keeps (P : Nat → coro_bus_channel → Prop)
    (hsend : ∀ (i : Nat) (ch : coro_bus_channel) (v : Nat), P i ch →
      ch.data.size < ch.size_limit → P i { ch with data := data_vector_append ch.data v })
    (hrecv : ∀ (i : Nat) (ch : coro_bus_channel) (x : Nat) (xs : List Nat), P i ch →
      ch.data.data = x :: xs → P i { ch with data := { ch.data with data := xs } })
    (hq : ∀ (i : Nat) (ch : coro_bus_channel) (sq rq : wakeup_queue), P i ch →
      P i { ch with send_queue := sq, recv_queue := rq })
    (w : World) (b : coro_bus) (st : bus_step)
    (hopen : ∀ sl, P b.channels.length (new_channel sl))
    (hinv : ∀ (i : Nat) (x : coro_bus_channel), b.channels[i]? = some (some x) → P i x) :
    keeps P b (step_opens st) (run_step w (some b) st) := by
  cases st with
  | call op => exact run_op_keeps P hsend hrecv hq w b op hopen hinv
  | resume_send h v this =>
    obtain ⟨b1, he, hl, hc, hi⟩ := leave_send_keeps P hq b h this hinv
    have hk := run_op_keeps P hsend hrecv hq w b1 (bus_op.send h v this)
      (by rw [hl]; exact hopen) hi
    have ht := keeps_trans P (show b1.channels.length = b.channels.length + 0 from hl) hc hk
    simp only [run_step, coro_bus_send_resume, he]
    exact ht
  | resume_recv h this =>
    obtain ⟨b1, he, hl, hc, hi⟩ := leave_recv_keeps P hq b h this hinv
    have hk := run_op_keeps P hsend hrecv hq w b1 (bus_op.recv h this)
      (by rw [hl]; exact hopen) hi
    have ht := keeps_trans P (show b1.channels.length = b.channels.length + 0 from hl) hc hk
    simp only [run_step, coro_bus_recv_resume, he]
    exact ht

/-- A run of steps ends with the bus still there; it has one more slot for each
open, closed slots stay closed, and what holds of every channel at the start
and of every new channel from slot `k` on holds of every channel at the end. -/
theorem run_steps_keeps (P : Nat → coro_bus_channel → Prop)
    (hsend : ∀ (i : Nat) (ch : coro_bus_channel) (v : Nat), P i ch →
      ch.data.size < ch.size_limit → P i { ch with data := data_vector_append ch.data v })
    (hrecv : ∀ (i : Nat) (ch : coro_bus_channel) (x : Nat) (xs : List Nat), P i ch →
      ch.data.data = x :: xs → P i { ch with data := { ch.data with data := xs } })
    (hq : ∀ (i : Nat) (ch : coro_bus_channel) (sq rq : wakeup_queue), P i ch →
      P i { ch with send_queue := sq, recv_queue := rq })
    (k : Nat) (hopen : ∀ (n sl : Nat), k ≤ n → P n (new_channel sl)) :
    ∀ (steps : List bus_step) (w : World) (b : coro_bus), k ≤ b.channels.length →
      (∀ (i : Nat) (x : coro_bus_channel), b.channels[i]? = some (some x) → P i x) →
      keeps P b (count_opens steps) (run_steps steps w (some b)) := by
  intro steps
  induction steps with
  | nil => intro w b _ hinv; exact keeps_same P w hinv
  | cons st rest ih =>
    intro w b hk hinv
    obtain ⟨w1, b1, he, hl, hc, hi⟩ :=
      run_step_keeps P hsend hrecv hq w b st (fun sl => hopen _ sl hk) hinv
    have ht := keeps_trans P hl hc (ih w1 b1 (by omega) hi)
    simp only [run_steps, he, count_opens]
    exact ht

/-! ## Handles -/

/-- C17: on every bus `coro_bus_channel_open` returns the number of slots of
the bus, sets the error code to `CORO_BUS_ERR_NONE` and appends one slot with
an empty channel of the requested capacity and empty waiter queues; every slot
that was there, open or closed, is unchanged. After every run of calls and
resumptions on a new bus the run has ended with as many slots as it had opens,
closes or not, so the next open returns the number of opens before it: the
n-th open returns n - 1. -/
theorem channel_open_handle_counts_opens (w : World) (b : coro_bus) (size_limit : Nat)
    (steps : List bus_step) :
    coro_bus_channel_open w (some b) size_limit
      = ((b.channels.length : Int), { w with global_error := CORO_BUS_ERR_NONE },
          some { channels := b.channels ++ [some (new_channel size_limit)] }) ∧
    (∀ i : Nat, i < b.channels.length →
      (b.channels ++ [some (new_channel size_limit)])[i]? = b.channels[i]?) ∧
    get_channel { channels := b.channels ++ [some (new_channel size_limit)] }
      (b.channels.length : Int) = some (new_channel size_limit) ∧
    (new_channel size_limit).data.data = [] ∧
    (new_channel size_limit).size_limit = size_limit ∧
    ∃ w1 b1, run_steps steps w (some coro_bus_new) = some (w1, some b1) ∧
      b1.channels.length = count_opens steps ∧
      (coro_bus_channel_open w1 (some b1) size_limit).1 = (count_opens steps : Int) := by
  refine ⟨rfl, fun i hi => List.getElem?_append_left hi, ?_, rfl, rfl, ?_⟩
  · refine get_channel_of (Int.ofNat_nonneg _) ?_
    simp only [Int.toNat_ofNat]
    rw [List.getElem?_append_right (Nat.le_refl _), Nat.sub_self]
    rfl
  · obtain ⟨w1, b1, he, hl, _, _⟩ :=
      run_steps_keeps (fun _ _ => True) (fun _ _ _ _ _ => trivial)
        (fun _ _ _ _ _ _ => trivial) (fun _ _ _ _ _ => trivial) 0
        (fun _ _ _ => trivial) steps w coro_bus_new (Nat.zero_le _) (fun _ _ _ => trivial)
    have hl0 : b1.channels.length = count_opens steps := by
      rw [hl]; simp only [coro_bus_new, List.length_nil, Nat.zero_add]
    refine ⟨w1, b1, he, hl0, ?_⟩
    simp only [coro_bus_channel_open, coro_bus.channel_count, hl0]

/-! ## The capacity -/

/-- C13: every run of calls of open, close, try_send, try_recv, send and recv,
and of resumptions of suspended sends and receives, on a new bus ends, and
then every open channel holds at most `size_limit` messages; and on every bus a
`coro_bus_try_send` that returns 0 found an open channel with fewer than
`size_limit` messages. -/
theorem size_within_limit (w : World) (steps : List bus_step) :
    (∃ w1 b1, run_steps steps w (some coro_bus_new) = some (w1, some b1) ∧
      ∀ (h : Int) (ch : coro_bus_channel), get_channel b1 h = some ch →
        ch.data.size ≤ ch.size_limit) ∧
    ∀ (w1 : World) (b1 : coro_bus) (h : Int) (v : Nat),
      (coro_bus_try_send w1 (some b1) h v).1 = 0 →
      ∃ ch, get_channel b1 h = some ch ∧ ch.data.size < ch.size_limit := by
  constructor
  · obtain ⟨w1, b1, he, _, _, hi⟩ :=
      run_steps_keeps (fun _ ch => ch.data.size ≤ ch.size_limit)
        (fun _ ch v _ hroom => by
          simp only [data_vector_append, data_vector_append_many, data_vector.size,
            List.length_append, List.length_singleton] at hroom ⊢
          omega)
        (fun _ ch x xs hp hdata => by
          simp only [data_vector.size, hdata, List.length_cons] at hp ⊢
          omega)
        (fun _ _ _ _ hp => hp) 0
        (fun _ sl _ => by
          simp only [new_channel, data_vector.size, List.length_nil]; exact Nat.zero_le _)
        steps w coro_bus_new (Nat.zero_le _)
        (fun i x hx => by
          simp only [coro_bus_new, List.getElem?_nil] at hx
          cases hx)
    exact ⟨w1, b1, he, fun h ch hg => hi _ _ (get_channel_some hg).2.2⟩
  · intro w1 b1 h v hr
    cases hg : get_channel b1 h with
    | none =>
      rw [try_send_invalid hg] at hr
      have hr2 : (-1 : Int) = 0 := hr
      exact absurd hr2 (by decide)
    | some ch =>
      by_cases hroom : ch.data.size < ch.size_limit
      · exact ⟨ch, rfl, hroom⟩
      · rw [try_send_full hg (Nat.le_of_not_lt hroom)] at hr
        have hr2 : (-1 : Int) = 0 := hr
        exact absurd hr2 (by decide)

/-! ## Closing a channel with waiters -/

theorem resumed_fails_of_no_channel {w : World} {b : coro_bus} {h : Int}
    (hg : get_channel b h = none) : resumed_fails_no_channel w b h := by
  constructor
  · intro v this
    simp only [coro_bus_send_resume, leave_send, hg]
    exact (fails_of_no_channel hg).2.2.1 v this
  · intro this
    simp only [coro_bus_recv_resume, leave_recv, hg]
    exact (fails_of_no_channel hg).2.2.2.1 this

theorem get_channel_set_other {b : coro_bus} {h k : Int} (o : Option coro_bus_channel)
    (h0 : 0 ≤ h) (hk : k ≠ h) :
    get_channel { b with channels := b.channels.set h.toNat o } k = get_channel b k := by
  simp only [get_channel, coro_bus.channel_count, List.length_set]
  by_cases hr : k < 0 ∨ k ≥ (b.channels.length : Int)
  · rw [if_pos hr, if_pos hr]
  · rw [if_neg hr, if_neg hr]
    have hne : h.toNat ≠ k.toNat := by omega
    rw [List.getD_eq_getElem?_getD, List.getD_eq_getElem?_getD, List.getElem?_set_ne hne]

/-- C14: `coro_bus_channel_close` on an open channel hands every coroutine of
the send queue and then every coroutine of the receive queue to `coro_wakeup`,
as many wakeups as the two queues have entries, sets the error code to
`CORO_BUS_ERR_NONE` and makes the slot empty; the bus keeps its number of slots
and the channel behind every other handle. After that, and after every further
run of calls and resumptions, `coro_bus_try_send`, `coro_bus_try_recv`,
`coro_bus_send` and `coro_bus_recv` on the handle, and a resumed
`coro_bus_send` or `coro_bus_recv` of a woken coroutine, fail with
`CORO_BUS_ERR_NO_CHANNEL`. -/
theorem close_wakes_all_waiters (w : World) (b : coro_bus) (h : Int) (ch : coro_bus_channel)
    (hg : get_channel b h = some ch) :
    ∃ w1 b1, coro_bus_channel_close w (some b) h = (w1, some b1) ∧
      w1.wakeups = w.wakeups ++ ch.send_queue ++ ch.recv_queue ∧
      w1.wakeups.length = w.wakeups.length + (ch.send_queue.length + ch.recv_queue.length) ∧
      w1.global_error = CORO_BUS_ERR_NONE ∧
      b1.channels.length = b.channels.length ∧
      b1.channels[h.toNat]? = some none ∧
      (∀ i : Nat, i ≠ h.toNat → b1.channels[i]? = b.channels[i]?) ∧
      (∀ k : Int, k ≠ h → get_channel b1 k = get_channel b k) ∧
      ∀ (steps : List bus_step) (w2 : World),
        ∃ w3 b3, run_steps steps w2 (some b1) = some (w3, some b3) ∧
          fails_no_channel w3 b3 h ∧ resumed_fails_no_channel w3 b3 h := by
  obtain ⟨h0, h1, _⟩ := get_channel_some hg
  refine ⟨{ global_error := CORO_BUS_ERR_NONE,
            wakeups := w.wakeups ++ ch.send_queue ++ ch.recv_queue },
    ⟨b.channels.set h.toNat none⟩, ?_, rfl, ?_, rfl, ?_, ?_, ?_, ?_, ?_⟩
  · simp only [coro_bus_channel_close, hg, coro_bus_errno_set]
  · simp only [List.length_append]; omega
  · simp only [List.length_set]
  · exact List.getElem?_set_self h1
  · intro i hi
    exact List.getElem?_set_ne (Ne.symm hi)
  · intro k hk
    exact get_channel_set_other none h0 hk
  · intro steps w2
    have hclosed : (b.channels.set h.toNat none)[h.toNat]? = some none :=
      List.getElem?_set_self h1
    obtain ⟨w3, b3, he, _, hc, _⟩ :=
      run_steps_keeps (fun _ _ => True) (fun _ _ _ _ _ => trivial)
        (fun _ _ _ _ _ _ => trivial) (fun _ _ _ _ _ => trivial) 0
        (fun _ _ _ => trivial) steps w2 ⟨b.channels.set h.toNat none⟩ (Nat.zero_le _)
        (fun _ _ _ => trivial)
    have hg3 : get_channel b3 h = none := get_channel_of h0 (hc _ hclosed)
    exact ⟨w3, b3, he, fails_of_no_channel hg3, resumed_fails_of_no_channel hg3⟩

/-- Witness for C14: `demo_waiting_bus` is the bus at the end of the run
`demo_waiting`; coroutine 4 waits in the send queue and coroutine 3 in the
receive queue of its channel 0. -/
theorem close_wakes_all_waiters_witness :
    demo_waiting = some ({ global_error := CORO_BUS_ERR_WOULD_BLOCK, wakeups := [3, 3] },
      some demo_waiting_bus) ∧
    get_channel demo_waiting_bus 0 = some demo_waiting_channel ∧
    ∃ w1 b1, coro_bus_channel_close demo_world (some demo_waiting_bus) 0 = (w1, some b1) ∧
      w1.wakeups = demo_world.wakeups ++ demo_waiting_channel.send_queue
        ++ demo_waiting_channel.recv_queue ∧
      w1.wakeups.length = demo_world.wakeups.length
        + (demo_waiting_channel.send_queue.length + demo_waiting_channel.recv_queue.length) ∧
      w1.global_error = CORO_BUS_ERR_NONE ∧
      b1.channels.length = demo_waiting_bus.channels.length ∧
      b1.channels[(0 : Int).toNat]? = some none ∧
      (∀ i : Nat, i ≠ (0 : Int).toNat → b1.channels[i]? = demo_waiting_bus.channels[i]?) ∧
      (∀ k : Int, k ≠ 0 → get_channel b1 k = get_channel demo_waiting_bus k) ∧
      ∀ (steps : List bus_step) (w2 : World),
        ∃ w3 b3, run_steps steps w2 (some b1) = some (w3, some b3) ∧
          fails_no_channel w3 b3 0 ∧ resumed_fails_no_channel w3 b3 0 :=
  ⟨by decide!, by decide!,
    close_wakes_all_waiters demo_world demo_waiting_bus 0 demo_waiting_channel (by decide!)⟩

/-! ## A channel of capacity 0 -/

theorem never_delivers_of_no_channel {w : World} {b : coro_bus} {h : Int}
    (hg : get_channel b h = none) : never_delivers w b h := by
  have hf := fails_of_no_channel (w := w) hg
  have hr := resumed_fails_of_no_channel (w := w) hg
  refine ⟨fun v => ?_, ⟨_, hf.2.1, rfl, rfl⟩, fun v this => ⟨_, hf.2.2.1 v this, Or.inr rfl⟩,
    fun this => ⟨_, hf.2.2.2.1 this, Or.inr rfl, rfl⟩,
    fun v this => ⟨_, hr.1 v this, Or.inr rfl⟩, fun this => ⟨_, hr.2 this, Or.inr rfl, rfl⟩⟩
  rw [hf.1 v]

/-- On an open channel with `size_limit` 0 and no message, a send and a
receive are suspended. -/
theorem blocks_of_zero {w : World} {b : coro_bus} {h : Int} {ch : coro_bus_channel}
    (hg : get_channel b h = some ch) (hl : ch.size_limit = 0) (hd : ch.data.data = []) :
    (∀ v, (coro_bus_try_send w (some b) h v).1 = -1) ∧
    (∃ r, coro_bus_try_recv w (some b) h = some r ∧ r.1 = -1 ∧ r.2.1 = none) ∧
    (∀ v this, ∃ r, coro_bus_send w (some b) h v this = some r ∧ r.1 = blocking.suspended) ∧
    (∀ this, ∃ r, coro_bus_recv w (some b) h this = some r ∧
      r.1 = blocking.suspended ∧ r.2.1 = none) := by
  have hfull : ch.data.size ≥ ch.size_limit := by rw [hl]; exact Nat.zero_le _
  refine ⟨fun v => ?_, ⟨_, try_recv_empty hg hd, rfl, rfl⟩, fun v this => ?_, fun this => ?_⟩
  · rw [try_send_full hg hfull]
  · simp only [coro_bus_send, try_send_full hg hfull, coro_bus_errno, coro_bus_errno_set,
      suspend_on_send, hg]
    exact ⟨_, rfl, rfl⟩
  · simp only [coro_bus_recv, try_recv_empty hg hd, coro_bus_errno, coro_bus_errno_set,
      suspend_on_recv, hg]
    exact ⟨_, rfl, rfl, rfl⟩

theorem never_delivers_of_zero {w : World} {b : coro_bus} {h : Int} {ch : coro_bus_channel}
    (hg : get_channel b h = some ch) (hl : ch.size_limit = 0) (hd : ch.data.data = []) :
    never_delivers w b h := by
  obtain ⟨h1, h2, h3, h4⟩ := blocks_of_zero (w := w) hg hl hd
  refine ⟨h1, h2, fun v this => ?_, fun this => ?_, fun v this => ?_, fun this => ?_⟩
  · obtain ⟨r, he, hr⟩ := h3 v this
    exact ⟨r, he, Or.inl hr⟩
  · obtain ⟨r, he, hr, hn⟩ := h4 this
    exact ⟨r, he, Or.inl hr, hn⟩
  · have hg1 := get_channel_set_self hg
      (some { ch with send_queue := ch.send_queue.erase this })
    obtain ⟨r, he, hr⟩ := (blocks_of_zero (w := w) hg1 hl hd).2.2.1 v this
    refine ⟨r, ?_, Or.inl hr⟩
    simp only [coro_bus_send_resume, leave_send, hg]
    exact he
  · have hg1 := get_channel_set_self hg
      (some { ch with recv_queue := ch.recv_queue.erase this })
    obtain ⟨r, he, hr, hn⟩ := (blocks_of_zero (w := w) hg1 hl hd).2.2.2 this
    refine ⟨r, ?_, Or.inl hr, hn⟩
    simp only [coro_bus_recv_resume, leave_recv, hg]
    exact he

/-- C15, as the code has it: `coro_bus_channel_open` with capacity 0 succeeds
on every bus, and after every run of calls and resumptions that follows, by
whatever coroutines and in whatever order, the run has ended and the channel
behind the handle is closed or has `size_limit` 0 and holds no message; then
`coro_bus_try_send` and `coro_bus_try_recv` on the handle return -1, every
`coro_bus_send` and `coro_bus_recv` and every resumption of one is suspended
or returns -1, none returns 0, and no receive stores a message. -/
theorem capacity_zero_never_delivers (w : World) (b : coro_bus) (steps : List bus_step) :
    (coro_bus_channel_open w (some b) 0).1 = (b.channels.length : Int) ∧
    ∃ w1 b1, run_steps steps (coro_bus_channel_open w (some b) 0).2.1
        (coro_bus_channel_open w (some b) 0).2.2 = some (w1, some b1) ∧
      (get_channel b1 (b.channels.length : Int) = none ∨
        ∃ ch, get_channel b1 (b.channels.length : Int) = some ch ∧
          ch.size_limit = 0 ∧ ch.data.data = []) ∧
      never_delivers w1 b1 (b.channels.length : Int) := by
  refine ⟨rfl, ?_⟩
  have hk := run_steps_keeps
    (fun i ch => i = b.channels.length → ch.size_limit = 0 ∧ ch.data.data = [])
    (fun i ch v hp hroom hi => by
      have hz := (hp hi).1
      have hd := (hp hi).2
      simp only [data_vector.size, hd, hz, List.length_nil] at hroom
      exact absurd hroom (Nat.lt_irrefl 0))
    (fun i ch x xs hp hdata hi => by
      rw [(hp hi).2] at hdata
      cases hdata)
    (fun i ch sq rq hp hi => hp hi)
    (b.channels.length + 1)
    (fun n sl hn hi => by omega)
    steps { w with global_error := CORO_BUS_ERR_NONE }
    ⟨b.channels ++ [some (new_channel 0)]⟩
    (by simp only [List.length_append, List.length_singleton]; exact Nat.le_refl _)
    (fun i x hx hi => by
      rw [hi, List.getElem?_append_right (Nat.le_refl _), Nat.sub_self] at hx
      simp only [List.getElem?_cons_zero, Option.some.injEq] at hx
      rw [← hx]
      exact ⟨rfl, rfl⟩)
  obtain ⟨w1, b1, he, hl, _, hi⟩ := hk
  refine ⟨w1, b1, he, ?_⟩
  have hlt : b.channels.length < b1.channels.length := by
    rw [hl]; simp only [List.length_append, List.length_singleton]; omega
  cases hslot : b1.channels[b.channels.length]? with
  | none =>
    rw [List.getElem?_eq_none_iff] at hslot
    omega
  | some o =>
    have hg : get_channel b1 (b.channels.length : Int) = o :=
      get_channel_of (Int.ofNat_nonneg _) (by simp only [Int.toNat_ofNat]; exact hslot)
    cases o with
    | none => exact ⟨Or.inl hg, never_delivers_of_no_channel hg⟩
    | some ch =>
      have hp := hi _ _ hslot rfl
      exact ⟨Or.inr ⟨ch, hg, hp.1, hp.2⟩, never_delivers_of_zero hg hp.1 hp.2⟩

/-- C15, the claim fails: on a new bus with one channel of capacity 0, the
`coro_bus_send` of the message 7 by coroutine 1 is suspended, the
`coro_bus_recv` by coroutine 2 that follows is suspended too and stores no
message, nobody is woken, and when either coroutine is resumed it is suspended
again with the bus as it was. -/
theorem capacity_zero_send_and_recv_both_wait :
    demo_zero_sent
      = some (blocking.suspended, demo_zero_world,
          some { channels := [some { size_limit := 0, send_queue := [1], recv_queue := [],
                                     data := { data := [], capacity := 0 } }] }) ∧
    demo_zero_met = some (blocking.suspended, none, demo_zero_world, some demo_zero_bus) ∧
    demo_zero_world.wakeups = [] ∧
    coro_bus_send_resume demo_zero_world (some demo_zero_bus) 0 7 1
      = some (blocking.suspended, demo_zero_world, some demo_zero_bus) ∧
    coro_bus_recv_resume demo_zero_world (some demo_zero_bus) 0 2
      = some (blocking.suspended, none, demo_zero_world, some demo_zero_bus) := by
  decide!

end CoroBus
